import Mathlib

/-!
Verification of the DPLL-style SAT solver repository.

This file shallowly embeds the repository's Python sources:

* `src/DPLL/DPLL.py`      — class `DPLL` (watched-literal recursive solver), namespace `DP`;
* `src/DPLL/DPLLFast.py`  — class `DPLLFast` (flat iterative solver), namespace `DF`;
* `src/cnf_flat.py`       — `flatten_clauses`, `random_3sat_flat`, namespace `Gen`;
* `src/3way.py`           — `par10_time` and the per-cell aggregation loop, namespace `Exp`.

Conventions of the embedding:

* Python mutable objects become explicit state records passed and returned.
* Python `while` loops become fuel-indexed recursion: a result of `none`
  (or a dedicated constructor) means the fuel ran out, and every theorem
  quantifies over the fuel, so no behaviour is asserted for exhausted fuel.
* Python `float` arithmetic is modelled by `Rat`; wall-clock readings are an
  oracle parameter (a function from the step counter to elapsed seconds).
* Python integers are `Int`, list indices `Nat`; out-of-range reads that the
  source never performs on reachable states are modelled with `getD` defaults.
-/

/-! ## Truth-functional semantics of CNF formulas -/

/-- A literal is satisfied by a total assignment `τ`:
`l > 0` and variable `|l|` true, or `l < 0` and variable `|l|` false. -/
def litSat (τ : Nat → Bool) (l : Int) : Prop :=
  (0 < l ∧ τ l.natAbs = true) ∨ (l < 0 ∧ τ l.natAbs = false)

instance (τ : Nat → Bool) (l : Int) : Decidable (litSat τ l) := by
  unfold litSat; infer_instance

/-- A clause is satisfied when one of its literals is. -/
def clauseSat (τ : Nat → Bool) (c : List Int) : Prop := ∃ l ∈ c, litSat τ l

instance (τ : Nat → Bool) (c : List Int) : Decidable (clauseSat τ c) :=
  List.decidableBEx _ c

/-- A formula is satisfied when every clause is. -/
def formulaSat (τ : Nat → Bool) (clauses : List (List Int)) : Prop :=
  ∀ c ∈ clauses, clauseSat τ c

/-- No total assignment satisfies the formula. -/
def noTotalSat (clauses : List (List Int)) : Prop :=
  ∀ τ : Nat → Bool, ¬ formulaSat τ clauses

/-- The model returned by `solve` (a `var ↦ bool` table) satisfies a clause:
there is a literal `l` in it with `l > 0` and `m[|l|]` true, or `l < 0` and
`m[|l|]` false. -/
def modelSatClause (m : List (Nat × Bool)) (c : List Int) : Prop :=
  ∃ l ∈ c, (0 < l ∧ m.lookup l.natAbs = some true) ∨
           (l < 0 ∧ m.lookup l.natAbs = some false)

instance (m : List (Nat × Bool)) (c : List Int) : Decidable (modelSatClause m c) :=
  List.decidableBEx _ c

/-- The returned model satisfies every clause of the formula. -/
def modelSatisfies (m : List (Nat × Bool)) (clauses : List (List Int)) : Prop :=
  ∀ c ∈ clauses, modelSatClause m c

instance (m : List (Nat × Bool)) (clauses : List (List Int)) :
    Decidable (modelSatisfies m clauses) :=
  List.decidableBAll _ clauses

/-- Input well-formedness used by the data model (§3 of the spec): every
literal is a nonzero integer whose variable is within `1..=num_vars`. -/
def wfFormula (clauses : List (List Int)) (numVars : Nat) : Prop :=
  ∀ c ∈ clauses, ∀ l ∈ c, l ≠ 0 ∧ l.natAbs ≤ numVars

instance (clauses : List (List Int)) (numVars : Nat) :
    Decidable (wfFormula clauses numVars) := by
  unfold wfFormula; infer_instance

/-! ## Embedding of `src/DPLL/DPLL.py` (class `DPLL`) -/

namespace DP

/-- Mutable state of a `DPLL` object: assignment (`None`/`True`/`False` per
variable, index 0 unused), trail of `(var, value)` pairs, watched positions
per clause, watcher lists per literal (modelled as a function, matching the
`defaultdict(list)`), the propagation cursor and the split counter. -/
structure St where
  clauses : List (List Int)
  numVars : Nat
  assignment : Nat → Option Bool
  trail : List (Nat × Bool)
  varFreq : Nat → Nat
  watchPos : List (Nat × Nat)
  watchlist : Int → List Nat
  lastPropagated : Nat
  splitCount : Nat

/-- `lit > 0 and val` / `lit < 0 and not val` — literal true under the
current partial assignment (both operands assigned), from `check_status`. -/
def litIsTrue (a : Nat → Option Bool) (l : Int) : Bool :=
  match a l.natAbs with
  | none => false
  | some val => (decide (0 < l) && val) || (decide (l < 0) && !val)

/-- `(L > 0 and not val) or (L < 0 and val)` — literal false under the
current partial assignment, from `propagate`'s replacement scan. -/
def litIsFalse (a : Nat → Option Bool) (l : Int) : Bool :=
  match a l.natAbs with
  | none => false
  | some val => (decide (0 < l) && !val) || (decide (l < 0) && val)

/-- `_init_watches`: clause of length 0 watches `(0,0)` and registers
nothing; length 1 watches `(0,0)` and registers its literal once; length ≥ 2
watches `(0,1)` and registers the first two literals. -/
def initWatches : Nat → List (List Int) → List (Nat × Nat) → (Int → List Nat) →
    List (Nat × Nat) × (Int → List Nat)
  | _, [], wp, wl => (wp, wl)
  | ci, c :: rest, wp, wl =>
    match c with
    | [] => initWatches (ci + 1) rest (wp ++ [(0, 0)]) wl
    | [l] => initWatches (ci + 1) rest (wp ++ [(0, 0)])
        (fun x => if x = l then wl l ++ [ci] else wl x)
    | l1 :: l2 :: _ =>
        let wlA := fun x => if x = l1 then wl l1 ++ [ci] else wl x
        let wlB := fun x => if x = l2 then wlA l2 ++ [ci] else wlA x
        initWatches (ci + 1) rest (wp ++ [(0, 1)]) wlB

/-- `var_freq` table built in `__init__`. -/
def varFreqOf (clauses : List (List Int)) : Nat → Nat :=
  clauses.foldl (fun f c =>
    c.foldl (fun f2 l => fun v => if v = l.natAbs then f2 v + 1 else f2 v) f)
    (fun _ => 0)

/-- `DPLL.__init__` in in-memory mode (`clauses=…, num_vars=N`). -/
def mkSt (clauses : List (List Int)) (numVars : Nat) : St :=
  let ww := initWatches 0 clauses [] (fun _ => [])
  { clauses := clauses, numVars := numVars,
    assignment := fun _ => none, trail := [],
    varFreq := varFreqOf clauses,
    watchPos := ww.1, watchlist := ww.2,
    lastPropagated := 0, splitCount := 0 }

/-- `assign_literal`: consistent re-assignment returns `True` unchanged,
inconsistent returns `False` unchanged, fresh assignment sets the variable,
pushes the trail and returns `True`. -/
def assignLiteral (σ : St) (lit : Int) : Bool × St :=
  let v := lit.natAbs
  let val := decide (0 < lit)
  match σ.assignment v with
  | some cur => (cur == val, σ)
  | none =>
      (true, { σ with
        assignment := fun w => if w = v then some val else σ.assignment w,
        trail := σ.trail ++ [(v, val)] })

/-- One `trail.pop()` + clear of the popped variable. -/
def undoOne (σ : St) : St :=
  match σ.trail.getLast? with
  | none => σ
  | some (v, _) =>
      { σ with trail := σ.trail.dropLast,
               assignment := fun w => if w = v then none else σ.assignment w }

/-- The `while len(self.trail) > trail_len` loop of `undo_to`. -/
def undoSteps : Nat → St → St
  | 0, σ => σ
  | n + 1, σ => undoSteps n (undoOne σ)

/-- `undo_to(trail_len)`. -/
def undoTo (σ : St) (mark : Nat) : St :=
  let σ2 := undoSteps (σ.trail.length - mark) σ
  if mark < σ2.lastPropagated then { σ2 with lastPropagated := mark } else σ2

/-- Queue of newly-false literals built at the top of `propagate`. -/
def buildQueue (σ : St) : List Int :=
  (σ.trail.drop σ.lastPropagated).map
    (fun p => if p.2 then -(p.1 : Int) else (p.1 : Int))

/-- The replacement scan `for k, L in enumerate(clause)` skipping the two
watched positions, stopping at the first not-known-false literal. -/
def findRepl (a : Nat → Option Bool) (w1 w2 : Nat) : Nat → List Int → Option (Nat × Int)
  | _, [] => none
  | k, l :: rest =>
    if k = w1 ∨ k = w2 then findRepl a w1 w2 (k + 1) rest
    else if litIsFalse a l then findRepl a w1 w2 (k + 1) rest
    else some (k, l)

/-- Result of processing the snapshot of one watcher list: conflict with the
state at the moment of the conflict, or success with the extended queue. -/
inductive PropStep where
  | conflict (σ : St)
  | ok (σ : St) (queue : List Int)

/-- The state carried by either outcome. -/
def PropStep.state : PropStep → St
  | .conflict σ => σ
  | .ok σ _ => σ

/-- Body of `for ci in clauses_watching[:]` in `propagate`: stale watches are
skipped; a replacement moves one watch (updating `watch_pos`, removing the
clause from the false literal's watcher list and appending it to the
replacement's); otherwise the other watched literal decides between
satisfied, conflict, and unit (assign + enqueue its negation). -/
def procWatchers (f : Int) : List Nat → List Int → St → PropStep
  | [], queue, σ => .ok σ queue
  | ci :: rest, queue, σ =>
    let clause := σ.clauses.getD ci []
    let w := σ.watchPos.getD ci (0, 0)
    let w1lit := clause.getD w.1 0
    let w2lit := clause.getD w.2 0
    let info : Option (Nat × Nat × Int) :=
      if w1lit = f then some (w.1, w.2, w2lit)
      else if w2lit = f then some (w.2, w.1, w1lit)
      else none
    match info with
    | none => procWatchers f rest queue σ
    | some (falseIdx, otherIdx, otherLit) =>
      match findRepl σ.assignment w.1 w.2 0 clause with
      | some kL =>
          let wp2 := σ.watchPos.set ci
            (if falseIdx = w.1 then (kL.1, otherIdx) else (otherIdx, kL.1))
          let wlA := fun x => if x = f then (σ.watchlist f).erase ci else σ.watchlist x
          let wlB := fun x => if x = kL.2 then wlA kL.2 ++ [ci] else wlA x
          procWatchers f rest queue { σ with watchPos := wp2, watchlist := wlB }
      | none =>
          match σ.assignment otherLit.natAbs with
          | some val =>
              if (decide (0 < otherLit) && !val) || (decide (otherLit < 0) && val) then
                .conflict σ
              else
                procWatchers f rest queue σ
          | none =>
              let r := assignLiteral σ otherLit
              if r.1 then procWatchers f rest (queue ++ [-otherLit]) r.2
              else .conflict r.2

/-- The `while queue` loop of `propagate`, fuel-indexed. `none` = fuel ran
out; `some (ok?, σ)` mirrors the Python return value and final state. -/
def propagateAux : Nat → List Int → St → Option (Bool × St)
  | 0, _, _ => none
  | _ + 1, [], σ => some (true, σ)
  | fuel + 1, f :: qs, σ =>
      match procWatchers f (σ.watchlist f) qs σ with
      | .conflict σ2 => some (false, σ2)
      | .ok σ2 queue2 => propagateAux fuel queue2 σ2

/-- `propagate()`: build the queue from the unpropagated trail suffix,
advance the cursor, run the queue loop. -/
def propagate (fuel : Nat) (σ : St) : Option (Bool × St) :=
  propagateAux fuel (buildQueue σ) { σ with lastPropagated := σ.trail.length }

/-- Per-clause scan of `check_status`: returns
`(clause_value, clause_undecided)`, breaking at the first true literal. -/
def clauseStat (a : Nat → Option Bool) : List Int → Bool → Bool × Bool
  | [], und => (false, und)
  | l :: rest, und =>
    match a l.natAbs with
    | none => clauseStat a rest true
    | some val =>
        if (decide (0 < l) && val) || (decide (l < 0) && !val) then (true, und)
        else clauseStat a rest und

/-- `check_status()`: `some false` = UNSAT (a fully-false clause), `some
true` = all clauses satisfied, `none` = undecided. -/
def checkStatusAux (a : Nat → Option Bool) : List (List Int) → Option Bool
  | [] => some true
  | c :: rest =>
    let st := clauseStat a c false
    if st.1 then checkStatusAux a rest
    else if !st.2 then some false
    else match checkStatusAux a rest with
         | some false => some false
         | _ => none

def checkStatus (σ : St) : Option Bool := checkStatusAux σ.assignment σ.clauses

/-- Per-clause scan of `choose_branch_literal`: `(satisfied, has_unassigned)`
with a break at the first true literal. -/
def scanClause (a : Nat → Option Bool) : List Int → Bool → Bool × Bool
  | [], hu => (false, hu)
  | l :: rest, hu =>
    match a l.natAbs with
    | none => scanClause a rest true
    | some val =>
        if (decide (0 < l) && val) || (decide (l < 0) && !val) then (true, hu)
        else scanClause a rest hu

/-- `scores[lit] += weight` on the insertion-ordered score table
(`defaultdict(float)` modelled as an association list over `Rat`). -/
def bumpScore : List (Int × Rat) → Int → Rat → List (Int × Rat)
  | [], lit, w => [(lit, w)]
  | p :: rest, lit, w =>
      if p.1 = lit then (p.1, p.2 + w) :: rest else p :: bumpScore rest lit w

/-- Add the clause weight `1 / 2^{|C|}` to every unassigned literal of an
unsatisfied clause. -/
def addClauseScores (a : Nat → Option Bool) (sc : List (Int × Rat))
    (clause : List Int) : List (Int × Rat) :=
  clause.foldl (fun s l =>
    match a l.natAbs with
    | none => bumpScore s l (1 / 2 ^ clause.length)
    | some _ => s) sc

/-- The DSJ score table of `choose_branch_literal`. -/
def chooseScores (σ : St) : List (Int × Rat) :=
  σ.clauses.foldl (fun s c =>
    let st := scanClause σ.assignment c false
    if st.1 || !st.2 then s else addClauseScores σ.assignment s c) []

/-- `choose_branch_literal()`: literal of maximal DSJ score (first maximal
wins, as Python's `max`), `None` when the table is empty. -/
def chooseBranchLiteral (σ : St) : Option Int :=
  match chooseScores σ with
  | [] => none
  | p :: rest => some (rest.foldl (fun best q => if best.2 < q.2 then q else best) p).1

/-- The model `{v: bool(assignment[v])}` (Python's `bool(None)` is `False`). -/
def extractModel (σ : St) : List (Nat × Bool) :=
  (List.range' 1 σ.numVars).map (fun v => (v, (σ.assignment v).getD false))

/-- One branch of `_solve_rec`: `if self.assign_literal(lit) and
self.propagate(): model = self._solve_rec(); …` — the recursive call is
abstracted as `rec`. A failed assignment or a propagation conflict yields
`none` as the branch's model, with the state as mutated so far. -/
def branchWith (rec : St → Option (Option (List (Nat × Bool)) × St))
    (fuel : Nat) (σ : St) (lit : Int) :
    Option (Option (List (Nat × Bool)) × St) :=
  let p := assignLiteral σ lit
  if p.1 then
    match propagate fuel p.2 with
    | none => none
    | some (false, σ2) => some (none, σ2)
    | some (true, σ2) => rec σ2
  else some (none, p.2)

/-- `_solve_rec()`, fuel-indexed. `none` = fuel ran out; otherwise the
returned model (or `none` for this-subtree-UNSAT) together with the mutated
state. -/
def solveRec : Nat → St → Option (Option (List (Nat × Bool)) × St)
  | 0, _ => none
  | fuel + 1, σ =>
    match checkStatus σ with
    | some true => some (some (extractModel σ), σ)
    | some false => some (none, σ)
    | none =>
      match chooseBranchLiteral σ with
      | none => some (some (extractModel σ), σ)
      | some bl =>
        let σa : St := { σ with splitCount := σ.splitCount + 1 }
        let mark := σa.trail.length
        match branchWith (solveRec fuel) fuel σa bl with
        | none => none
        | some (some m, σ2) => some (some m, σ2)
        | some (none, σ2) =>
          let σ3 := undoTo σ2 mark
          match branchWith (solveRec fuel) fuel σ3 (-bl) with
          | none => none
          | some (some m, σ4) => some (some m, σ4)
          | some (none, σ4) => some (none, undoTo σ4 σ3.trail.length)

/-- `solve()`: fresh per-run state, one initial propagation, then the
recursive search. `none` = fuel ran out; `some none` = UNSAT;
`some (some m)` = SAT with model `m`. -/
def solve (clauses : List (List Int)) (numVars : Nat) (fuel : Nat) :
    Option (Option (List (Nat × Bool))) :=
  let σ := mkSt clauses numVars
  match propagate fuel σ with
  | none => none
  | some (false, _) => some none
  | some (true, σ1) =>
    match solveRec fuel σ1 with
    | none => none
    | some (res, _) => some res

end DP

/-! ## Embedding of `src/cnf_flat.py` (flat clause storage) -/

namespace Gen

/-- `flatten_clauses`: concatenated literals plus an offsets array with
`offsets[0] = 0` and clause `i` occupying `lits[offsets[i]:offsets[i+1]]`. -/
def flatStep (acc : List Int × List Nat) (c : List Int) : List Int × List Nat :=
  let lits2 := acc.1 ++ c
  (lits2, acc.2 ++ [lits2.length])

def flattenClauses (clauses : List (List Int)) : List Int × List Nat :=
  clauses.foldl flatStep ([], [0])

/-- Deterministic model of Python's `random.Random` draws: a 64-bit linear
congruential state; `lcgNext` returns a draw and the successor state. The
exact stream differs from CPython's Mersenne twister, but it is a pure
deterministic function of the state, which is what the claims about the
RNG depend on. -/
def lcgNext (s : Nat) : Nat × Nat :=
  let s2 := (6364136223846793005 * s + 1442695040888963407) % (2 ^ 64)
  (s2 / 2 ^ 33, s2)

/-- The surrounding world, supplying the OS entropy that seeds
`random.Random(None)`. -/
structure World where
  entropy : Nat

/-- Model of `random.Random(seed)`: a concrete seed determines the initial
RNG state by itself; `None` draws the state from OS entropy. -/
def rngInit : Option Int → World → Nat
  | some s, _ => s.natAbs + 17
  | none, w => w.entropy

/-- Remove-and-return the `i`-th element (helper for sampling without
replacement). -/
def pickIdx (l : List Nat) (i : Nat) : Nat × List Nat :=
  (l.getD i 0, l.take i ++ l.drop (i + 1))

/-- `rng.sample(range(1, N+1), 3)`: three distinct variables drawn without
replacement. -/
def sample3 (N : Nat) (rng : Nat) : (Nat × Nat × Nat) × Nat :=
  let l0 := List.range' 1 N
  let d1 := lcgNext rng
  let p1 := pickIdx l0 (d1.1 % l0.length)
  let d2 := lcgNext d1.2
  let p2 := pickIdx p1.2 (d2.1 % p1.2.length)
  let d3 := lcgNext d2.2
  let p3 := pickIdx p2.2 (d3.1 % p2.2.length)
  ((p1.1, p2.1, p3.1), d3.2)

/-- `-v if rng.random() < 0.5 else v`: negate with probability one half. -/
def negCoin (v : Nat) (rng : Nat) : Int × Nat :=
  let d := lcgNext rng
  (if d.1 % 2 = 1 then -(v : Int) else (v : Int), d.2)

/-- The `for _ in range(L)` loop of `random_3sat_flat`: sample three
distinct variables, negate each independently, extend the flat arrays. -/
def gen3Go (N : Nat) : Nat → Nat → List Int × List Nat → List Int × List Nat
  | 0, _, acc => acc
  | rem + 1, rng, acc =>
    let s := sample3 N rng
    let c1 := negCoin s.1.1 s.2
    let c2 := negCoin s.1.2.1 c1.2
    let c3 := negCoin s.1.2.2 c2.2
    let lits2 := acc.1 ++ [c1.1, c2.1, c3.1]
    gen3Go N rem c3.2 (lits2, acc.2 ++ [lits2.length])

/-- `random_3sat_flat(L, N, seed)`: rejects `N < 3` and `L ≤ 0` with a
`ValueError` (modelled as `none`), otherwise generates `L` clauses of three
distinct variables with random polarities in flat form. -/
def random3satFlat (L N : Nat) (seed : Option Int) (w : World) :
    Option (List Int × List Nat) :=
  if N < 3 then none
  else if L = 0 then none
  else some (gen3Go N L (rngInit seed w) ([], [0]))

end Gen

/-! ## Embedding of `src/3way.py` (experiment aggregation) -/

namespace Exp

/-- `par10_time(solve_time, time_limit)`: `10 · time_limit` for a timed-out
trial (`solve_time >= time_limit`), the raw time otherwise. -/
def par10Time (solveTime tl : Rat) : Rat :=
  if tl ≤ solveTime then 10 * tl else solveTime

/-- The per-`(N, r, mode)` trial loop of `run_3way_experiment`, over the
observed per-trial `solver.solve_time` values: accumulate
`par10_sums[mode] += par10_time(...)` and `timeouts[mode] += 1` on
`solve_time >= time_limit`, then divide both by `num_trials`. Returns
`(par10_mean, timeout_rate)`. -/
def runCell (solveTimes : List Rat) (tl : Rat) : Rat × Rat :=
  let acc := solveTimes.foldl (fun (ac : Rat × Nat) t =>
    (ac.1 + par10Time t tl, if tl ≤ t then ac.2 + 1 else ac.2)) (0, 0)
  (acc.1 / (solveTimes.length : Rat), (acc.2 : Rat) / (solveTimes.length : Rat))

end Exp

/-! ## Embedding of `src/DPLL/DPLLFast.py` (class `DPLLFast`) -/

namespace DF

/-- Python sequence read `xs[i]` with negative-index wraparound; `none` for
an out-of-range index (Python raises `IndexError`). -/
def pyGet (xs : List α) (i : Int) : Option α :=
  if 0 ≤ i ∧ i < (xs.length : Int) then xs.get? i.toNat
  else if -(xs.length : Int) ≤ i ∧ i < 0 then xs.get? (xs.length - (-i).toNat)
  else none

/-- Python sequence write `xs[i] = v` with the same index semantics. -/
def pySet (xs : List α) (i : Int) (v : α) : Option (List α) :=
  if 0 ≤ i ∧ i < (xs.length : Int) then some (xs.set i.toNat v)
  else if -(xs.length : Int) ≤ i ∧ i < 0 then some (xs.set (xs.length - (-i).toNat) v)
  else none

/-- Mutable state of a `DPLLFast` object: flat literals and offsets,
tri-state assignment (`0` / `+1` / `-1`), trail of variables, propagation
cursor, per-clause absolute watched positions, watcher lists as linked
nodes over parallel arrays (`head` indexed by `lit + num_vars`), the static
literal-count table with its insertion-ordered key list, and the split
counter. -/
structure St where
  lits : List Int
  offsets : List Nat
  numVars : Nat
  numClauses : Nat
  assign : Nat → Int
  trail : List Nat
  trailStart : Nat
  wpos1 : List Nat
  wpos2 : List Nat
  head : List Int
  nodeClause : List Nat
  nodeNext : List Int
  nodeLit : List Int
  litCount : List (Int × Nat)
  allLits : List Int
  splitCount : Nat

/-- The watch structures built by `_init_watches`. -/
structure WSt where
  w1 : List Nat
  w2 : List Nat
  head : List Int
  nodeClause : List Nat
  nodeNext : List Int
  nodeLit : List Int

/-- `_add_watch_node(lit, ci)`: append a node and link it at
`head[lit + num_vars]`; fails (like the Python array access) when the index
is outside `[-(2n+1), 2n]`. -/
def addWatchNode (numVars : Nat) (lit : Int) (ci : Nat) (w : WSt) : Option WSt :=
  let nodeId := w.nodeClause.length
  let idx : Int := lit + (numVars : Int)
  match pyGet w.head idx with
  | none => none
  | some prev =>
    match pySet w.head idx (Int.ofNat nodeId) with
    | none => none
    | some head2 =>
        some { w with
                head := head2,
                nodeClause := w.nodeClause ++ [ci],
                nodeLit := w.nodeLit ++ [lit],
                nodeNext := w.nodeNext ++ [prev] }

/-- The `for ci in range(self.num_clauses)` loop of `_init_watches`:
empty clauses watch `(s, s)` with no nodes; unit clauses watch `(s, s)` and
register their literal twice; longer clauses watch `(s, s+1)` and register
the first two literals. -/
def initWatchesGo (numVars : Nat) (lits : List Int) (offsets : List Nat) :
    Nat → Nat → WSt → Option WSt
  | _, 0, w => some w
  | ci, rem + 1, w =>
    let s := offsets.getD ci 0
    let e := offsets.getD (ci + 1) 0
    if e ≤ s then
      initWatchesGo numVars lits offsets (ci + 1) rem
        { w with w1 := w.w1.set ci s, w2 := w.w2.set ci s }
    else if e = s + 1 then
      let lit := lits.getD s 0
      match addWatchNode numVars lit ci
          { w with w1 := w.w1.set ci s, w2 := w.w2.set ci s } with
      | none => none
      | some wA =>
        match addWatchNode numVars lit ci wA with
        | none => none
        | some wB => initWatchesGo numVars lits offsets (ci + 1) rem wB
    else
      match addWatchNode numVars (lits.getD s 0) ci
          { w with w1 := w.w1.set ci s, w2 := w.w2.set ci (s + 1) } with
      | none => none
      | some wA =>
        match addWatchNode numVars (lits.getD (s + 1) 0) ci wA with
        | none => none
        | some wB => initWatchesGo numVars lits offsets (ci + 1) rem wB

/-- `lit_count[L] += 1` on the insertion-ordered count table
(`defaultdict(int)` modelled as an association list). -/
def bumpCount : List (Int × Nat) → Int → List (Int × Nat)
  | [], l => [(l, 1)]
  | p :: rest, l =>
      if p.1 = l then (p.1, p.2 + 1) :: rest else p :: bumpCount rest l

def buildLitCount (lits : List Int) : List (Int × Nat) :=
  lits.foldl bumpCount []

/-- `DPLLFast.__init__(lits, offsets, num_vars)`; `none` when
`_init_watches` raises an `IndexError` on the `head` array. -/
def mkSt (lits : List Int) (offsets : List Nat) (numVars : Nat) : Option St :=
  let numClauses := offsets.length - 1
  let w0 : WSt :=
    { w1 := List.replicate numClauses 0, w2 := List.replicate numClauses 0,
      head := List.replicate (2 * numVars + 1) (-1),
      nodeClause := [], nodeNext := [], nodeLit := [] }
  match initWatchesGo numVars lits offsets 0 numClauses w0 with
  | none => none
  | some w =>
    let lc := buildLitCount lits
    some { lits := lits, offsets := offsets, numVars := numVars,
           numClauses := numClauses,
           assign := fun _ => 0, trail := [], trailStart := 0,
           wpos1 := w.w1, wpos2 := w.w2, head := w.head,
           nodeClause := w.nodeClause, nodeNext := w.nodeNext,
           nodeLit := w.nodeLit,
           litCount := lc, allLits := lc.map (·.1),
           splitCount := 0 }

/-- Construction from a clause list: `flatten_clauses` then `DPLLFast`. -/
def construct (clauses : List (List Int)) (numVars : Nat) : Option St :=
  let fl := Gen.flattenClauses clauses
  mkSt fl.1 fl.2 numVars

/-- `_assign_lit(lit)`: `v = |lit|`, `want` is `+1` or `-1`; an assigned variable
checks consistency, a fresh one is set and pushed on the trail. -/
def assignLit (σ : St) (lit : Int) : Bool × St :=
  let v := lit.natAbs
  let want : Int := if 0 < lit then 1 else -1
  let cur := σ.assign v
  if cur ≠ 0 then (cur == want, σ)
  else
    (true, { σ with
              assign := fun w => if w = v then want else σ.assign w,
              trail := σ.trail ++ [v] })

/-- One `trail.pop()` + clear in `_undo_to`. -/
def undoOne (σ : St) : St :=
  match σ.trail.getLast? with
  | none => σ
  | some v =>
      { σ with trail := σ.trail.dropLast,
               assign := fun w => if w = v then 0 else σ.assign w }

def undoSteps : Nat → St → St
  | 0, σ => σ
  | n + 1, σ => undoSteps n (undoOne σ)

/-- `_undo_to(mark)`, capping `trail_start` at the mark. -/
def undoTo (σ : St) (mark : Nat) : St :=
  let σ2 := undoSteps (σ.trail.length - mark) σ
  if mark < σ2.trailStart then { σ2 with trailStart := mark } else σ2

/-- Literal known false under the tri-state assignment. -/
def litFalseF (a : Nat → Int) (l : Int) : Bool :=
  (decide (0 < l) && decide (a l.natAbs = -1)) ||
  (decide (l < 0) && decide (a l.natAbs = 1))

/-- Literal known true under the tri-state assignment. -/
def litTrueF (a : Nat → Int) (l : Int) : Bool :=
  (decide (0 < l) && decide (a l.natAbs = 1)) ||
  (decide (l < 0) && decide (a l.natAbs = -1))

/-- `_choose_branch_lit_static`: highest global literal count among literals
of unassigned variables, first occurrence breaking ties. -/
def chooseStatic (σ : St) : Option Int :=
  (σ.allLits.foldl (fun acc lit =>
    let v := lit.natAbs
    if σ.assign v ≠ 0 then acc
    else
      let c : Int := ((σ.litCount.lookup lit).getD 0 : Nat)
      if acc.1 < c then (c, some lit) else acc)
    ((-1 : Int), (none : Option Int))).2

/-- `_choose_branch_lit_random`: uniformly random unassigned variable, then
random polarity, both drawn from the per-call RNG (modelled by
`Gen.lcgNext`). -/
def chooseRandom (σ : St) (rng : Nat) : Option Int × Nat :=
  let unassigned := (List.range' 1 σ.numVars).filter (fun v => σ.assign v = 0)
  if unassigned.isEmpty then (none, rng)
  else
    let d1 := Gen.lcgNext rng
    let v := unassigned.getD (d1.1 % unassigned.length) 0
    let d2 := Gen.lcgNext d1.2
    (if d2.1 % 2 = 0 then some (v : Int) else some (-(v : Int)), d2.2)

/-- Clause slice boundaries `(offsets[ci], offsets[ci+1])`. -/
def clauseSlice (σ : St) (ci : Nat) : Nat × Nat :=
  (σ.offsets.getD ci 0, σ.offsets.getD (ci + 1) 0)

/-- Inner scan of `_choose_branch_lit_2clause`: collect unassigned literals
(stopping once more than two are seen) and detect a satisfied clause. -/
def clause2Scan (a : Nat → Int) : List Int → List Int → Bool × List Int
  | [], acc => (false, acc)
  | l :: rest, acc =>
    let av := a l.natAbs
    if av = 0 then
      let acc2 := acc ++ [l]
      if 2 < acc2.length then (false, acc2) else clause2Scan a rest acc2
    else if (decide (0 < l) && decide (av = 1)) || (decide (l < 0) && decide (av = -1)) then
      (true, acc)
    else clause2Scan a rest acc

/-- `_choose_branch_lit_2clause`: among unsatisfied clauses with exactly two
unassigned literals, the literal with the highest global count. -/
def choose2Clause (σ : St) : Option Int :=
  ((List.range σ.numClauses).foldl (fun acc ci =>
    let se := clauseSlice σ ci
    let cl := (σ.lits.drop se.1).take (se.2 - se.1)
    let r := clause2Scan σ.assign cl []
    if r.1 then acc
    else if r.2.length ≠ 2 then acc
    else r.2.foldl (fun a2 lit =>
      let score : Int := ((σ.litCount.lookup lit).getD 0 : Nat)
      if a2.1 < score then (score, some lit) else a2) acc)
    ((-1 : Int), (none : Option Int))).2

def randomStr : String := "random"

def twoClauseStr : String := "2clause"

def staticStr : String := "static"

/-- `_choose_branch_lit(mode, rng)`: dispatch on the mode string, with the
2-clause heuristic falling back to static and every unrecognized mode using
the static heuristic. -/
def chooseBranchLit (σ : St) (mode : String) (rng : Nat) : Option Int × Nat :=
  if mode = randomStr then chooseRandom σ rng
  else if mode = twoClauseStr then
    match choose2Clause σ with
    | some lit => (some lit, rng)
    | none => (chooseStatic σ, rng)
  else (chooseStatic σ, rng)

/-- Index into `head` for a literal (`lit + num_vars`). -/
def headIdx (σ : St) (f : Int) : Nat := (f + (σ.numVars : Int)).toNat

/-- Walk a watcher chain collecting clause indices (fuel-bounded walk of the
acyclic linked nodes). -/
def snapshotChain (σ : St) : Nat → Int → List Nat
  | 0, _ => []
  | fuel + 1, cur =>
    if cur < 0 then []
    else (σ.nodeClause.getD cur.toNat 0) ::
      snapshotChain σ fuel (σ.nodeNext.getD cur.toNat (-1))

/-- Snapshot of the clauses currently watching literal `f`. -/
def watchersOf (σ : St) (f : Int) : List Nat :=
  snapshotChain σ (σ.nodeClause.length + 1) (σ.head.getD (headIdx σ f) (-1))

/-- Unlink the first node for clause `ci` from literal `f`'s chain. -/
def unlinkGo (f : Int) (ci : Nat) : Nat → Int → Int → St → St
  | 0, _, _, σ => σ
  | fuel + 1, prev, cur, σ =>
    if cur < 0 then σ
    else if σ.nodeClause.getD cur.toNat 0 = ci then
      let nxt := σ.nodeNext.getD cur.toNat (-1)
      if prev < 0 then { σ with head := σ.head.set (headIdx σ f) nxt }
      else { σ with nodeNext := σ.nodeNext.set prev.toNat nxt }
    else unlinkGo f ci fuel cur (σ.nodeNext.getD cur.toNat (-1)) σ

/-- Remove clause `ci` from `watchers(f)`. -/
def removeWatcher (σ : St) (f : Int) (ci : Nat) : St :=
  unlinkGo f ci (σ.nodeClause.length + 1) (-1) (σ.head.getD (headIdx σ f) (-1)) σ

/-- Append clause `ci` to `watchers(lit)` (fresh node, lazy arrays). -/
def addWatcherNode (σ : St) (lit : Int) (ci : Nat) : St :=
  let nodeId := σ.nodeClause.length
  let idx := headIdx σ lit
  let prev := σ.head.getD idx (-1)
  { σ with nodeClause := σ.nodeClause ++ [ci],
           nodeLit := σ.nodeLit ++ [lit],
           nodeNext := σ.nodeNext ++ [prev],
           head := σ.head.set idx (Int.ofNat nodeId) }

/-- Replacement scan over the clause's absolute positions, skipping the two
watched positions, stopping at the first literal not known false. -/
def findReplF (a : Nat → Int) (lits : List Int) (w1 w2 : Nat) :
    List Nat → Option (Nat × Int)
  | [] => none
  | k :: rest =>
    if k = w1 ∨ k = w2 then findReplF a lits w1 w2 rest
    else
      let r := lits.getD k 0
      if litFalseF a r then findReplF a lits w1 w2 rest else some (k, r)

/-- Result of processing one watcher-list snapshot. -/
inductive PStepF where
  | conflict (σ : St)
  | ok (σ : St) (queue : List Int)

/-- Modelled from the spec: the body of the propagation loop of
`propagate_watched` (the Cython module `src/dpll_cy/core.pyx` is not under
`src/`). Follows §4.4 of the spec: resolve which watched position holds the
false literal (skip stale entries); a true other watched literal leaves the
watchers unchanged; otherwise scan for a replacement position and move the
watch (updating the watched position and both watcher lists); with no
replacement, a false other literal is a conflict and an unassigned one is a
unit that is assigned and whose negation is enqueued. -/
def procWatchersF (f : Int) : List Nat → List Int → St → PStepF
  | [], queue, σ => .ok σ queue
  | ci :: rest, queue, σ =>
    let w1 := σ.wpos1.getD ci 0
    let w2 := σ.wpos2.getD ci 0
    let w1lit := σ.lits.getD w1 0
    let w2lit := σ.lits.getD w2 0
    let info : Option (Bool × Int) :=
      if w1lit = f then some (true, w2lit)
      else if w2lit = f then some (false, w1lit)
      else none
    match info with
    | none => procWatchersF f rest queue σ
    | some (fw1, otherLit) =>
      if litTrueF σ.assign otherLit then procWatchersF f rest queue σ
      else
        let se := clauseSlice σ ci
        match findReplF σ.assign σ.lits w1 w2 (List.range' se.1 (se.2 - se.1)) with
        | some kR =>
            let σ2 :=
              if fw1 then { σ with wpos1 := σ.wpos1.set ci kR.1 }
              else { σ with wpos2 := σ.wpos2.set ci kR.1 }
            let σ3 := addWatcherNode (removeWatcher σ2 f ci) kR.2 ci
            procWatchersF f rest queue σ3
        | none =>
            if litFalseF σ.assign otherLit then .conflict σ
            else
              let p := assignLit σ otherLit
              if p.1 then procWatchersF f rest (queue ++ [-otherLit]) p.2
              else .conflict p.2

/-- Modelled from the spec: the queue loop of `propagate_watched` (§4.4
step 2), fuel-indexed. -/
def propagateWAux : Nat → List Int → St → Option (Bool × St)
  | 0, _, _ => none
  | _ + 1, [], σ => some (true, σ)
  | fuel + 1, f :: qs, σ =>
    match procWatchersF f (watchersOf σ f) qs σ with
    | .conflict σ2 => some (false, σ2)
    | .ok σ2 q2 => propagateWAux fuel q2 σ2

/-- Modelled from the spec: `propagate_watched(...)` — build the queue of
newly-false literals from the trail past the cursor (§4.4 step 1), compute
the advanced cursor, and run the queue loop; returns `(ok, new_trail_start)`
with the mutated state. -/
def propagateW (fuel : Nat) (σ : St) : Option (Bool × Nat × St) :=
  let q := (σ.trail.drop σ.trailStart).map
    (fun v => if σ.assign v = 1 then -(v : Int) else (v : Int))
  let newTs := σ.trail.length
  (propagateWAux fuel q σ).map (fun r => (r.1, newTs, r.2))

/-- The model `{v: (assign[v] == 1)}`. -/
def extractModel (σ : St) : List (Nat × Bool) :=
  (List.range' 1 σ.numVars).map (fun v => (v, σ.assign v == 1))

/-- Result of `DPLLFast.solve`, with the timeout return site and the
UNSAT return site distinguished (the Python function returns `None` for
both), and fuel exhaustion of the embedding kept separate. -/
inductive Res where
  | sat (m : List (Nat × Bool))
  | unsat
  | timeout
  | fuelOut
deriving DecidableEq, Repr

/-- The backtracking `while stack` loop: pop frames, undo to the mark, and
on the first unflipped frame re-push it flipped and assign the opposite
branch; a failed opposite assignment leaves the state unchanged and the next
iteration pops the just-pushed flipped frame, which re-undoes to the same
mark (a no-op) and continues with the remaining frames — written here with
that iteration unfolded. `none` is the `while`-`else` UNSAT exit. -/
def backtrack : List (Int × Nat × Bool) → St → Option (St × List (Int × Nat × Bool))
  | [], _ => none
  | (bl, mark, flipped) :: rest, σ =>
    let σ1 := undoTo σ mark
    if flipped then backtrack rest σ1
    else
      let p := assignLit σ1 (-bl)
      if p.1 then some (p.2, (bl, mark, true) :: rest)
      else backtrack rest (undoTo p.2 mark)

/-- The main `while True` loop of `DPLLFast.solve`, fuel-indexed. `elapsed`
is the wall-clock oracle (elapsed seconds as a function of the step
counter); `tl` is the time limit (`none` = `time_limit=None`). The stack
top is the list head. -/
def solveLoop (tl : Option Rat) (mode : String) (elapsed : Nat → Rat) :
    Nat → Nat → Nat → List (Int × Nat × Bool) → St → Nat → Res
  | 0, _, _, _, _, _ => .fuelOut
  | fuel + 1, steps0, nextCheck0, stack, σ, rng =>
    let steps := steps0 + 1
    let checked : Option Nat :=
      match tl with
      | some t =>
          if nextCheck0 ≤ steps then
            if t < elapsed steps then none else some (nextCheck0 + 1024)
          else some nextCheck0
      | none => some nextCheck0
    match checked with
    | none => .timeout
    | some nextCheck =>
      match propagateW fuel σ with
      | none => .fuelOut
      | some (ok, newTs, σp) =>
        let σ1 : St := { σp with trailStart := newTs }
        if !ok then
          match backtrack stack σ1 with
          | none => .unsat
          | some (σ2, stack2) =>
              solveLoop tl mode elapsed fuel steps nextCheck stack2 σ2 rng
        else
          if (List.range' 1 σ1.numVars).all (fun v => σ1.assign v ≠ 0) then
            .sat (extractModel σ1)
          else
            match chooseBranchLit σ1 mode rng with
            | (none, _) => .sat (extractModel σ1)
            | (some bl, rng2) =>
                let σ2 : St := { σ1 with splitCount := σ1.splitCount + 1 }
                let mark := σ2.trail.length
                let p := assignLit σ2 bl
                solveLoop tl mode elapsed fuel steps nextCheck
                  ((bl, mark, false) :: stack) p.2 rng2

/-- `DPLLFast.solve(time_limit, branch_mode, seed)`: reset the per-call
state (`assign`, `trail`, `trail_start`, counters, RNG, `next_check=1024`)
and run the main loop. -/
def solveSt (σc : St) (tl : Option Rat) (mode : String) (rngSeed : Nat)
    (elapsed : Nat → Rat) (fuel : Nat) : Res :=
  let σ : St := { σc with
                   assign := fun _ => 0, trail := [], trailStart := 0,
                   splitCount := 0 }
  solveLoop tl mode elapsed fuel 0 1024 [] σ rngSeed

end DF

/-! ## Auxiliary definitions for the verification -/

namespace DF

/-- A mode string outside the recognized set (documented spelling). -/
def staticCap : String := "Static"

/-- A minimal concrete solver state used to instantiate universally
quantified theorems. -/
def trivSt : St :=
  { lits := [], offsets := [0], numVars := 1, numClauses := 0,
    assign := fun _ => 0, trail := [], trailStart := 0,
    wpos1 := [], wpos2 := [], head := [-1, -1, -1],
    nodeClause := [], nodeNext := [], nodeLit := [],
    litCount := [], allLits := [], splitCount := 0 }

/-- Construction followed by `solve` (the experiment pipeline:
`DPLLFast(lits, offsets, num_vars).solve(...)` on a flattened clause
list). -/
def solveFromClauses (clauses : List (List Int)) (numVars : Nat)
    (tl : Option Rat) (mode : String) (seed : Nat) (elapsed : Nat → Rat)
    (fuel : Nat) : Option Res :=
  (construct clauses numVars).map (fun σ => solveSt σ tl mode seed elapsed fuel)

/-- The `head`-array index for literal `l` is within Python's (wraparound)
bounds for an array of length `2·num_vars + 1`. -/
def headSafe (numVars : Nat) (l : Int) : Prop :=
  l ≤ (numVars : Int) ∧ -(3 * (numVars : Int) + 1) ≤ l

instance (numVars : Nat) (l : Int) : Decidable (headSafe numVars l) := by
  unfold headSafe; infer_instance

end DF

/-- The formula `[[1], [2], …, [n]]` of `n` positive unit clauses (used to
drive the solver through many decision iterations). -/
def unitClauses (n : Nat) : List (List Int) :=
  (List.range' 1 n).map (fun v : Nat => [(v : Int)])

/-- Loop invariant of the `unitClauses` run of `DPLLFast.solve` after `j`
decisions: variables `1..j` are assigned true in trail order, the
propagation cursor trails one behind, the static tables list `1..n` once
each, and the watcher heads of all non-positive literals are still `-1`. -/
def DF.c5Inv (n j : Nat) (σ : DF.St) : Prop :=
  σ.numVars = n ∧
  σ.assign = (fun v => if 1 ≤ v ∧ v ≤ j then 1 else 0) ∧
  σ.trail = List.range' 1 j ∧
  σ.trailStart = j - 1 ∧
  σ.allLits = (List.range' 1 n).map (fun v : Nat => (v : Int)) ∧
  σ.litCount = (List.range' 1 n).map (fun v : Nat => ((v : Int), 1)) ∧
  (∀ i, i ≤ n → σ.head.getD i (-1) = -1)

/-- A total assignment `τ` extends a partial assignment `a`. -/
def extendsA (τ : Nat → Bool) (a : Nat → Option Bool) : Prop :=
  ∀ v b, a v = some b → τ v = b

namespace DP

/-- Trail consistency: every trail entry records the variable's current
assigned value. -/
def TInv (σ : St) : Prop := ∀ p ∈ σ.trail, σ.assignment p.1 = some p.2

/-- Every nonzero literal in the propagation queue is false under the
current assignment. -/
def QF0 (q : List Int) (a : Nat → Option Bool) : Prop :=
  ∀ f ∈ q, f ≠ 0 → litIsFalse a f = true

/-- `σ'` extends `σ` by a trail suffix of fresh, distinct assignments and
changes no other variable. -/
def TrailExt (σ σ' : St) : Prop :=
  ∃ Δ, σ'.trail = σ.trail ++ Δ ∧
    (∀ p ∈ Δ, σ.assignment p.1 = none ∧ σ'.assignment p.1 = some p.2) ∧
    Δ.Pairwise (fun p q => p.1 ≠ q.1) ∧
    (∀ v, (∀ p ∈ Δ, p.1 ≠ v) → σ'.assignment v = σ.assignment v)

/-- Clause list and variable count are untouched. -/
def sameCore (σ σ' : St) : Prop :=
  σ'.clauses = σ.clauses ∧ σ'.numVars = σ.numVars

/-- No clause ever watches the pseudo-literal `0` (true under well-formed
input, where clauses contain no zero literals). -/
def WL0 (σ : St) : Prop := σ.watchlist 0 = []

/-- Invariant W1: every clause of length ≥ 2 has distinct watched
positions. -/
def W1Inv (σ : St) : Prop :=
  ∀ ci, ci < σ.clauses.length → 2 ≤ (σ.clauses.getD ci []).length →
    (σ.watchPos.getD ci (0, 0)).1 ≠ (σ.watchPos.getD ci (0, 0)).2

end DP

/-! ## Theorems -/

section EasyClaims

/-- The accumulator loop of `run_3way_experiment` computes the sum of
per-trial PAR-10 times and the count of timed-out trials. -/
theorem Exp.runCell_fold (tl : Rat) : ∀ (l : List Rat) (a : Rat) (k : Nat),
    l.foldl (fun (ac : Rat × Nat) t =>
      (ac.1 + Exp.par10Time t tl, if tl ≤ t then ac.2 + 1 else ac.2)) (a, k)
      = (a + (l.map (fun t => Exp.par10Time t tl)).sum,
         k + l.countP (fun t => decide (tl ≤ t)))
  | [], a, k => by simp
  | t :: rest, a, k => by
      by_cases h : tl ≤ t <;>
        simp [h, Exp.runCell_fold tl rest, List.countP_cons, add_assoc, add_comm,
          add_left_comm]

/-- C9: for every experiment cell, the reported `par10_mean` equals the mean
over trials of the per-trial time — `10 · time_limit` when
`solve_time ≥ time_limit` and the raw `solve_time` otherwise — and
`timeout_rate` equals the fraction of trials with
`solve_time ≥ time_limit`. -/
theorem claimC9 (solveTimes : List Rat) (tl : Rat) :
    (Exp.runCell solveTimes tl).1
        = (solveTimes.map (fun t => Exp.par10Time t tl)).sum
            / (solveTimes.length : Rat) ∧
    (Exp.runCell solveTimes tl).2
        = ((solveTimes.countP (fun t => decide (tl ≤ t)) : Nat) : Rat)
            / (solveTimes.length : Rat) := by
  unfold Exp.runCell
  rw [Exp.runCell_fold]
  simp

/-- C8: the random 3-SAT generator is deterministic in `(L, N, seed)`: two
independent constructions with the same triple — whatever the state of the
surrounding world — produce identical flat clause lists. -/
theorem claimC8 (L N : Nat) (s : Int) (w w' : Gen.World)
    (hL : 1 ≤ L) (hN : 3 ≤ N) :
    Gen.random3satFlat L N (some s) w = Gen.random3satFlat L N (some s) w' := by
  simp [Gen.random3satFlat, Gen.rngInit]

theorem claimC8_witness :
    Gen.random3satFlat 1 3 (some 0) ⟨0⟩ = Gen.random3satFlat 1 3 (some 0) ⟨5⟩ :=
  claimC8 1 3 0 ⟨0⟩ ⟨5⟩ (by decide) (by decide)

/-- C3 (code bug): on the formula with a single empty clause — which has no
satisfying assignment — `DPLLFast.solve` does not return UNSAT: the empty
clause gets no watchers, `solve` has no clause-status check, and the run
returns a (bogus) SAT model. -/
theorem claimC3 :
    DF.solveFromClauses [[]] 1 none DF.staticStr 0 (fun _ => 0) 9
        = some (DF.Res.sat [(1, false)]) ∧
    noTotalSat [[]] := by
  constructor
  · rfl
  · intro τ h
    rcases h [] (by simp) with ⟨l, hl, _⟩
    exact absurd hl (List.not_mem_nil l)

/-- C4 (counterexample): the claim says construction fails with a
configuration error whenever a clause contains a zero literal; but
`DPLLFast` construction performs no validation and succeeds on `[[0]]`. -/
theorem claimC4_cex : (DF.construct [[0]] 1).isSome = true := by rfl

end EasyClaims

section AssignAndModes

/-- C6: assigning a literal `l` when `var(l)` is unassigned sets it to
`sign(l)`, pushes `var(l)` onto the trail and succeeds; assigning when
`var(l)` already holds the consistent value succeeds and changes nothing;
assigning when it holds the opposite value reports a conflict and changes
neither assignment nor trail — for `DPLLFast._assign_lit` and
`DPLL.assign_literal` alike. -/
theorem claimC6 (σf : DF.St) (σd : DP.St) (l : Int) (hl : l ≠ 0) :
    (σf.assign l.natAbs = 0 →
        (DF.assignLit σf l).1 = true ∧
        (DF.assignLit σf l).2.assign l.natAbs = (if 0 < l then 1 else -1) ∧
        (DF.assignLit σf l).2.trail = σf.trail ++ [l.natAbs]) ∧
    (σf.assign l.natAbs = (if 0 < l then 1 else -1) →
        DF.assignLit σf l = (true, σf)) ∧
    (σf.assign l.natAbs = (if 0 < l then -1 else 1) →
        DF.assignLit σf l = (false, σf)) ∧
    (σd.assignment l.natAbs = none →
        (DP.assignLiteral σd l).1 = true ∧
        (DP.assignLiteral σd l).2.assignment l.natAbs = some (decide (0 < l)) ∧
        (DP.assignLiteral σd l).2.trail = σd.trail ++ [(l.natAbs, decide (0 < l))]) ∧
    (σd.assignment l.natAbs = some (decide (0 < l)) →
        DP.assignLiteral σd l = (true, σd)) ∧
    (σd.assignment l.natAbs = some (!decide (0 < l)) →
        DP.assignLiteral σd l = (false, σd)) := by
  refine ⟨fun h0 => ?_, fun hc => ?_, fun hx => ?_, fun h0 => ?_, fun hc => ?_,
    fun hx => ?_⟩
  · simp [DF.assignLit, h0]
  · by_cases hpos : 0 < l <;> simp [DF.assignLit, hc, hpos]
  · by_cases hpos : 0 < l <;> simp [DF.assignLit, hx, hpos]
  · simp [DP.assignLiteral, h0]
  · simp [DP.assignLiteral, hc]
  · cases hb : decide (0 < l) <;> simp [DP.assignLiteral, hx, hb]

theorem claimC6_witness :
    (DF.assignLit DF.trivSt 1).2.assign 1 = 1 ∧
    (DP.assignLiteral (DP.mkSt [] 1) (-2)).1 = true := by
  have h := claimC6 DF.trivSt (DP.mkSt [] 1) 1 (by decide)
  have h2 := claimC6 DF.trivSt (DP.mkSt [] 1) (-2) (by decide)
  refine ⟨?_, (h2.2.2.2.1 rfl).1⟩
  have := (h.1 rfl).2.1
  simpa using this

/-- Unrecognized branch modes dispatch to the static heuristic. -/
theorem DF.chooseBranchLit_default (σ : DF.St) (mode : String) (rng : Nat)
    (h1 : mode ≠ DF.randomStr) (h2 : mode ≠ DF.twoClauseStr) :
    DF.chooseBranchLit σ mode rng = DF.chooseBranchLit σ DF.staticStr rng := by
  rw [DF.chooseBranchLit, DF.chooseBranchLit, if_neg h1, if_neg h2,
    if_neg (by decide), if_neg (by decide)]

/-- The main loop is mode-independent except through
`_choose_branch_lit`. -/
theorem DF.solveLoop_default (tl : Option Rat) (mode : String)
    (elapsed : Nat → Rat) (h1 : mode ≠ DF.randomStr)
    (h2 : mode ≠ DF.twoClauseStr) :
    ∀ (fuel steps nc : Nat) (stack : List (Int × Nat × Bool)) (σ : DF.St)
      (rng : Nat),
      DF.solveLoop tl mode elapsed fuel steps nc stack σ rng
        = DF.solveLoop tl DF.staticStr elapsed fuel steps nc stack σ rng := by
  intro fuel
  induction fuel with
  | zero => intro steps nc stack σ rng; rfl
  | succ n ih =>
      intro steps nc stack σ rng
      have hc : ∀ (σ2 : DF.St) (rng2 : Nat),
          DF.chooseBranchLit σ2 mode rng2 = DF.chooseBranchLit σ2 DF.staticStr rng2 :=
        fun σ2 rng2 => DF.chooseBranchLit_default σ2 mode rng2 h1 h2
      simp only [DF.solveLoop, hc, ih]

/-- C10: for every `branch_mode` string other than `"random"` and
`"2clause"` — including misspellings and the documented `"static"` — the
branching-literal choice falls through to the static literal-count
heuristic and `solve` behaves identically to static mode (no error is
raised for an unrecognized mode: the dispatch is total). -/
theorem claimC10 (mode : String) (h1 : mode ≠ DF.randomStr)
    (h2 : mode ≠ DF.twoClauseStr) :
    (∀ (σ : DF.St) (rng : Nat),
        DF.chooseBranchLit σ mode rng = DF.chooseBranchLit σ DF.staticStr rng) ∧
    (∀ (σc : DF.St) (tl : Option Rat) (seed : Nat) (elapsed : Nat → Rat)
        (fuel : Nat),
        DF.solveSt σc tl mode seed elapsed fuel
          = DF.solveSt σc tl DF.staticStr seed elapsed fuel) := by
  refine ⟨fun σ rng => DF.chooseBranchLit_default σ mode rng h1 h2,
    fun σc tl seed elapsed fuel => ?_⟩
  unfold DF.solveSt
  exact DF.solveLoop_default tl mode elapsed h1 h2 fuel 0 1024 [] _ seed

theorem claimC10_witness :
    DF.solveSt DF.trivSt none DF.staticCap 0 (fun _ => 0) 3
      = DF.solveSt DF.trivSt none DF.staticStr 0 (fun _ => 0) 3 :=
  (claimC10 DF.staticCap (by decide) (by decide)).2 DF.trivSt none 0 (fun _ => 0) 3

end AssignAndModes

section ConstructClaims

/-- The flat literal buffer built by `flatten_clauses` is the concatenation
of the clauses. -/
theorem Gen.flatten_fst : ∀ (cs : List (List Int)) (pre : List Int) (offs : List Nat),
    (cs.foldl Gen.flatStep (pre, offs)).1 = pre ++ cs.join
  | [], pre, offs => by simp
  | c :: rest, pre, offs => by
      rw [List.foldl_cons]
      show (rest.foldl Gen.flatStep (pre ++ c, offs ++ [(pre ++ c).length])).1 = _
      rw [Gen.flatten_fst rest (pre ++ c) (offs ++ [(pre ++ c).length])]
      simp

/-- Every offset recorded by `flatten_clauses` is bounded by the final
buffer length. -/
theorem Gen.flatten_snd_le :
    ∀ (cs : List (List Int)) (pre : List Int) (offs : List Nat),
    (∀ x ∈ offs, x ≤ pre.length) →
    ∀ x ∈ (cs.foldl Gen.flatStep (pre, offs)).2,
      x ≤ (cs.foldl Gen.flatStep (pre, offs)).1.length
  | [], pre, offs => by intro h; simpa using h
  | c :: rest, pre, offs => by
      intro h
      rw [List.foldl_cons]
      show ∀ x ∈ (rest.foldl Gen.flatStep (pre ++ c, offs ++ [(pre ++ c).length])).2, _
      refine Gen.flatten_snd_le rest (pre ++ c) (offs ++ [(pre ++ c).length]) ?_
      intro x hx
      rcases List.mem_append.mp hx with hx | hx
      · exact le_trans (h x hx) (by simp)
      · simp at hx; simp [hx]

/-- A Python read within `[-len, len)` succeeds. -/
theorem DF.pyGet_isSome {α : Type} (xs : List α) (i : Int)
    (h1 : -(xs.length : Int) ≤ i) (h2 : i < xs.length) :
    ∃ a, DF.pyGet xs i = some a := by
  unfold DF.pyGet
  by_cases h0 : 0 ≤ i
  · rw [if_pos ⟨h0, h2⟩]
    have hlt : i.toNat < xs.length := by omega
    exact ⟨xs.get ⟨i.toNat, hlt⟩, List.get?_eq_get hlt⟩
  · rw [if_neg (by tauto)]
    rw [if_pos ⟨h1, by omega⟩]
    have hlt : xs.length - (-i).toNat < xs.length := by omega
    exact ⟨xs.get ⟨_, hlt⟩, List.get?_eq_get hlt⟩

/-- A Python write within `[-len, len)` succeeds and preserves length. -/
theorem DF.pySet_spec {α : Type} (xs : List α) (i : Int) (v : α)
    (h1 : -(xs.length : Int) ≤ i) (h2 : i < xs.length) :
    ∃ ys, DF.pySet xs i v = some ys ∧ ys.length = xs.length := by
  unfold DF.pySet
  by_cases h0 : 0 ≤ i
  · rw [if_pos ⟨h0, h2⟩]; exact ⟨_, rfl, by simp⟩
  · rw [if_neg (by tauto), if_pos ⟨h1, by omega⟩]; exact ⟨_, rfl, by simp⟩

/-- `_add_watch_node` succeeds on a head-safe literal and preserves the
`head` array length. -/
theorem DF.addWatchNode_ok (n : Nat) (lit : Int) (ci : Nat) (w : DF.WSt)
    (hlen : w.head.length = 2 * n + 1) (hs : DF.headSafe n lit) :
    ∃ w2, DF.addWatchNode n lit ci w = some w2 ∧ w2.head.length = 2 * n + 1 := by
  obtain ⟨hle, hge⟩ := hs
  have h1 : -(w.head.length : Int) ≤ lit + n := by rw [hlen]; push_cast; omega
  have h2 : lit + (n : Int) < w.head.length := by rw [hlen]; push_cast; omega
  obtain ⟨a, ha⟩ := DF.pyGet_isSome w.head (lit + n) h1 h2
  obtain ⟨ys, hys, hyl⟩ := DF.pySet_spec w.head (lit + n) (Int.ofNat w.nodeClause.length) h1 h2
  refine ⟨{ w with
             head := ys,
             nodeClause := w.nodeClause ++ [ci],
             nodeLit := w.nodeLit ++ [lit],
             nodeNext := w.nodeNext ++ [a] }, ?_, ?_⟩
  · simp only [DF.addWatchNode]
    rw [ha, hys]
  · simp only []
    rw [hyl, hlen]

/-- `_init_watches` completes without an index error when every literal in
the buffer is head-safe and the offsets are bounded by the buffer length. -/
theorem DF.initGo_ok (n : Nat) (lits : List Int) (offsets : List Nat)
    (hsafe : ∀ l ∈ lits, DF.headSafe n l)
    (hoff : ∀ i, offsets.getD i 0 ≤ lits.length) :
    ∀ (rem ci : Nat) (w : DF.WSt), w.head.length = 2 * n + 1 →
      ∃ w2, DF.initWatchesGo n lits offsets ci rem w = some w2
  | 0, ci, w, hw => ⟨w, rfl⟩
  | rem + 1, ci, w, hw => by
      simp only [DF.initWatchesGo]
      by_cases hse : offsets.getD (ci + 1) 0 ≤ offsets.getD ci 0
      · rw [if_pos hse]
        exact DF.initGo_ok n lits offsets hsafe hoff rem (ci + 1) _ hw
      · rw [if_neg hse]
        have hslt : offsets.getD ci 0 < lits.length := by
          have := hoff (ci + 1)
          omega
        have hmem : lits.getD (offsets.getD ci 0) 0 ∈ lits := by
          rw [List.getD_eq_get lits 0 hslt]
          exact List.get_mem lits _ hslt
        by_cases hu : offsets.getD (ci + 1) 0 = offsets.getD ci 0 + 1
        · rw [if_pos hu]
          obtain ⟨wA, hA, hAl⟩ := DF.addWatchNode_ok n (lits.getD (offsets.getD ci 0) 0) ci
            { w with w1 := w.w1.set ci (offsets.getD ci 0),
                     w2 := w.w2.set ci (offsets.getD ci 0) } hw (hsafe _ hmem)
          rw [hA]
          dsimp only
          obtain ⟨wB, hB, hBl⟩ := DF.addWatchNode_ok n (lits.getD (offsets.getD ci 0) 0) ci wA hAl
            (hsafe _ hmem)
          rw [hB]
          exact DF.initGo_ok n lits offsets hsafe hoff rem (ci + 1) wB hBl
        · rw [if_neg hu]
          have hslt2 : offsets.getD ci 0 + 1 < lits.length := by
            have := hoff (ci + 1)
            omega
          have hmem2 : lits.getD (offsets.getD ci 0 + 1) 0 ∈ lits := by
            rw [List.getD_eq_get lits 0 hslt2]
            exact List.get_mem lits _ hslt2
          obtain ⟨wA, hA, hAl⟩ := DF.addWatchNode_ok n (lits.getD (offsets.getD ci 0) 0) ci
            { w with w1 := w.w1.set ci (offsets.getD ci 0),
                     w2 := w.w2.set ci (offsets.getD ci 0 + 1) } hw (hsafe _ hmem)
          rw [hA]
          dsimp only
          obtain ⟨wB, hB, hBl⟩ := DF.addWatchNode_ok n (lits.getD (offsets.getD ci 0 + 1) 0) ci wA hAl
            (hsafe _ hmem2)
          rw [hB]
          exact DF.initGo_ok n lits offsets hsafe hoff rem (ci + 1) wB hBl

/-- C4 (amended): solver construction from a clause list and `num_vars`
performs no validation of literals — it succeeds (no configuration error)
whenever every literal `l` of every clause satisfies
`-(3·num_vars+1) ≤ l ≤ num_vars`, a range that includes every zero literal,
the negative literals with variables outside `1..=num_vars` down to
`-(3·num_vars+1)`, and all well-formed input. -/
theorem claimC4_amended (clauses : List (List Int)) (n : Nat)
    (h : ∀ c ∈ clauses, ∀ l ∈ c, DF.headSafe n l) :
    DF.construct clauses n ≠ none := by
  unfold DF.construct DF.mkSt
  have hfst := Gen.flatten_fst clauses [] [0]
  have hsnd := Gen.flatten_snd_le clauses [] [0] (by simp)
  set fl := Gen.flattenClauses clauses with hfl
  have hsafe : ∀ l ∈ fl.1, DF.headSafe n l := by
    intro l hl
    rw [hfl] at hl
    unfold Gen.flattenClauses at hl
    rw [hfst] at hl
    simp only [List.nil_append] at hl
    rcases List.mem_join.mp hl with ⟨c, hc, hlc⟩
    exact h c hc l hlc
  have hoff : ∀ i, fl.2.getD i 0 ≤ fl.1.length := by
    intro i
    by_cases hi : i < fl.2.length
    · have hmem : fl.2.getD i 0 ∈ fl.2 := by
        rw [List.getD_eq_get fl.2 0 hi]
        exact List.get_mem fl.2 i hi
      have := hsnd _ hmem
      simpa [hfl, Gen.flattenClauses] using this
    · rw [List.getD_eq_default fl.2 0 (by omega)]
      exact Nat.zero_le _
  obtain ⟨w2, hw2⟩ := DF.initGo_ok n fl.1 fl.2 hsafe hoff (fl.2.length - 1) 0
    { w1 := List.replicate (fl.2.length - 1) 0, w2 := List.replicate (fl.2.length - 1) 0,
      head := List.replicate (2 * n + 1) (-1),
      nodeClause := [], nodeNext := [], nodeLit := [] } (by simp)
  dsimp only
  rw [hw2]
  simp

theorem claimC4_amended_witness : DF.construct [[0], [1, -4]] 1 ≠ none :=
  claimC4_amended [[0], [1, -4]] 1 (by decide)

end ConstructClaims

section SoundnessClaims

/-- Association-list lookup over a tabulated contiguous range. -/
theorem lookup_range'_map {β : Type} (f : Nat → β) :
    ∀ (n s v : Nat), s ≤ v → v < s + n →
      ((List.range' s n).map (fun u => (u, f u))).lookup v = some (f v)
  | 0, s, v, h1, h2 => by omega
  | n + 1, s, v, h1, h2 => by
      rw [List.range'_succ]
      simp only [List.map_cons]
      by_cases hv : v = s
      · subst hv; simp [List.lookup]
      · have hb : (v == s) = false := by simp [hv]
        simp only [List.lookup, hb]
        exact lookup_range'_map f n (s + 1) v (by omega) (by omega)

/-- Reading the extracted model at an in-range variable. -/
theorem DP.lookup_extract (σ : DP.St) (v : Nat) (h1 : 1 ≤ v) (h2 : v ≤ σ.numVars) :
    (DP.extractModel σ).lookup v = some ((σ.assignment v).getD false) := by
  unfold DP.extractModel
  exact lookup_range'_map _ σ.numVars 1 v h1 (by omega)

/-- A clause whose `check_status` scan reports `clause_value = True`
contains a literal true under the current assignment. -/
theorem DP.clauseStat_fst_true (a : Nat → Option Bool) :
    ∀ (c : List Int) (und : Bool), (DP.clauseStat a c und).1 = true →
      ∃ l ∈ c, DP.litIsTrue a l = true
  | [], und, h => by simp [DP.clauseStat] at h
  | l :: rest, und, h => by
      rw [DP.clauseStat] at h
      cases hv : a l.natAbs with
      | none =>
          simp only [hv] at h
          obtain ⟨l2, hm, ht⟩ := DP.clauseStat_fst_true a rest true h
          exact ⟨l2, List.mem_cons_of_mem l hm, ht⟩
      | some val =>
          simp only [hv] at h
          by_cases hc : ((decide (0 < l) && val) || (decide (l < 0) && !val)) = true
          · exact ⟨l, List.mem_cons_self l rest, by simp [DP.litIsTrue, hv, hc]⟩
          · rw [if_neg hc] at h
            obtain ⟨l2, hm, ht⟩ := DP.clauseStat_fst_true a rest und h
            exact ⟨l2, List.mem_cons_of_mem l hm, ht⟩

/-- `check_status() == True` means every clause scanned true. -/
theorem DP.checkStatusAux_true (a : Nat → Option Bool) :
    ∀ (cs : List (List Int)), DP.checkStatusAux a cs = some true →
      ∀ c ∈ cs, (DP.clauseStat a c false).1 = true
  | [], _, c, hc => absurd hc (List.not_mem_nil c)
  | c0 :: rest, h, c, hc => by
      rw [DP.checkStatusAux] at h
      by_cases h1 : (DP.clauseStat a c0 false).1 = true
      · rw [if_pos h1] at h
        rcases List.mem_cons.mp hc with rfl | hc2
        · exact h1
        · exact DP.checkStatusAux_true a rest h c hc2
      · rw [if_neg h1] at h
        by_cases h2 : (DP.clauseStat a c0 false).2 = true
        · rw [if_neg (by simpa using h2)] at h
          cases hr : DP.checkStatusAux a rest with
          | none => rw [hr] at h; exact absurd h (by simp)
          | some b =>
              cases b with
              | false => rw [hr] at h; exact absurd h (by simp)
              | true => rw [hr] at h; exact absurd h (by simp)
        · rw [if_pos (by simpa using h2)] at h
          exact absurd h (by simp)

/-- The model extracted at a `check_status() == True` state satisfies every
clause. -/
theorem DP.extract_sat (σ : DP.St) (hwf : wfFormula σ.clauses σ.numVars)
    (h : DP.checkStatus σ = some true) :
    modelSatisfies (DP.extractModel σ) σ.clauses := by
  intro c hc
  obtain ⟨l, hm, ht⟩ := DP.clauseStat_fst_true σ.assignment c false
    (DP.checkStatusAux_true σ.assignment σ.clauses h c hc)
  obtain ⟨hl0, hln⟩ := hwf c hc l hm
  have h1 : 1 ≤ l.natAbs := by
    rcases Int.natAbs_eq l with he | he <;> omega
  rw [DP.litIsTrue] at ht
  cases hv : σ.assignment l.natAbs with
  | none => rw [hv] at ht; exact absurd ht (by simp)
  | some val =>
      rw [hv] at ht
      have hlook := DP.lookup_extract σ l.natAbs h1 hln
      rw [hv] at hlook
      refine ⟨l, hm, ?_⟩
      rcases Bool.or_eq_true_iff.mp ht with hpos | hneg
      · obtain ⟨hp, hvt⟩ := Bool.and_eq_true_iff.mp hpos
        exact Or.inl ⟨by exact_mod_cast of_decide_eq_true hp, by simp [hlook, hvt]⟩
      · obtain ⟨hp, hvt⟩ := Bool.and_eq_true_iff.mp hneg
        refine Or.inr ⟨by exact_mod_cast of_decide_eq_true hp, ?_⟩
        rw [hlook]
        simp at hvt
        simp [hvt]

end SoundnessClaims

section ChooseClaims

/-- `check_status() == None` exhibits an undecided clause. -/
theorem DP.checkStatusAux_none (a : Nat → Option Bool) :
    ∀ (cs : List (List Int)), DP.checkStatusAux a cs = none →
      ∃ c ∈ cs, (DP.clauseStat a c false).1 = false ∧ (DP.clauseStat a c false).2 = true
  | [], h => by simp [DP.checkStatusAux] at h
  | c0 :: rest, h => by
      rw [DP.checkStatusAux] at h
      by_cases h1 : (DP.clauseStat a c0 false).1 = true
      · rw [if_pos h1] at h
        obtain ⟨c, hm, hp⟩ := DP.checkStatusAux_none a rest h
        exact ⟨c, List.mem_cons_of_mem c0 hm, hp⟩
      · rw [if_neg h1] at h
        by_cases h2 : (DP.clauseStat a c0 false).2 = true
        · exact ⟨c0, List.mem_cons_self c0 rest, by simpa using h1, h2⟩
        · rw [if_pos (by simpa using h2)] at h
          exact absurd h (by simp)

/-- The scans of `check_status` and `choose_branch_literal` are the same
loop. -/
theorem DP.scanClause_eq (a : Nat → Option Bool) :
    ∀ (c : List Int) (und : Bool), DP.scanClause a c und = DP.clauseStat a c und
  | [], und => rfl
  | l :: rest, und => by
      rw [DP.scanClause, DP.clauseStat]
      cases hv : a l.natAbs with
      | none => simp only [hv]; exact DP.scanClause_eq a rest true
      | some val =>
          simp only [hv]
          by_cases hc : ((decide (0 < l) && val) || (decide (l < 0) && !val)) = true
          · rw [if_pos hc, if_pos hc]
          · rw [if_neg hc, if_neg hc]; exact DP.scanClause_eq a rest und

/-- An undecided-but-unsatisfied scan finds an unassigned literal. -/
theorem DP.scan_unassigned (a : Nat → Option Bool) :
    ∀ (c : List Int) (und : Bool), (DP.scanClause a c und).2 = true →
      und = true ∨ ∃ l ∈ c, a l.natAbs = none
  | [], und, h => by
      rw [DP.scanClause] at h; exact Or.inl h
  | l :: rest, und, h => by
      rw [DP.scanClause] at h
      cases hv : a l.natAbs with
      | none => exact Or.inr ⟨l, List.mem_cons_self l rest, hv⟩
      | some val =>
          simp only [hv] at h
          by_cases hc : ((decide (0 < l) && val) || (decide (l < 0) && !val)) = true
          · rw [if_pos hc] at h; exact Or.inl h
          · rw [if_neg hc] at h
            rcases DP.scan_unassigned a rest und h with hu | ⟨l2, hm, he⟩
            · exact Or.inl hu
            · exact Or.inr ⟨l2, List.mem_cons_of_mem l hm, he⟩

/-- `bumpScore` never empties the table. -/
theorem DP.bumpScore_ne_nil (s : List (Int × Rat)) (lit : Int) (w : Rat) :
    DP.bumpScore s lit w ≠ [] := by
  cases s with
  | nil => simp [DP.bumpScore]
  | cons p rest =>
      rw [DP.bumpScore]
      by_cases hp : p.1 = lit <;> simp [hp]

/-- The literal-score fold (at any fixed clause weight) preserves
nonemptiness. -/
theorem DP.scoresFold_ne_nil (a : Nat → Option Bool) (w : Rat) :
    ∀ (c : List Int) (s : List (Int × Rat)), s ≠ [] →
      c.foldl (fun s2 l =>
        match a l.natAbs with
        | none => DP.bumpScore s2 l w
        | some _ => s2) s ≠ []
  | [], s, hs => hs
  | l :: rest, s, hs => by
      simp only [List.foldl_cons]
      cases hv : a l.natAbs with
      | none =>
          simp only [hv]
          exact DP.scoresFold_ne_nil a w rest _ (DP.bumpScore_ne_nil s l w)
      | some val =>
          simp only [hv]
          exact DP.scoresFold_ne_nil a w rest s hs

/-- The literal-score fold over a clause containing an unassigned literal
yields a nonempty table. -/
theorem DP.scoresFold_ne_nil2 (a : Nat → Option Bool) (w : Rat) :
    ∀ (c : List Int) (s : List (Int × Rat)) (l : Int), l ∈ c → a l.natAbs = none →
      c.foldl (fun s2 l2 =>
        match a l2.natAbs with
        | none => DP.bumpScore s2 l2 w
        | some _ => s2) s ≠ []
  | [], s, l, hm, _ => absurd hm (List.not_mem_nil l)
  | l0 :: rest, s, l, hm, hn => by
      simp only [List.foldl_cons]
      cases hv : a l0.natAbs with
      | none =>
          simp only [hv]
          exact DP.scoresFold_ne_nil a w rest _ (DP.bumpScore_ne_nil s l0 w)
      | some val =>
          simp only [hv]
          rcases List.mem_cons.mp hm with rfl | hm2
          · rw [hv] at hn; exact absurd hn (by simp)
          · exact DP.scoresFold_ne_nil2 a w rest s l hm2 hn

/-- `addClauseScores` preserves nonemptiness. -/
theorem DP.addClauseScores_ne_nil (a : Nat → Option Bool) (c : List Int)
    (s : List (Int × Rat)) (hs : s ≠ []) : DP.addClauseScores a s c ≠ [] :=
  DP.scoresFold_ne_nil a (1 / 2 ^ c.length) c s hs

/-- A clause with an unassigned literal makes the score table nonempty. -/
theorem DP.addClauseScores_ne_nil2 (a : Nat → Option Bool) (c : List Int)
    (s : List (Int × Rat)) (l : Int) (hm : l ∈ c) (hn : a l.natAbs = none) :
    DP.addClauseScores a s c ≠ [] :=
  DP.scoresFold_ne_nil2 a (1 / 2 ^ c.length) c s l hm hn

/-- One step of the clause fold in `choose_branch_literal` preserves
nonemptiness. -/
theorem DP.chooseStep_ne (a : Nat → Option Bool) (s : List (Int × Rat))
    (c : List Int) (hs : s ≠ []) :
    (let st := DP.scanClause a c false
     if st.1 || !st.2 then s else DP.addClauseScores a s c) ≠ [] := by
  by_cases hc : ((DP.scanClause a c false).1 || !(DP.scanClause a c false).2) = true
  · simpa [hc] using hs
  · simp only [if_neg hc]
    exact DP.addClauseScores_ne_nil a c s hs

/-- The score-table fold of `choose_branch_literal` is nonempty once an
undecided clause has been folded in. -/
theorem DP.chooseScores_ne_nil_aux (a : Nat → Option Bool) :
    ∀ (cs : List (List Int)) (s : List (Int × Rat)),
      (s ≠ [] ∨ ∃ c ∈ cs, (DP.scanClause a c false).1 = false ∧
        (DP.scanClause a c false).2 = true) →
      cs.foldl (fun s2 c =>
        let st := DP.scanClause a c false
        if st.1 || !st.2 then s2 else DP.addClauseScores a s2 c) s ≠ []
  | [], s, h => by
      rcases h with h | ⟨c, hm, _⟩
      · exact h
      · exact absurd hm (List.not_mem_nil c)
  | c0 :: rest, s, h => by
      simp only [List.foldl_cons]
      rcases h with hs | ⟨c, hm, h1, h2⟩
      · exact DP.chooseScores_ne_nil_aux a rest _ (Or.inl (DP.chooseStep_ne a s c0 hs))
      · rcases List.mem_cons.mp hm with rfl | hm2
        · refine DP.chooseScores_ne_nil_aux a rest _ (Or.inl ?_)
          have hcond : ((DP.scanClause a c false).1 || !(DP.scanClause a c false).2) = false := by
            rw [h1, h2]; rfl
          rcases DP.scan_unassigned a c false h2 with hu | ⟨l, hlm, hln⟩
          · exact absurd hu (by simp)
          · simp only [hcond, Bool.false_eq_true, if_false]
            exact DP.addClauseScores_ne_nil2 a c s l hlm hln
        · exact DP.chooseScores_ne_nil_aux a rest _ (Or.inr ⟨c, hm2, h1, h2⟩)

/-- `check_status() == None` guarantees a branching literal. -/
theorem DP.choose_some_of_undecided (σ : DP.St) (h : DP.checkStatus σ = none) :
    DP.chooseBranchLiteral σ ≠ none := by
  obtain ⟨c, hm, h1, h2⟩ := DP.checkStatusAux_none σ.assignment σ.clauses h
  have hne : DP.chooseScores σ ≠ [] := by
    unfold DP.chooseScores
    refine DP.chooseScores_ne_nil_aux σ.assignment σ.clauses [] (Or.inr ⟨c, hm, ?_, ?_⟩)
    · rw [DP.scanClause_eq]; exact h1
    · rw [DP.scanClause_eq]; exact h2
  unfold DP.chooseBranchLiteral
  cases hs : DP.chooseScores σ with
  | nil => exact absurd hs hne
  | cons p rest => simp

end ChooseClaims

section CorePreservation

theorem DP.sameCore_refl (σ : DP.St) : DP.sameCore σ σ := ⟨rfl, rfl⟩

theorem DP.sameCore_trans {σ1 σ2 σ3 : DP.St} (h1 : DP.sameCore σ1 σ2)
    (h2 : DP.sameCore σ2 σ3) : DP.sameCore σ1 σ3 :=
  ⟨h2.1.trans h1.1, h2.2.trans h1.2⟩

theorem DP.assignLiteral_core (σ : DP.St) (l : Int) :
    DP.sameCore σ (DP.assignLiteral σ l).2 := by
  unfold DP.assignLiteral
  cases hv : σ.assignment l.natAbs <;> simp [hv, DP.sameCore]

theorem DP.undoOne_core (σ : DP.St) : DP.sameCore σ (DP.undoOne σ) := by
  unfold DP.undoOne
  cases hv : σ.trail.getLast? with
  | none => exact ⟨rfl, rfl⟩
  | some p => exact ⟨rfl, rfl⟩

theorem DP.undoSteps_core : ∀ (n : Nat) (σ : DP.St),
    DP.sameCore σ (DP.undoSteps n σ)
  | 0, σ => DP.sameCore_refl σ
  | n + 1, σ =>
      DP.sameCore_trans (DP.undoOne_core σ) (DP.undoSteps_core n (DP.undoOne σ))

theorem DP.undoTo_core (σ : DP.St) (mark : Nat) :
    DP.sameCore σ (DP.undoTo σ mark) := by
  unfold DP.undoTo
  have h := DP.undoSteps_core (σ.trail.length - mark) σ
  by_cases hlt : mark < (DP.undoSteps (σ.trail.length - mark) σ).lastPropagated
  · rw [if_pos hlt]; exact ⟨h.1, h.2⟩
  · rw [if_neg hlt]; exact h

theorem DP.procWatchers_core (f : Int) :
    ∀ (snap : List Nat) (q : List Int) (σ : DP.St),
      DP.sameCore σ (DP.procWatchers f snap q σ).state
  | [], q, σ => DP.sameCore_refl σ
  | ci :: rest, q, σ => by
      rw [DP.procWatchers]
      dsimp only
      split
      · exact DP.procWatchers_core f rest q σ
      · split
        · exact DP.sameCore_trans (DP.sameCore_refl _)
            (DP.procWatchers_core f rest q _)
        · split
          · split
            · exact DP.sameCore_refl σ
            · exact DP.procWatchers_core f rest q σ
          · split
            · exact DP.sameCore_trans (DP.assignLiteral_core σ _)
                (DP.procWatchers_core f rest _ _)
            · exact DP.assignLiteral_core σ _

theorem DP.propagateAux_core : ∀ (fuel : Nat) (q : List Int) (σ : DP.St)
    (r : Bool × DP.St), DP.propagateAux fuel q σ = some r → DP.sameCore σ r.2
  | 0, _, _, _, h => by simp [DP.propagateAux] at h
  | fuel + 1, [], σ, r, h => by
      simp only [DP.propagateAux, Option.some.injEq] at h
      subst h
      exact DP.sameCore_refl σ
  | fuel + 1, f :: qs, σ, r, h => by
      rw [DP.propagateAux] at h
      cases hp : DP.procWatchers f (σ.watchlist f) qs σ with
      | conflict σ3 =>
          rw [hp] at h
          have hc := DP.procWatchers_core f (σ.watchlist f) qs σ
          rw [hp] at hc
          simp only [Option.some.injEq] at h
          subst h
          exact hc
      | ok σ3 q3 =>
          rw [hp] at h
          have hc := DP.procWatchers_core f (σ.watchlist f) qs σ
          rw [hp] at hc
          exact DP.sameCore_trans hc (DP.propagateAux_core fuel q3 σ3 r h)

theorem DP.propagate_core (fuel : Nat) (σ : DP.St) (r : Bool × DP.St)
    (h : DP.propagate fuel σ = some r) : DP.sameCore σ r.2 := by
  unfold DP.propagate at h
  exact DP.sameCore_trans
    (show DP.sameCore σ { σ with lastPropagated := σ.trail.length } from ⟨rfl, rfl⟩)
    (DP.propagateAux_core _ _ _ _ h)

end CorePreservation

section SolveSound

/-- `branchWith` preserves the clause list and variable count. -/
theorem DP.branchWith_core (rec : DP.St → Option (Option (List (Nat × Bool)) × DP.St))
    (hrec : ∀ (σx : DP.St) (r : Option (List (Nat × Bool)) × DP.St),
      rec σx = some r → DP.sameCore σx r.2)
    (fuel : Nat) (σ : DP.St) (lit : Int)
    (r : Option (List (Nat × Bool)) × DP.St)
    (h : DP.branchWith rec fuel σ lit = some r) : DP.sameCore σ r.2 := by
  unfold DP.branchWith at h
  dsimp only at h
  by_cases hok : (DP.assignLiteral σ lit).1 = true
  · rw [if_pos hok] at h
    cases hprop : DP.propagate fuel (DP.assignLiteral σ lit).2 with
    | none => rw [hprop] at h; exact absurd h (by simp)
    | some pr =>
        obtain ⟨b2, σ2⟩ := pr
        rw [hprop] at h
        have hc2 : DP.sameCore σ σ2 :=
          DP.sameCore_trans (DP.assignLiteral_core σ lit)
            (DP.propagate_core fuel _ _ hprop)
        cases b2 with
        | false =>
            simp only [Option.some.injEq] at h
            subst h
            exact hc2
        | true =>
            exact DP.sameCore_trans hc2 (hrec σ2 r (by simpa using h))
  · rw [if_neg hok] at h
    simp only [Option.some.injEq] at h
    subst h
    exact DP.assignLiteral_core σ lit

/-- `_solve_rec` preserves the clause list and variable count. -/
theorem DP.solveRec_core :
    ∀ (fuel : Nat) (σ : DP.St) (r : Option (List (Nat × Bool)) × DP.St),
      DP.solveRec fuel σ = some r → DP.sameCore σ r.2
  | 0, σ, r, h => by simp [DP.solveRec] at h
  | fuel + 1, σ, r, h => by
      have hrec : ∀ (σx : DP.St) (rx : Option (List (Nat × Bool)) × DP.St),
          DP.solveRec fuel σx = some rx → DP.sameCore σx rx.2 :=
        fun σx rx hx => DP.solveRec_core fuel σx rx hx
      rw [DP.solveRec] at h
      cases hst : DP.checkStatus σ with
      | some b =>
          rw [hst] at h
          cases b with
          | false =>
              simp only [Option.some.injEq] at h
              subst h; exact DP.sameCore_refl σ
          | true =>
              simp only [Option.some.injEq] at h
              subst h; exact DP.sameCore_refl σ
      | none =>
          rw [hst] at h
          cases hch : DP.chooseBranchLiteral σ with
          | none =>
              rw [hch] at h
              simp only [Option.some.injEq] at h
              subst h; exact DP.sameCore_refl σ
          | some bl =>
              rw [hch] at h
              dsimp only at h
              have h1 : DP.sameCore σ { σ with splitCount := σ.splitCount + 1 } :=
                ⟨rfl, rfl⟩
              split at h
              · exact absurd h (by simp)
              · next m1 σr1 heq =>
                  simp only [Option.some.injEq] at h
                  subst h
                  exact DP.sameCore_trans h1
                    (DP.branchWith_core (DP.solveRec fuel) hrec fuel _ bl _ heq)
              · next σr1 heq =>
                  have hcb : DP.sameCore σ (DP.undoTo σr1 σ.trail.length) := by
                    have h2 := DP.branchWith_core (DP.solveRec fuel) hrec fuel
                      { σ with splitCount := σ.splitCount + 1 } bl _ heq
                    exact DP.sameCore_trans (DP.sameCore_trans h1 h2)
                      (DP.undoTo_core σr1 _)
                  split at h
                  · exact absurd h (by simp)
                  · next m2 σr2 heq2 =>
                      simp only [Option.some.injEq] at h
                      subst h
                      exact DP.sameCore_trans hcb
                        (DP.branchWith_core (DP.solveRec fuel) hrec fuel _ (-bl) _ heq2)
                  · next σr3 heq2 =>
                      simp only [Option.some.injEq] at h
                      subst h
                      have h3 := DP.branchWith_core (DP.solveRec fuel) hrec fuel _ (-bl) _ heq2
                      exact DP.sameCore_trans (DP.sameCore_trans hcb h3)
                        (DP.undoTo_core σr3 _)

/-- A branch that returns a model returns one satisfying the clauses,
provided the recursive call does. -/
theorem DP.branch_sound (rec : DP.St → Option (Option (List (Nat × Bool)) × DP.St))
    (hrec : ∀ (σx : DP.St) (mx : List (Nat × Bool)) (σy : DP.St),
      wfFormula σx.clauses σx.numVars →
      rec σx = some (some mx, σy) → modelSatisfies mx σx.clauses)
    (fuel : Nat) (σ : DP.St) (lit : Int) (m : List (Nat × Bool)) (σq : DP.St)
    (hwf : wfFormula σ.clauses σ.numVars)
    (h : DP.branchWith rec fuel σ lit = some (some m, σq)) :
    modelSatisfies m σ.clauses := by
  unfold DP.branchWith at h
  dsimp only at h
  by_cases hok : (DP.assignLiteral σ lit).1 = true
  · rw [if_pos hok] at h
    cases hprop : DP.propagate fuel (DP.assignLiteral σ lit).2 with
    | none => rw [hprop] at h; exact absurd h (by simp)
    | some r =>
        obtain ⟨b2, σ2⟩ := r
        rw [hprop] at h
        cases b2 with
        | false => simp at h
        | true =>
            have hcore : DP.sameCore σ σ2 :=
              DP.sameCore_trans (DP.assignLiteral_core σ lit)
                (DP.propagate_core fuel _ _ hprop)
            have hwf2 : wfFormula σ2.clauses σ2.numVars := by
              rw [hcore.1, hcore.2]; exact hwf
            have hms := hrec σ2 m σq hwf2 (by simpa using h)
            rw [hcore.1] at hms
            exact hms
  · rw [if_neg hok] at h
    simp at h

/-- Every model returned by `_solve_rec` satisfies the clause list. -/
theorem DP.solveRec_sound :
    ∀ (fuel : Nat) (σ : DP.St) (m : List (Nat × Bool)) (σ2 : DP.St),
      wfFormula σ.clauses σ.numVars →
      DP.solveRec fuel σ = some (some m, σ2) → modelSatisfies m σ.clauses
  | 0, σ, m, σ2, hwf, h => by simp [DP.solveRec] at h
  | fuel + 1, σ, m, σ2, hwf, h => by
      have hrec : ∀ (σx : DP.St) (mx : List (Nat × Bool)) (σy : DP.St),
          wfFormula σx.clauses σx.numVars →
          DP.solveRec fuel σx = some (some mx, σy) → modelSatisfies mx σx.clauses :=
        fun σx mx σy hw hx => DP.solveRec_sound fuel σx mx σy hw hx
      rw [DP.solveRec] at h
      cases hst : DP.checkStatus σ with
      | some b =>
          rw [hst] at h
          cases b with
          | false => simp at h
          | true =>
              simp at h
              rw [← h.1]
              exact DP.extract_sat σ hwf hst
      | none =>
          rw [hst] at h
          cases hch : DP.chooseBranchLiteral σ with
          | none => exact absurd hch (DP.choose_some_of_undecided σ hst)
          | some bl =>
              rw [hch] at h
              dsimp only at h
              split at h
              · exact absurd h (by simp)
              · next m1 σr1 heq =>
                  simp at h
                  rw [h.1] at heq
                  exact DP.branch_sound (DP.solveRec fuel) hrec fuel
                    { σ with splitCount := σ.splitCount + 1 } bl m σr1 hwf heq
              · next σr1 heq =>
                  split at h
                  · exact absurd h (by simp)
                  · next m2 σr2 heq2 =>
                      simp at h
                      rw [h.1] at heq2
                      have hcb : DP.sameCore σ (DP.undoTo σr1 σ.trail.length) := by
                        have h1 : DP.sameCore σ { σ with splitCount := σ.splitCount + 1 } :=
                          ⟨rfl, rfl⟩
                        have h2 := DP.branchWith_core (DP.solveRec fuel)
                          (fun σx r hx => DP.solveRec_core fuel σx r hx) fuel
                          { σ with splitCount := σ.splitCount + 1 } bl _ heq
                        exact DP.sameCore_trans (DP.sameCore_trans h1 h2)
                          (DP.undoTo_core σr1 _)
                      have hwf3 : wfFormula (DP.undoTo σr1 σ.trail.length).clauses
                          (DP.undoTo σr1 σ.trail.length).numVars := by
                        rw [hcb.1, hcb.2]; exact hwf
                      have hms := DP.branch_sound (DP.solveRec fuel) hrec fuel _ (-bl) m σr2
                        hwf3 heq2
                      rw [hcb.1] at hms
                      exact hms
                  · simp at h

/-- C1: for every well-formed formula on which `solve` returns a model
(SAT), that model satisfies every clause: each clause has a literal `l`
with (`l > 0` and `m[|l|]` true) or (`l < 0` and `m[|l|]` false). -/
theorem claimC1 (clauses : List (List Int)) (numVars fuel : Nat)
    (m : List (Nat × Bool)) (hwf : wfFormula clauses numVars)
    (h : DP.solve clauses numVars fuel = some (some m)) :
    modelSatisfies m clauses := by
  unfold DP.solve at h
  dsimp only at h
  cases hprop : DP.propagate fuel (DP.mkSt clauses numVars) with
  | none => rw [hprop] at h; exact absurd h (by simp)
  | some r =>
      obtain ⟨b, σ1⟩ := r
      rw [hprop] at h
      cases b with
      | false => simp at h
      | true =>
          dsimp only at h
          have hcore : DP.sameCore (DP.mkSt clauses numVars) σ1 :=
            DP.propagate_core fuel _ _ hprop
          have hc1 : σ1.clauses = clauses := hcore.1
          have hn1 : σ1.numVars = numVars := hcore.2
          cases hrec : DP.solveRec fuel σ1 with
          | none => rw [hrec] at h; exact absurd h (by simp)
          | some rr =>
              obtain ⟨res, σ2⟩ := rr
              rw [hrec] at h
              cases res with
              | none => simp at h
              | some m1 =>
                  simp at h
                  rw [h] at hrec
                  have hwf1 : wfFormula σ1.clauses σ1.numVars := by
                    rw [hc1, hn1]; exact hwf
                  have hms := DP.solveRec_sound fuel σ1 m σ2 hwf1 hrec
                  rw [hc1] at hms
                  exact hms

theorem claimC1_witness :
    modelSatisfies [(1, true), (2, false), (3, true)] [[1, 2], [-1, 3], [-2, -3]] :=
  claimC1 [[1, 2], [-1, 3], [-2, -3]] 3 100 [(1, true), (2, false), (3, true)]
    (by decide) (by with_unfolding_all rfl)

end SolveSound

section WatchInvariant

/-- A replacement position returned by the scan differs from both watched
positions. -/
theorem DP.findRepl_not_watch (a : Nat → Option Bool) (w1 w2 : Nat) :
    ∀ (c : List Int) (j k : Nat) (L : Int),
      DP.findRepl a w1 w2 j c = some (k, L) → k ≠ w1 ∧ k ≠ w2
  | [], j, k, L, h => by simp [DP.findRepl] at h
  | l :: rest, j, k, L, h => by
      rw [DP.findRepl] at h
      by_cases hj : j = w1 ∨ j = w2
      · rw [if_pos hj] at h
        exact DP.findRepl_not_watch a w1 w2 rest (j + 1) k L h
      · rw [if_neg hj] at h
        by_cases hf : DP.litIsFalse a l = true
        · rw [if_pos hf] at h
          exact DP.findRepl_not_watch a w1 w2 rest (j + 1) k L h
        · rw [if_neg hf] at h
          simp only [Option.some.injEq, Prod.mk.injEq] at h
          rw [← h.1]
          exact ⟨fun hw => hj (Or.inl hw), fun hw => hj (Or.inr hw)⟩

/-- `_init_watches` only appends to the watch-position table. -/
theorem DP.initWatches_prefix_getD :
    ∀ (cs : List (List Int)) (ci : Nat) (wp : List (Nat × Nat))
      (wl : Int → List Nat) (j : Nat), j < wp.length →
      (DP.initWatches ci cs wp wl).1.getD j (0, 0) = wp.getD j (0, 0)
  | [], ci, wp, wl, j, hj => rfl
  | c :: rest, ci, wp, wl, j, hj => by
      have hlt : j < (wp ++ [((0 : Nat), (0 : Nat))]).length := by simp; omega
      have hlt1 : j < (wp ++ [((0 : Nat), (1 : Nat))]).length := by simp; omega
      have hgd : ∀ p : Nat × Nat, (wp ++ [p]).getD j (0, 0) = wp.getD j (0, 0) := by
        intro p
        rw [List.getD_eq_getElem?_getD, List.getD_eq_getElem?_getD,
          List.getElem?_append_left hj]
      cases c with
      | nil =>
          simp only [DP.initWatches]
          rw [DP.initWatches_prefix_getD rest (ci + 1) _ _ j hlt, hgd]
      | cons l1 ctl =>
          cases ctl with
          | nil =>
              simp only [DP.initWatches]
              rw [DP.initWatches_prefix_getD rest (ci + 1) _ _ j hlt, hgd]
          | cons l2 ctl2 =>
              simp only [DP.initWatches]
              rw [DP.initWatches_prefix_getD rest (ci + 1) _ _ j hlt1, hgd]

/-- After initialization, every clause of length ≥ 2 watches positions
`(0, 1)`. -/
theorem DP.initWatches_w1 :
    ∀ (cs : List (List Int)) (ci : Nat) (wp : List (Nat × Nat))
      (wl : Int → List Nat), wp.length = ci →
      ∀ j, j < cs.length → 2 ≤ (cs.getD j []).length →
        (DP.initWatches ci cs wp wl).1.getD (ci + j) (0, 0) = (0, 1)
  | [], ci, wp, wl, hlen, j, hj, h2 => by simp at hj
  | c :: rest, ci, wp, wl, hlen, j, hj, h2 => by
      cases j with
      | zero =>
          simp only [List.getD_cons_zero] at h2
          cases c with
          | nil => simp at h2
          | cons l1 ctl =>
              cases ctl with
              | nil => simp at h2
              | cons l2 ctl2 =>
                  simp only [DP.initWatches]
                  have hlt : ci + 0 < (wp ++ [((0 : Nat), (1 : Nat))]).length := by
                    simp; omega
                  rw [DP.initWatches_prefix_getD rest (ci + 1) _ _ (ci + 0) hlt]
                  rw [List.getD_eq_getElem?_getD, List.getElem?_append_right (by omega)]
                  simp [hlen]
      | succ j0 =>
          have hrec : ∀ (wp2 : List (Nat × Nat)) (wl2 : Int → List Nat),
              wp2.length = ci + 1 →
              (DP.initWatches (ci + 1) rest wp2 wl2).1.getD (ci + 1 + j0) (0, 0) = (0, 1) := by
            intro wp2 wl2 hl2
            exact DP.initWatches_w1 rest (ci + 1) wp2 wl2 hl2 j0 (by simpa using hj)
              (by simpa using h2)
          have harith : ci + (j0 + 1) = ci + 1 + j0 := by omega
          rw [harith]
          cases c with
          | nil =>
              simp only [DP.initWatches]
              exact hrec _ _ (by simp [hlen])
          | cons l1 ctl =>
              cases ctl with
              | nil =>
                  simp only [DP.initWatches]
                  exact hrec _ _ (by simp [hlen])
              | cons l2 ctl2 =>
                  simp only [DP.initWatches]
                  exact hrec _ _ (by simp [hlen])

/-- W1 holds immediately after construction. -/
theorem DP.mkSt_W1 (clauses : List (List Int)) (n : Nat) :
    DP.W1Inv (DP.mkSt clauses n) := by
  intro ci hci h2
  have hci2 : ci < clauses.length := by simpa [DP.mkSt] using hci
  have h22 : 2 ≤ (clauses.getD ci []).length := by simpa [DP.mkSt] using h2
  have hgd := DP.initWatches_w1 clauses 0 [] (fun _ => []) rfl ci hci2 h22
  simp only [Nat.zero_add] at hgd
  simp only [DP.mkSt]
  rw [hgd]
  decide

/-- W1 depends only on the clause list and watch positions. -/
theorem DP.W1Inv_transfer {σ σ2 : DP.St} (hc : σ2.clauses = σ.clauses)
    (hw : σ2.watchPos = σ.watchPos) (h : DP.W1Inv σ) : DP.W1Inv σ2 := by
  intro ci hci h2
  rw [hc] at hci
  rw [hc] at h2
  rw [hw]
  exact h ci hci h2

/-- `assign_literal` leaves clauses and watch positions unchanged. -/
theorem DP.assignLiteral_watch (σ : DP.St) (l : Int) :
    (DP.assignLiteral σ l).2.clauses = σ.clauses ∧
    (DP.assignLiteral σ l).2.watchPos = σ.watchPos := by
  unfold DP.assignLiteral
  cases hv : σ.assignment l.natAbs <;> simp [hv]

/-- Every step of the watcher-snapshot loop preserves W1: in particular
each watch move installs two distinct positions. -/
theorem DP.procWatchers_W1 (f : Int) :
    ∀ (snap : List Nat) (q : List Int) (σ : DP.St), DP.W1Inv σ →
      DP.W1Inv (DP.procWatchers f snap q σ).state
  | [], q, σ, h => h
  | ci :: rest, q, σ, h => by
      rw [DP.procWatchers]
      dsimp only
      split
      · exact DP.procWatchers_W1 f rest q σ h
      · next falseIdx otherIdx otherLit hinfo =>
        split
        · next kL hrepl =>
            refine DP.procWatchers_W1 f rest q _ ?_
            have hk := DP.findRepl_not_watch σ.assignment _ _ _ 0 kL.1 kL.2 hrepl
            have hother : otherIdx = (σ.watchPos.getD ci (0, 0)).2 ∨
                otherIdx = (σ.watchPos.getD ci (0, 0)).1 := by
              by_cases h1 : (σ.clauses.getD ci []).getD (σ.watchPos.getD ci (0, 0)).1 0 = f
              · rw [if_pos h1] at hinfo
                simp only [Option.some.injEq, Prod.mk.injEq] at hinfo
                exact Or.inl hinfo.2.1.symm
              · rw [if_neg h1] at hinfo
                by_cases h2 : (σ.clauses.getD ci []).getD (σ.watchPos.getD ci (0, 0)).2 0 = f
                · rw [if_pos h2] at hinfo
                  simp only [Option.some.injEq, Prod.mk.injEq] at hinfo
                  exact Or.inr hinfo.2.1.symm
                · rw [if_neg h2] at hinfo
                  exact absurd hinfo (by simp)
            have hko : kL.1 ≠ otherIdx := by
              rcases hother with ho | ho
              · rw [ho]; exact hk.2
              · rw [ho]; exact hk.1
            intro cj hcj h2
            simp only at hcj h2 ⊢
            by_cases hij : cj = ci
            · subst hij
              by_cases hlt : cj < σ.watchPos.length
              · rw [List.getD_eq_getElem?_getD, List.getElem?_set_self hlt]
                simp only [Option.getD_some]
                split
                · exact hko
                · exact Ne.symm hko
              · exfalso
                have hold := h cj hcj h2
                rw [List.getD_eq_getElem?_getD, List.getElem?_eq_none (by omega)] at hold
                simp at hold
            · rw [List.getD_eq_getElem?_getD, List.getElem?_set_ne (Ne.symm hij)]
              rw [← List.getD_eq_getElem?_getD]
              exact h cj hcj h2
        · split
          · split
            · exact h
            · exact DP.procWatchers_W1 f rest q σ h
          · split
            · refine DP.procWatchers_W1 f rest _ _ ?_
              exact DP.W1Inv_transfer (DP.assignLiteral_watch σ _).1
                (DP.assignLiteral_watch σ _).2 h
            · exact DP.W1Inv_transfer (DP.assignLiteral_watch σ _).1
                (DP.assignLiteral_watch σ _).2 h

/-- The queue loop preserves W1. -/
theorem DP.propagateAux_W1 :
    ∀ (fuel : Nat) (q : List Int) (σ : DP.St) (r : Bool × DP.St),
      DP.W1Inv σ → DP.propagateAux fuel q σ = some r → DP.W1Inv r.2
  | 0, _, _, _, _, h => by simp [DP.propagateAux] at h
  | fuel + 1, [], σ, r, hw, h => by
      simp only [DP.propagateAux, Option.some.injEq] at h
      subst h; exact hw
  | fuel + 1, f :: qs, σ, r, hw, h => by
      rw [DP.propagateAux] at h
      cases hp : DP.procWatchers f (σ.watchlist f) qs σ with
      | conflict σ3 =>
          rw [hp] at h
          have hc := DP.procWatchers_W1 f (σ.watchlist f) qs σ hw
          rw [hp] at hc
          simp only [Option.some.injEq] at h
          subst h; exact hc
      | ok σ3 q3 =>
          rw [hp] at h
          have hc := DP.procWatchers_W1 f (σ.watchlist f) qs σ hw
          rw [hp] at hc
          exact DP.propagateAux_W1 fuel q3 σ3 r hc h

/-- C7: invariant W1 — for every clause with two or more literals the two
watched positions are distinct — holds after watch initialization and is
preserved by every propagation step (each snapshot-processing step,
including every watch move, and the whole queue loop of `propagate`). -/
theorem claimC7 :
    (∀ (clauses : List (List Int)) (n : Nat), DP.W1Inv (DP.mkSt clauses n)) ∧
    (∀ (f : Int) (snap : List Nat) (q : List Int) (σ : DP.St), DP.W1Inv σ →
      DP.W1Inv (DP.procWatchers f snap q σ).state) ∧
    (∀ (fuel : Nat) (σ : DP.St) (r : Bool × DP.St), DP.W1Inv σ →
      DP.propagate fuel σ = some r → DP.W1Inv r.2) :=
  ⟨DP.mkSt_W1, DP.procWatchers_W1,
   fun fuel σ r hw h => by
     unfold DP.propagate at h
     refine DP.propagateAux_W1 fuel _ _ r ?_ h
     exact DP.W1Inv_transfer rfl rfl hw⟩

theorem claimC7_witness :
    DP.W1Inv (DP.mkSt [[1, 2], [-1, 3], [-2, -3]] 3) ∧
    DP.W1Inv ((DP.procWatchers (-1) [1] [] (DP.mkSt [[1, 2], [-1, 3], [-2, -3]] 3)).state) :=
  ⟨claimC7.1 [[1, 2], [-1, 3], [-2, -3]] 3,
   claimC7.2.1 (-1) [1] [] (DP.mkSt [[1, 2], [-1, 3], [-2, -3]] 3)
     (claimC7.1 [[1, 2], [-1, 3], [-2, -3]] 3)⟩

end WatchInvariant

section CompletenessBase

/-- A literal false under the current assignment cannot be satisfied by any
extending total assignment. -/
theorem DP.litIsFalse_notSat (a : Nat → Option Bool) (τ : Nat → Bool) (l : Int)
    (hf : DP.litIsFalse a l = true) (hext : extendsA τ a) : ¬ litSat τ l := by
  intro hs
  rw [DP.litIsFalse] at hf
  cases hv : a l.natAbs with
  | none => rw [hv] at hf; exact absurd hf (by simp)
  | some val =>
      rw [hv] at hf
      simp only [Bool.or_eq_true, Bool.and_eq_true, decide_eq_true_eq,
        Bool.not_eq_true'] at hf
      have hτ := hext l.natAbs val hv
      rcases hs with ⟨hpos, ht⟩ | ⟨hneg, ht⟩ <;> rw [ht] at hτ <;>
        rcases hf with ⟨h1, h2⟩ | ⟨h1, h2⟩
      · rw [← hτ] at h2; simp at h2
      · omega
      · omega
      · rw [← hτ] at h2; simp at h2

/-- Falseness of a literal is monotone under assignment extension. -/
theorem DP.litIsFalse_mono (a a2 : Nat → Option Bool) (l : Int)
    (hle : ∀ v b, a v = some b → a2 v = some b)
    (hf : DP.litIsFalse a l = true) : DP.litIsFalse a2 l = true := by
  rw [DP.litIsFalse] at hf ⊢
  cases hv : a l.natAbs with
  | none => rw [hv] at hf; exact absurd hf (by simp)
  | some val => rw [hv] at hf; rw [hle l.natAbs val hv]; exact hf

/-- QF0 is monotone under assignment extension. -/
theorem DP.QF0_mono (q : List Int) (a a2 : Nat → Option Bool)
    (hle : ∀ v b, a v = some b → a2 v = some b)
    (h : DP.QF0 q a) : DP.QF0 q a2 :=
  fun f hf h0 => DP.litIsFalse_mono a a2 f hle (h f hf h0)

/-- An assigned, not-currently-true literal cannot be satisfied by any
extending total assignment. -/
theorem DP.notTrue_notSat (a : Nat → Option Bool) (τ : Nat → Bool) (l : Int)
    (val : Bool) (hv : a l.natAbs = some val)
    (hnt : DP.litIsTrue a l = false) (hext : extendsA τ a) : ¬ litSat τ l := by
  rw [DP.litIsTrue, hv] at hnt
  intro hs
  have hτ := hext l.natAbs val hv
  simp only [Bool.or_eq_false_iff, Bool.and_eq_false_iff] at hnt
  rcases hs with ⟨hpos, ht⟩ | ⟨hneg, ht⟩
  · rw [ht] at hτ
    rcases hnt.1 with h1 | h1
    · simp at h1; omega
    · rw [← hτ] at h1; simp at h1
  · rw [ht] at hτ
    rcases hnt.2 with h1 | h1
    · simp at h1; omega
    · simp at h1
      rw [← hτ] at h1
      simp at h1

/-- A satisfied literal pins down the value of its variable in any
assignment update. -/
theorem DP.litSat_extends_update (τ : Nat → Bool) (a : Nat → Option Bool)
    (l : Int) (hext : extendsA τ a) (hs : litSat τ l) :
    extendsA τ (fun w => if w = l.natAbs then some (decide (0 < l)) else a w) := by
  intro v b hv
  simp only [] at hv
  by_cases hvl : v = l.natAbs
  · rw [if_pos hvl] at hv
    obtain rfl : decide (0 < l) = b := by simpa using hv
    subst hvl
    rcases hs with ⟨hpos, ht⟩ | ⟨hneg, ht⟩
    · rw [ht]; simp [hpos]
    · rw [ht]; symm; simp; omega
  · rw [if_neg hvl] at hv
    exact hext v b hv

/-- For a nonzero literal, a total assignment satisfies it or its
negation. -/
theorem DP.litSat_or_neg (τ : Nat → Bool) (l : Int) (hl : l ≠ 0) :
    litSat τ l ∨ litSat τ (-l) := by
  rcases Int.lt_or_lt_of_ne hl with hneg | hpos
  · cases ht : τ l.natAbs with
    | true =>
        right
        refine Or.inl ⟨by omega, ?_⟩
        rw [Int.natAbs_neg]; exact ht
    | false => exact Or.inl (Or.inr ⟨hneg, ht⟩)
  · cases ht : τ l.natAbs with
    | true => exact Or.inl (Or.inl ⟨hpos, ht⟩)
    | false =>
        right
        refine Or.inr ⟨by omega, ?_⟩
        rw [Int.natAbs_neg]; exact ht

end CompletenessBase

section TrailMachinery

/-- States equal in trail and assignment are trail-extensions. -/
theorem DP.TrailExt_of_eq {σ σ2 : DP.St} (ht : σ2.trail = σ.trail)
    (ha : σ2.assignment = σ.assignment) : DP.TrailExt σ σ2 :=
  ⟨[], by simp [ht], by simp, List.Pairwise.nil, fun v _ => by rw [ha]⟩

theorem DP.TrailExt_refl (σ : DP.St) : DP.TrailExt σ σ :=
  DP.TrailExt_of_eq rfl rfl

theorem DP.TrailExt_trans {σ1 σ2 σ3 : DP.St} (h1 : DP.TrailExt σ1 σ2)
    (h2 : DP.TrailExt σ2 σ3) : DP.TrailExt σ1 σ3 := by
  obtain ⟨Δ1, ht1, hv1, hp1, hr1⟩ := h1
  obtain ⟨Δ2, ht2, hv2, hp2, hr2⟩ := h2
  refine ⟨Δ1 ++ Δ2, by rw [ht2, ht1, List.append_assoc], ?_, ?_, ?_⟩
  · intro p hp
    rcases List.mem_append.mp hp with hm | hm
    · refine ⟨(hv1 p hm).1, ?_⟩
      by_cases hin : ∀ q ∈ Δ2, q.1 ≠ p.1
      · rw [hr2 p.1 hin]; exact (hv1 p hm).2
      · push_neg at hin
        obtain ⟨q, hq, hqe⟩ := hin
        have := (hv2 q hq).1
        rw [hqe] at this
        rw [(hv1 p hm).2] at this
        exact absurd this (by simp)
    · refine ⟨?_, (hv2 p hm).2⟩
      by_cases hin : ∀ q ∈ Δ1, q.1 ≠ p.1
      · rw [← hr1 p.1 hin]; exact (hv2 p hm).1
      · push_neg at hin
        obtain ⟨q, hq, hqe⟩ := hin
        have h2v := (hv2 p hm).1
        have h1v := (hv1 q hq).2
        rw [hqe] at h1v
        rw [h1v] at h2v
        exact absurd h2v (by simp)
  · rw [List.pairwise_append]
    refine ⟨hp1, hp2, ?_⟩
    intro p hp q hq
    intro hne
    have h1v := (hv1 p hp).2
    have h2v := (hv2 q hq).1
    rw [← hne] at h2v
    rw [h1v] at h2v
    exact absurd h2v (by simp)
  · intro v hv
    rw [hr2 v (fun p hp => hv p (List.mem_append.mpr (Or.inr hp))),
      hr1 v (fun p hp => hv p (List.mem_append.mpr (Or.inl hp)))]

/-- `assign_literal` case analysis. -/
theorem DP.assignLiteral_cases (σ : DP.St) (l : Int) :
    (σ.assignment l.natAbs = none ∧
      DP.assignLiteral σ l = (true, { σ with
        assignment := fun w => if w = l.natAbs then some (decide (0 < l)) else σ.assignment w,
        trail := σ.trail ++ [(l.natAbs, decide (0 < l))] })) ∨
    (∃ cur, σ.assignment l.natAbs = some cur ∧
      DP.assignLiteral σ l = (cur == decide (0 < l), σ)) := by
  unfold DP.assignLiteral
  dsimp only
  cases hv : σ.assignment l.natAbs with
  | none => exact Or.inl ⟨rfl, rfl⟩
  | some cur => exact Or.inr ⟨cur, rfl, rfl⟩

/-- A successful `assign_literal` preserves trail consistency, is a trail
extension, and extends the assignment pointwise. -/
theorem DP.assignLiteral_ok_spec (σ : DP.St) (l : Int)
    (hTI : DP.TInv σ) (hok : (DP.assignLiteral σ l).1 = true) :
    DP.TInv (DP.assignLiteral σ l).2 ∧ DP.TrailExt σ (DP.assignLiteral σ l).2 ∧
    (∀ v b, σ.assignment v = some b → (DP.assignLiteral σ l).2.assignment v = some b) := by
  rcases DP.assignLiteral_cases σ l with ⟨hnone, heq⟩ | ⟨cur, hsome, heq⟩
  · rw [heq]
    refine ⟨?_, ?_, ?_⟩
    · intro p hp
      simp only [List.mem_append, List.mem_singleton] at hp
      rcases hp with hp | hp
      · have := hTI p hp
        have hne : p.1 ≠ l.natAbs := by
          intro he
          rw [he, hnone] at this
          exact absurd this (by simp)
        simpa [hne] using this
      · subst hp
        simp
    · refine ⟨[(l.natAbs, decide (0 < l))], rfl, ?_, ?_, ?_⟩
      · intro p hp
        simp only [List.mem_singleton] at hp
        subst hp
        exact ⟨hnone, by simp⟩
      · simp
      · intro v hv
        have hne := hv (l.natAbs, decide (0 < l)) (by simp)
        simp only at hne
        simp [Ne.symm hne]
    · intro v b hv
      have hne : v ≠ l.natAbs := by
        intro he
        rw [he, hnone] at hv
        exact absurd hv (by simp)
      simpa [hne] using hv
  · rw [heq]
    exact ⟨hTI, DP.TrailExt_refl σ, fun v b hv => hv⟩

/-- A failed `assign_literal` leaves the state unchanged and the literal
contradicts the current assignment. -/
theorem DP.assignLiteral_fail_spec (σ : DP.St) (l : Int)
    (hfail : (DP.assignLiteral σ l).1 = false) :
    (DP.assignLiteral σ l).2 = σ ∧
    σ.assignment l.natAbs = some (!decide (0 < l)) := by
  rcases DP.assignLiteral_cases σ l with ⟨hnone, heq⟩ | ⟨cur, hsome, heq⟩
  · rw [heq] at hfail; exact absurd hfail (by simp)
  · rw [heq] at hfail ⊢
    simp only [beq_eq_false_iff_ne, ne_eq] at hfail
    refine ⟨rfl, ?_⟩
    rw [hsome]
    cases cur <;> cases hd : decide (0 < l) <;> simp_all

end TrailMachinery

section UndoRestore

theorem DP.undoSteps_watchlist : ∀ (n : Nat) (σ : DP.St),
    (DP.undoSteps n σ).watchlist = σ.watchlist ∧
    (DP.undoSteps n σ).watchPos = σ.watchPos
  | 0, σ => ⟨rfl, rfl⟩
  | n + 1, σ => by
      rw [DP.undoSteps]
      have h2 := DP.undoSteps_watchlist n (DP.undoOne σ)
      have h1 : (DP.undoOne σ).watchlist = σ.watchlist ∧
          (DP.undoOne σ).watchPos = σ.watchPos := by
        unfold DP.undoOne
        cases σ.trail.getLast? with
        | none => exact ⟨rfl, rfl⟩
        | some p => exact ⟨rfl, rfl⟩
      exact ⟨h2.1.trans h1.1, h2.2.trans h1.2⟩

theorem DP.undoTo_watchlist (σ : DP.St) (mark : Nat) :
    (DP.undoTo σ mark).watchlist = σ.watchlist := by
  unfold DP.undoTo
  dsimp only
  split
  · exact (DP.undoSteps_watchlist _ σ).1
  · exact (DP.undoSteps_watchlist _ σ).1

/-- Undoing exactly the extension suffix restores trail and assignment. -/
theorem DP.undoSteps_restore (σ : DP.St) :
    ∀ (Δ : List (Nat × Bool)) (σ2 : DP.St),
      σ2.trail = σ.trail ++ Δ →
      (∀ p ∈ Δ, σ.assignment p.1 = none ∧ σ2.assignment p.1 = some p.2) →
      Δ.Pairwise (fun p q => p.1 ≠ q.1) →
      (∀ v, (∀ p ∈ Δ, p.1 ≠ v) → σ2.assignment v = σ.assignment v) →
      (DP.undoSteps Δ.length σ2).trail = σ.trail ∧
      (DP.undoSteps Δ.length σ2).assignment = σ.assignment := by
  intro Δ
  induction Δ using List.reverseRecOn with
  | nil =>
      intro σ2 ht hval hpw hrest
      refine ⟨by simpa using ht, ?_⟩
      funext v
      exact hrest v (fun p hp => absurd hp (List.not_mem_nil p))
  | append_singleton Δ0 p ih =>
      intro σ2 ht hval hpw hrest
      obtain ⟨pv, pb⟩ := p
      have hlen : (Δ0 ++ [(pv, pb)]).length = Δ0.length + 1 := by simp
      rw [hlen, DP.undoSteps]
      have hgl : σ2.trail.getLast? = some (pv, pb) := by
        rw [ht, ← List.append_assoc]
        exact List.getLast?_concat _
      have hone : DP.undoOne σ2 =
          { σ2 with
            trail := σ2.trail.dropLast,
            assignment := fun w => if w = pv then none else σ2.assignment w } := by
        unfold DP.undoOne
        rw [hgl]
      rw [hone]
      have hpw0 : Δ0.Pairwise (fun p q => p.1 ≠ q.1) :=
        (List.pairwise_append.mp hpw).1
      have hplast : ∀ q ∈ Δ0, q.1 ≠ pv := by
        intro q hq
        exact (List.pairwise_append.mp hpw).2.2 q hq (pv, pb) (by simp)
      refine ih _ ?_ ?_ hpw0 ?_
      · simp only []
        rw [ht, ← List.append_assoc, List.dropLast_concat]
      · intro q hq
        refine ⟨(hval q (by simp [hq])).1, ?_⟩
        simp only []
        rw [if_neg (hplast q hq)]
        exact (hval q (by simp [hq])).2
      · intro v hv
        simp only []
        by_cases hvp : v = pv
        · rw [if_pos hvp, hvp]
          exact ((hval (pv, pb) (by simp)).1).symm
        · rw [if_neg hvp]
          refine hrest v ?_
          intro q hq
          rcases List.mem_append.mp hq with hq0 | hq1
          · exact hv q hq0
          · simp only [List.mem_singleton] at hq1
            subst hq1
            simpa using fun he => hvp he.symm

/-- `undo_to` at the base trail length restores trail and assignment. -/
theorem DP.undoTo_restore (σ σ2 : DP.St) (h : DP.TrailExt σ σ2) :
    (DP.undoTo σ2 σ.trail.length).trail = σ.trail ∧
    (DP.undoTo σ2 σ.trail.length).assignment = σ.assignment := by
  obtain ⟨Δ, ht, hval, hpw, hrest⟩ := h
  have hr := DP.undoSteps_restore σ Δ σ2 ht hval hpw hrest
  unfold DP.undoTo
  have hlen : σ2.trail.length - σ.trail.length = Δ.length := by rw [ht]; simp
  rw [hlen]
  dsimp only
  split
  · exact hr
  · exact hr

end UndoRestore

section ForcingLemmas

/-- When the replacement scan fails, every clause position is watched or
holds a known-false literal. -/
theorem DP.findRepl_none_spec (a : Nat → Option Bool) (w1 w2 : Nat) :
    ∀ (c : List Int) (j : Nat), DP.findRepl a w1 w2 j c = none →
      ∀ i, i < c.length →
        (j + i = w1 ∨ j + i = w2) ∨ DP.litIsFalse a (c.getD i 0) = true
  | [], _, _, i, hi => absurd hi (by simp)
  | l :: rest, j, h, i, hi => by
      rw [DP.findRepl] at h
      by_cases hw : j = w1 ∨ j = w2
      · rw [if_pos hw] at h
        cases i with
        | zero => exact Or.inl (by simpa using hw)
        | succ i2 =>
            rcases DP.findRepl_none_spec a w1 w2 rest (j + 1) h i2
                (by simpa using hi) with hc | hf
            · exact Or.inl (by omega)
            · exact Or.inr (by simpa using hf)
      · rw [if_neg hw] at h
        by_cases hfl : DP.litIsFalse a l = true
        · rw [if_pos hfl] at h
          cases i with
          | zero => exact Or.inr (by simpa using hfl)
          | succ i2 =>
              rcases DP.findRepl_none_spec a w1 w2 rest (j + 1) h i2
                  (by simpa using hi) with hc | hf
              · exact Or.inl (by omega)
              · exact Or.inr (by simpa using hf)
        · rw [if_neg hfl] at h
          exact absurd h (by simp)

/-- A successful replacement scan returns a literal of the clause. -/
theorem DP.findRepl_some_mem (a : Nat → Option Bool) (w1 w2 : Nat) :
    ∀ (c : List Int) (j k : Nat) (L : Int),
      DP.findRepl a w1 w2 j c = some (k, L) → L ∈ c
  | [], _, _, _, h => absurd h (by simp [DP.findRepl])
  | l :: rest, j, k, L, h => by
      rw [DP.findRepl] at h
      by_cases hw : j = w1 ∨ j = w2
      · rw [if_pos hw] at h
        exact List.mem_cons_of_mem l (DP.findRepl_some_mem a w1 w2 rest (j + 1) k L h)
      · rw [if_neg hw] at h
        by_cases hfl : DP.litIsFalse a l = true
        · rw [if_pos hfl] at h
          exact List.mem_cons_of_mem l (DP.findRepl_some_mem a w1 w2 rest (j + 1) k L h)
        · rw [if_neg hfl] at h
          simp only [Option.some.injEq, Prod.mk.injEq] at h
          rw [← h.2]
          exact List.mem_cons_self l rest

/-- Forcing: if the false watched literal has no replacement, any satisfying
assignment extending the current one must satisfy the other watched
literal. -/
theorem DP.clauseForce (τ : Nat → Bool) (a : Nat → Option Bool)
    (clause : List Int) (w1 w2 falseIdx otherIdx : Nat) (f otherLit : Int)
    (hio : (falseIdx = w1 ∧ otherIdx = w2) ∨ (falseIdx = w2 ∧ otherIdx = w1))
    (hfl : clause.getD falseIdx 0 = f)
    (hol : clause.getD otherIdx 0 = otherLit)
    (hf : DP.litIsFalse a f = true)
    (hrepl : DP.findRepl a w1 w2 0 clause = none)
    (hext : extendsA τ a)
    (hsat : clauseSat τ clause) :
    litSat τ otherLit := by
  obtain ⟨l, hlm, hls⟩ := hsat
  obtain ⟨i, hig⟩ := List.mem_iff_get.mp hlm
  by_cases hw : (i : Nat) = w1 ∨ (i : Nat) = w2
  · have hcase : (i : Nat) = falseIdx ∨ (i : Nat) = otherIdx := by
      rcases hio with ⟨h1, h2⟩ | ⟨h1, h2⟩ <;> rcases hw with h3 | h3 <;> omega
    rcases hcase with hi | hi
    · exfalso
      have hlf : f = l := by
        rw [← hfl, ← hi, List.getD_eq_get clause 0 i.isLt, hig]
      rw [hlf] at hf
      exact DP.litIsFalse_notSat a τ l hf hext hls
    · have hle : otherLit = l := by
        rw [← hol, ← hi, List.getD_eq_get clause 0 i.isLt, hig]
      rw [hle]
      exact hls
  · push_neg at hw
    rcases DP.findRepl_none_spec a w1 w2 clause 0 hrepl (i : Nat) i.isLt
        with hc | hfalse
    · exfalso; omega
    · exfalso
      have hlf : clause.getD (i : Nat) 0 = l := by
        rw [List.getD_eq_get clause 0 i.isLt, hig]
      rw [hlf] at hfalse
      exact DP.litIsFalse_notSat a τ l hfalse hext hls

end ForcingLemmas

section CompletenessHelpers

/-- The pseudo-literal `0` is never known-false. -/
theorem DP.litIsFalse_zero (a : Nat → Option Bool) : DP.litIsFalse a 0 = false := by
  rw [DP.litIsFalse]
  cases hv : a (0 : Int).natAbs with
  | none => rfl
  | some val => cases val <;> rfl

theorem DP.litIsFalse_ne_zero (a : Nat → Option Bool) (f : Int)
    (h : DP.litIsFalse a f = true) : f ≠ 0 := by
  intro h0
  rw [h0, DP.litIsFalse_zero] at h
  exact absurd h (by simp)

/-- An assigned nonzero literal that is not currently true is known-false. -/
theorem DP.notTrue_assigned_false (a : Nat → Option Bool) (l : Int) (val : Bool)
    (hv : a l.natAbs = some val) (hnz : l ≠ 0)
    (hnt : ((decide (0 < l) && val) || (decide (l < 0) && !val)) = false) :
    DP.litIsFalse a l = true := by
  rw [DP.litIsFalse, hv]
  show ((decide (0 < l) && !val) || (decide (l < 0) && val)) = true
  rcases Int.lt_or_lt_of_ne hnz with hneg | hpos
  · have h1 : decide (0 < l) = false := by simp only [decide_eq_false_iff_not]; omega
    have h2 : decide (l < 0) = true := by simp only [decide_eq_true_eq]; exact hneg
    rw [h1, h2] at hnt ⊢
    cases val <;> simp_all
  · have h1 : decide (0 < l) = true := by simp only [decide_eq_true_eq]; exact hpos
    have h2 : decide (l < 0) = false := by simp only [decide_eq_false_iff_not]; omega
    rw [h1, h2] at hnt ⊢
    cases val <;> simp_all

/-- Once the undecided flag is set, `clauseStat` reports it. -/
theorem DP.clauseStat_snd_true (a : Nat → Option Bool) :
    ∀ (c : List Int), (DP.clauseStat a c true).2 = true
  | [] => rfl
  | l :: rest => by
      rw [DP.clauseStat]
      cases hv : a l.natAbs with
      | none => exact DP.clauseStat_snd_true a rest
      | some val =>
          split
          · rename_i x heq
            exact absurd heq (by simp)
          · split
            · rfl
            · exact DP.clauseStat_snd_true a rest

/-- A clause scan reporting "no true literal, nothing unassigned" means every
(nonzero) literal is known-false. -/
theorem DP.clauseStat_allFalse (a : Nat → Option Bool) :
    ∀ (c : List Int) (und : Bool), (∀ l ∈ c, l ≠ 0) →
      (DP.clauseStat a c und).1 = false → (DP.clauseStat a c und).2 = false →
      ∀ l ∈ c, DP.litIsFalse a l = true
  | [], _, _, _, _, l, hm => absurd hm (List.not_mem_nil l)
  | l0 :: rest, und, hz, h1, h2, l, hm => by
      rw [DP.clauseStat] at h1 h2
      cases hv : a l0.natAbs with
      | none =>
          simp only [hv] at h2
          rw [DP.clauseStat_snd_true a rest] at h2
          exact absurd h2 (by simp)
      | some val =>
          simp only [hv] at h1 h2
          by_cases ht : ((decide (0 < l0) && val) || (decide (l0 < 0) && !val)) = true
          · rw [if_pos ht] at h1
            simp at h1
          · rw [if_neg ht] at h1 h2
            rcases List.mem_cons.mp hm with rfl | hm2
            · have hnt : ((decide (0 < l) && val) || (decide (l < 0) && !val)) = false := by
                cases hb : ((decide (0 < l) && val) || (decide (l < 0) && !val))
                · rfl
                · exact absurd hb ht
              exact DP.notTrue_assigned_false a l val hv
                (hz l (List.mem_cons_self l rest)) hnt
            · exact DP.clauseStat_allFalse a rest und
                (fun x hx => hz x (List.mem_cons_of_mem l0 hx)) h1 h2 l hm2

/-- `check_status` answering UNSAT exhibits a fully-false clause. -/
theorem DP.checkStatusAux_false (a : Nat → Option Bool) :
    ∀ (cs : List (List Int)), DP.checkStatusAux a cs = some false →
      ∃ c ∈ cs, (DP.clauseStat a c false).1 = false ∧
        (DP.clauseStat a c false).2 = false
  | [], h => by rw [DP.checkStatusAux] at h; exact absurd h (by simp)
  | c0 :: rest, h => by
      rw [DP.checkStatusAux] at h
      by_cases h1 : (DP.clauseStat a c0 false).1 = true
      · rw [if_pos h1] at h
        obtain ⟨c, hm, hc⟩ := DP.checkStatusAux_false a rest h
        exact ⟨c, List.mem_cons_of_mem c0 hm, hc⟩
      · rw [if_neg h1] at h
        by_cases h2 : (!(DP.clauseStat a c0 false).2) = true
        · exact ⟨c0, List.mem_cons_self c0 rest, by simpa using h1, by simpa using h2⟩
        · rw [if_neg h2] at h
          cases hr : DP.checkStatusAux a rest with
          | none => rw [hr] at h; exact absurd h (by simp)
          | some b =>
              cases b with
              | false =>
                  obtain ⟨c, hm, hc⟩ := DP.checkStatusAux_false a rest hr
                  exact ⟨c, List.mem_cons_of_mem c0 hm, hc⟩
              | true => rw [hr] at h; exact absurd h (by simp)

/-- UNSAT from `check_status` is semantically final: no extension of the
current assignment satisfies the formula. -/
theorem DP.checkStatus_false_unsat (σ : DP.St)
    (hwf : ∀ c ∈ σ.clauses, ∀ l ∈ c, l ≠ 0)
    (h : DP.checkStatus σ = some false) :
    ∀ τ, extendsA τ σ.assignment → ¬ formulaSat τ σ.clauses := by
  obtain ⟨c, hm, h1, h2⟩ := DP.checkStatusAux_false σ.assignment σ.clauses h
  intro τ hext hsat
  obtain ⟨l, hlm, hls⟩ := hsat c hm
  have hf := DP.clauseStat_allFalse σ.assignment c false (hwf c hm) h1 h2 l hlm
  exact DP.litIsFalse_notSat σ.assignment τ l hf hext hls

/-- Under trail consistency, the propagation queue built from the trail
consists of false literals. -/
theorem DP.buildQueue_QF0 (σ : DP.St) (hT : DP.TInv σ) :
    DP.QF0 (DP.buildQueue σ) σ.assignment := by
  intro f hf hnz
  unfold DP.buildQueue at hf
  obtain ⟨p, hp, hpe⟩ := List.mem_map.mp hf
  have hpt : p ∈ σ.trail := List.drop_subset _ _ hp
  have ha := hT p hpt
  cases hb : p.2 with
  | true =>
      rw [hb] at ha
      simp only [hb, if_true] at hpe
      rw [← hpe]
      have hp1 : p.1 ≠ 0 := by
        intro h0
        rw [← hpe, h0] at hnz
        simp at hnz
      rw [DP.litIsFalse]
      have hna : (-(p.1 : Int)).natAbs = p.1 := by simp
      rw [hna, ha]
      show ((decide (0 < -(p.1 : Int)) && !true) || (decide (-(p.1 : Int) < 0) && true)) = true
      simp only [Bool.not_true, Bool.and_false, Bool.false_or, Bool.and_true,
        decide_eq_true_eq]
      omega
  | false =>
      rw [hb] at ha
      simp only [hb, Bool.false_eq_true, if_false] at hpe
      rw [← hpe]
      have hp1 : p.1 ≠ 0 := by
        intro h0
        rw [← hpe, h0] at hnz
        simp at hnz
      rw [DP.litIsFalse]
      have hna : ((p.1 : Int)).natAbs = p.1 := by simp
      rw [hna, ha]
      show ((decide (0 < (p.1 : Int)) && !false) || (decide ((p.1 : Int) < 0) && false)) = true
      simp only [Bool.not_false, Bool.and_true, Bool.and_false, Bool.or_false,
        decide_eq_true_eq]
      omega

end CompletenessHelpers

section ChooseNonzero

/-- Python's `max` fold returns an element of the list it scanned. -/
theorem DP.foldMax_mem : ∀ (rest : List (Int × Rat)) (p : Int × Rat),
    rest.foldl (fun best q => if best.2 < q.2 then q else best) p ∈ p :: rest
  | [], p => List.mem_cons_self p []
  | q :: rest, p => by
      simp only [List.foldl_cons]
      by_cases h : p.2 < q.2
      · rw [if_pos h]
        exact List.mem_cons_of_mem p (DP.foldMax_mem rest q)
      · rw [if_neg h]
        rcases List.mem_cons.mp (DP.foldMax_mem rest p) with he | hm
        · exact List.mem_cons.mpr (Or.inl he)
        · exact List.mem_cons_of_mem p (List.mem_cons_of_mem q hm)

/-- Every key of the score table after a bump is the bumped literal or an
existing key. -/
theorem DP.bumpScore_key : ∀ (s : List (Int × Rat)) (lit : Int) (w : Rat)
    (p : Int × Rat), p ∈ DP.bumpScore s lit w → p.1 = lit ∨ ∃ q ∈ s, p.1 = q.1
  | [], lit, w, p, h => by
      rw [DP.bumpScore] at h
      simp only [List.mem_singleton] at h
      rw [h]
      exact Or.inl rfl
  | r :: rest, lit, w, p, h => by
      rw [DP.bumpScore] at h
      by_cases hr : r.1 = lit
      · rw [if_pos hr] at h
        rcases List.mem_cons.mp h with he | hm
        · rw [he]
          exact Or.inl hr
        · exact Or.inr ⟨p, List.mem_cons_of_mem r hm, rfl⟩
      · rw [if_neg hr] at h
        rcases List.mem_cons.mp h with he | hm
        · exact Or.inr ⟨r, List.mem_cons_self r rest, by rw [he]⟩
        · rcases DP.bumpScore_key rest lit w p hm with h1 | ⟨q, hq, he⟩
          · exact Or.inl h1
          · exact Or.inr ⟨q, List.mem_cons_of_mem r hq, he⟩

/-- Keys of the per-clause score fold come from the clause or the initial
table. -/
theorem DP.scoresFold_key (a : Nat → Option Bool) (w : Rat) :
    ∀ (c : List Int) (s : List (Int × Rat)) (p : Int × Rat),
      p ∈ c.foldl (fun s2 l =>
        match a l.natAbs with
        | none => DP.bumpScore s2 l w
        | some _ => s2) s →
      p.1 ∈ c ∨ ∃ q ∈ s, p.1 = q.1
  | [], s, p, h => Or.inr ⟨p, h, rfl⟩
  | l :: rest, s, p, h => by
      simp only [List.foldl_cons] at h
      cases hv : a l.natAbs with
      | none =>
          simp only [hv] at h
          rcases DP.scoresFold_key a w rest (DP.bumpScore s l w) p h with h1 | ⟨q, hq, he⟩
          · exact Or.inl (List.mem_cons_of_mem l h1)
          · rcases DP.bumpScore_key s l w q hq with h2 | ⟨q2, hq2, he2⟩
            · refine Or.inl ?_
              rw [he, h2]
              exact List.mem_cons_self l rest
            · exact Or.inr ⟨q2, hq2, he.trans he2⟩
      | some val =>
          simp only [hv] at h
          rcases DP.scoresFold_key a w rest s p h with h1 | h2
          · exact Or.inl (List.mem_cons_of_mem l h1)
          · exact Or.inr h2

theorem DP.addClauseScores_key (a : Nat → Option Bool) (c : List Int)
    (s : List (Int × Rat)) (p : Int × Rat) (h : p ∈ DP.addClauseScores a s c) :
    p.1 ∈ c ∨ ∃ q ∈ s, p.1 = q.1 :=
  DP.scoresFold_key a (1 / 2 ^ c.length) c s p h

/-- Keys of the full score table are literals of the clause list. -/
theorem DP.chooseFold_key (a : Nat → Option Bool) :
    ∀ (cs : List (List Int)) (s : List (Int × Rat)) (p : Int × Rat),
      p ∈ cs.foldl (fun s2 c =>
        let st := DP.scanClause a c false
        if st.1 || !st.2 then s2 else DP.addClauseScores a s2 c) s →
      (∃ c ∈ cs, p.1 ∈ c) ∨ ∃ q ∈ s, p.1 = q.1
  | [], s, p, h => Or.inr ⟨p, h, rfl⟩
  | c0 :: rest, s, p, h => by
      simp only [List.foldl_cons] at h
      by_cases hc : ((DP.scanClause a c0 false).1 || !(DP.scanClause a c0 false).2) = true
      · simp only [hc, if_true] at h
        rcases DP.chooseFold_key a rest s p h with ⟨c, hm, hp⟩ | h2
        · exact Or.inl ⟨c, List.mem_cons_of_mem c0 hm, hp⟩
        · exact Or.inr h2
      · simp only [hc, Bool.false_eq_true, if_false] at h
        rcases DP.chooseFold_key a rest (DP.addClauseScores a s c0) p h
            with ⟨c, hm, hp⟩ | ⟨q, hq, he⟩
        · exact Or.inl ⟨c, List.mem_cons_of_mem c0 hm, hp⟩
        · rcases DP.addClauseScores_key a c0 s q hq with h1 | ⟨q2, hq2, he2⟩
          · refine Or.inl ⟨c0, List.mem_cons_self c0 rest, ?_⟩
            rw [he]
            exact h1
          · exact Or.inr ⟨q2, hq2, he.trans he2⟩

/-- On a formula without zero literals, the chosen branch literal is
nonzero. -/
theorem DP.choose_nonzero (σ : DP.St)
    (hwf : ∀ c ∈ σ.clauses, ∀ l ∈ c, l ≠ 0) (bl : Int)
    (h : DP.chooseBranchLiteral σ = some bl) : bl ≠ 0 := by
  unfold DP.chooseBranchLiteral at h
  cases hs : DP.chooseScores σ with
  | nil => rw [hs] at h; exact absurd h (by simp)
  | cons p rest =>
      rw [hs] at h
      simp only [Option.some.injEq] at h
      have hmem : rest.foldl (fun best q => if best.2 < q.2 then q else best) p
          ∈ DP.chooseScores σ := by
        rw [hs]
        exact DP.foldMax_mem rest p
      have hkey := DP.chooseFold_key σ.assignment σ.clauses []
        (rest.foldl (fun best q => if best.2 < q.2 then q else best) p) hmem
      rcases hkey with ⟨c, hcm, hp1⟩ | ⟨q, hq, _⟩
      · rw [← h]
        exact hwf c hcm _ hp1
      · exact absurd hq (List.not_mem_nil q)

end ChooseNonzero

section ProcWatchersSpec

/-- After a fresh assignment of `o`, the literal `-o` is known-false. -/
theorem DP.litIsFalse_neg_after (a : Nat → Option Bool) (o : Int) (ho : o ≠ 0)
    (hv : a (-o).natAbs = some (decide (0 < o))) :
    DP.litIsFalse a (-o) = true := by
  rw [DP.litIsFalse, hv]
  show ((decide (0 < -o) && !decide (0 < o)) || (decide (-o < 0) && decide (0 < o))) = true
  rcases Int.lt_or_lt_of_ne ho with hneg | hpos
  · have h1 : decide (0 < o) = false := by simp only [decide_eq_false_iff_not]; omega
    have h2 : decide (0 < -o) = true := by simp only [decide_eq_true_eq]; omega
    rw [h1, h2]
    rfl
  · have h1 : decide (0 < o) = true := by simp only [decide_eq_true_eq]; omega
    have h2 : decide (-o < 0) = true := by simp only [decide_eq_true_eq]; omega
    rw [h1, h2]
    simp

/-- Full specification of one watcher-snapshot pass: state invariants are
preserved, the state only grows by forced assignments, the grown queue is
all-false, and a conflict refutes every extension of the entry
assignment. -/
theorem DP.procWatchers_spec (f : Int) :
    ∀ (snap : List Nat) (q : List Int) (σ : DP.St),
      (∀ c ∈ σ.clauses, ∀ l ∈ c, l ≠ 0) →
      DP.TInv σ →
      DP.WL0 σ →
      DP.litIsFalse σ.assignment f = true →
      DP.QF0 q σ.assignment →
      (∀ σ2, DP.procWatchers f snap q σ = .conflict σ2 →
        DP.TInv σ2 ∧ DP.TrailExt σ σ2 ∧ DP.sameCore σ σ2 ∧ DP.WL0 σ2 ∧
        (∀ τ, extendsA τ σ.assignment → ¬ formulaSat τ σ.clauses)) ∧
      (∀ σ2 q2, DP.procWatchers f snap q σ = .ok σ2 q2 →
        DP.TInv σ2 ∧ DP.TrailExt σ σ2 ∧ DP.sameCore σ σ2 ∧ DP.WL0 σ2 ∧
        DP.QF0 q2 σ2.assignment ∧
        (∀ τ, extendsA τ σ.assignment → formulaSat τ σ.clauses →
          extendsA τ σ2.assignment))
  | [], q, σ, hwf, hT, hW, hf, hQ => by
      constructor
      · intro σ2 hps
        rw [DP.procWatchers] at hps
        exact PropStep.noConfusion hps
      · intro σ2 q2 hps
        rw [DP.procWatchers] at hps
        injection hps with h1 h2
        subst h1
        subst h2
        exact ⟨hT, DP.TrailExt_refl σ, DP.sameCore_refl σ, hW, hQ,
          fun τ hext _ => hext⟩
  | ci :: rest, q, σ, hwf, hT, hW, hf, hQ => by
      rw [DP.procWatchers]
      dsimp only
      split
      · exact DP.procWatchers_spec f rest q σ hwf hT hW hf hQ
      · next falseIdx otherIdx otherLit hinfo =>
        have hfz : f ≠ 0 := DP.litIsFalse_ne_zero σ.assignment f hf
        have hinfo2 : (σ.clauses.getD ci []).getD falseIdx 0 = f ∧
            ((falseIdx = (σ.watchPos.getD ci (0, 0)).1 ∧
              otherIdx = (σ.watchPos.getD ci (0, 0)).2) ∨
             (falseIdx = (σ.watchPos.getD ci (0, 0)).2 ∧
              otherIdx = (σ.watchPos.getD ci (0, 0)).1)) ∧
            (σ.clauses.getD ci []).getD otherIdx 0 = otherLit := by
          by_cases h1 :
              (σ.clauses.getD ci []).getD (σ.watchPos.getD ci (0, 0)).1 0 = f
          · rw [if_pos h1] at hinfo
            simp only [Option.some.injEq, Prod.mk.injEq] at hinfo
            obtain ⟨e1, e2, e3⟩ := hinfo
            refine ⟨by rw [← e1]; exact h1, Or.inl ⟨e1.symm, e2.symm⟩, ?_⟩
            rw [← e2]
            exact e3
          · rw [if_neg h1] at hinfo
            by_cases h2 :
                (σ.clauses.getD ci []).getD (σ.watchPos.getD ci (0, 0)).2 0 = f
            · rw [if_pos h2] at hinfo
              simp only [Option.some.injEq, Prod.mk.injEq] at hinfo
              obtain ⟨e1, e2, e3⟩ := hinfo
              refine ⟨by rw [← e1]; exact h2, Or.inr ⟨e1.symm, e2.symm⟩, ?_⟩
              rw [← e2]
              exact e3
            · rw [if_neg h2] at hinfo
              exact absurd hinfo (by simp)
        have hci : ci < σ.clauses.length := by
          by_contra hge
          have hnil : σ.clauses.getD ci [] = [] := by
            rw [List.getD_eq_getElem?_getD, List.getElem?_eq_none (by omega)]
            rfl
          rw [hnil] at hinfo2
          have h0 : f = 0 := by simpa using hinfo2.1.symm
          exact hfz h0
        have hcm : σ.clauses.getD ci [] ∈ σ.clauses := by
          rw [List.getD_eq_get σ.clauses [] hci]
          exact List.get_mem σ.clauses _ hci
        split
        · next kL hrepl =>
            have hker : kL.2 ∈ σ.clauses.getD ci [] :=
              DP.findRepl_some_mem σ.assignment _ _ _ 0 kL.1 kL.2 hrepl
            have hknz : kL.2 ≠ 0 := hwf _ hcm kL.2 hker
            have hWx : DP.WL0 { σ with
                watchPos := σ.watchPos.set ci (if falseIdx = (σ.watchPos.getD ci (0, 0)).1 then (kL.1, otherIdx) else (otherIdx, kL.1)),
                watchlist := fun x => if x = kL.2 then (if kL.2 = f then (σ.watchlist f).erase ci else σ.watchlist kL.2) ++ [ci] else if x = f then (σ.watchlist f).erase ci else σ.watchlist x } := by
              show _ = ([] : List Nat)
              dsimp only
              rw [if_neg (Ne.symm hknz), if_neg (Ne.symm hfz)]
              exact hW
            have hrec := DP.procWatchers_spec f rest q { σ with watchPos := σ.watchPos.set ci (if falseIdx = (σ.watchPos.getD ci (0, 0)).1 then (kL.1, otherIdx) else (otherIdx, kL.1)), watchlist := fun x => if x = kL.2 then (if kL.2 = f then (σ.watchlist f).erase ci else σ.watchlist kL.2) ++ [ci] else if x = f then (σ.watchlist f).erase ci else σ.watchlist x } hwf hT hWx hf hQ
            constructor
            · intro σ2 hps
              exact hrec.1 σ2 hps
            · intro σ2 q2 hps
              exact hrec.2 σ2 q2 hps
        · next hrepl =>
            have hforce : ∀ τ, extendsA τ σ.assignment →
                formulaSat τ σ.clauses → litSat τ otherLit := by
              intro τ hext hsat
              exact DP.clauseForce τ σ.assignment (σ.clauses.getD ci [])
                (σ.watchPos.getD ci (0, 0)).1 (σ.watchPos.getD ci (0, 0)).2
                falseIdx otherIdx f otherLit hinfo2.2.1 hinfo2.1 hinfo2.2.2
                hf hrepl hext (hsat _ hcm)
            split
            · next val hval =>
              split
              · next hconf =>
                  have hofalse : DP.litIsFalse σ.assignment otherLit = true := by
                    rw [DP.litIsFalse, hval]
                    exact hconf
                  constructor
                  · intro σ2 hps
                    injection hps with h1
                    subst h1
                    refine ⟨hT, DP.TrailExt_refl σ, DP.sameCore_refl σ, hW, ?_⟩
                    intro τ hext hsat
                    exact DP.litIsFalse_notSat σ.assignment τ otherLit hofalse
                      hext (hforce τ hext hsat)
                  · intro σ2 q2 hps
                    exact PropStep.noConfusion hps
              · next hconf =>
                  exact DP.procWatchers_spec f rest q σ hwf hT hW hf hQ
            · next hval =>
              split
              · next hcond =>
                  obtain ⟨hTU, hTEU, hmonoU⟩ :=
                    DP.assignLiteral_ok_spec σ otherLit hT hcond
                  have hcore := DP.assignLiteral_core σ otherLit
                  rcases DP.assignLiteral_cases σ otherLit with ⟨hnone, heq⟩ |
                    ⟨cur, hsome, heq⟩
                  · have hWU : DP.WL0 (DP.assignLiteral σ otherLit).2 := by
                      rw [heq]
                      exact hW
                    have assignU : (DP.assignLiteral σ otherLit).2.assignment
                        (-otherLit).natAbs = some (decide (0 < otherLit)) := by
                      rw [heq, Int.natAbs_neg]
                      simp
                    have extU : ∀ τ, extendsA τ σ.assignment →
                        formulaSat τ σ.clauses →
                        extendsA τ (DP.assignLiteral σ otherLit).2.assignment := by
                      intro τ hext hsat
                      have hupd := DP.litSat_extends_update τ σ.assignment
                        otherLit hext (hforce τ hext hsat)
                      rw [heq]
                      exact hupd
                    have hfU : DP.litIsFalse
                        (DP.assignLiteral σ otherLit).2.assignment f = true :=
                      DP.litIsFalse_mono _ _ f hmonoU hf
                    have hQU : DP.QF0 (q ++ [-otherLit])
                        (DP.assignLiteral σ otherLit).2.assignment := by
                      intro g hg hgnz
                      rcases List.mem_append.mp hg with hgq | hgo
                      · exact DP.litIsFalse_mono _ _ g hmonoU (hQ g hgq hgnz)
                      · simp only [List.mem_singleton] at hgo
                        subst hgo
                        have honz : otherLit ≠ 0 := by
                          intro h0
                          rw [h0] at hgnz
                          exact hgnz (by simp)
                        exact DP.litIsFalse_neg_after _ otherLit honz assignU
                    have hwfU : ∀ c ∈ (DP.assignLiteral σ otherLit).2.clauses,
                        ∀ l ∈ c, l ≠ 0 := by
                      rw [hcore.1]
                      exact hwf
                    have hrec := DP.procWatchers_spec f rest (q ++ [-otherLit])
                      (DP.assignLiteral σ otherLit).2 hwfU hTU hWU hfU hQU
                    constructor
                    · intro σ2 hps
                      obtain ⟨hT2, hTE2, hSC2, hW2, hUN2⟩ := hrec.1 σ2 hps
                      refine ⟨hT2, DP.TrailExt_trans hTEU hTE2,
                        DP.sameCore_trans hcore hSC2, hW2, ?_⟩
                      intro τ hext hsat
                      refine hUN2 τ (extU τ hext hsat) ?_
                      rw [hcore.1]
                      exact hsat
                    · intro σ2 q2 hps
                      obtain ⟨hT2, hTE2, hSC2, hW2, hQ2, hEX2⟩ :=
                        hrec.2 σ2 q2 hps
                      refine ⟨hT2, DP.TrailExt_trans hTEU hTE2,
                        DP.sameCore_trans hcore hSC2, hW2, hQ2, ?_⟩
                      intro τ hext hsat
                      refine hEX2 τ (extU τ hext hsat) ?_
                      rw [hcore.1]
                      exact hsat
                  · rw [hval] at hsome
                    exact absurd hsome (by simp)
              · next hcond =>
                  rcases DP.assignLiteral_cases σ otherLit with ⟨hnone, heq⟩ |
                    ⟨cur, hsome, heq⟩
                  · exact absurd (by rw [heq] : (DP.assignLiteral σ otherLit).1 = true)
                      hcond
                  · rw [hval] at hsome
                    exact absurd hsome (by simp)

end ProcWatchersSpec

section PropagateSpec

/-- Specification of the `while queue` loop: invariants are preserved, the
assignment grows only by forced literals, and a `False` return refutes every
extension of the entry assignment. -/
theorem DP.propagateAux_spec :
    ∀ (fuel : Nat) (q : List Int) (σ : DP.St),
      (∀ c ∈ σ.clauses, ∀ l ∈ c, l ≠ 0) →
      DP.TInv σ → DP.WL0 σ → DP.QF0 q σ.assignment →
      ∀ ok σ2, DP.propagateAux fuel q σ = some (ok, σ2) →
        DP.TInv σ2 ∧ DP.TrailExt σ σ2 ∧ DP.sameCore σ σ2 ∧ DP.WL0 σ2 ∧
        (ok = true → ∀ τ, extendsA τ σ.assignment → formulaSat τ σ.clauses →
          extendsA τ σ2.assignment) ∧
        (ok = false → ∀ τ, extendsA τ σ.assignment → ¬ formulaSat τ σ.clauses)
  | 0, _, _, _, _, _, _, ok, σ2, h => by
      rw [DP.propagateAux] at h
      exact absurd h (by simp)
  | fuel + 1, [], σ, hwf, hT, hW, hQ, ok, σ2, h => by
      rw [DP.propagateAux] at h
      simp only [Option.some.injEq, Prod.mk.injEq] at h
      obtain ⟨h1, h2⟩ := h
      subst h1
      subst h2
      exact ⟨hT, DP.TrailExt_refl σ, DP.sameCore_refl σ, hW,
        fun _ τ hext _ => hext, fun hc => absurd hc (by simp)⟩
  | fuel + 1, f :: qs, σ, hwf, hT, hW, hQ, ok, σ2, h => by
      rw [DP.propagateAux] at h
      by_cases hf0 : f = 0
      · subst hf0
        rw [hW] at h
        have hstep : DP.procWatchers 0 [] qs σ = .ok σ qs := by
          rw [DP.procWatchers]
        rw [hstep] at h
        exact DP.propagateAux_spec fuel qs σ hwf hT hW
          (fun g hg hgnz => hQ g (List.mem_cons_of_mem 0 hg) hgnz) ok σ2 h
      · have hffalse : DP.litIsFalse σ.assignment f = true :=
          hQ f (List.mem_cons_self f qs) hf0
        have hspec := DP.procWatchers_spec f (σ.watchlist f) qs σ hwf hT hW
          hffalse (fun g hg hgnz => hQ g (List.mem_cons_of_mem f hg) hgnz)
        cases hp : DP.procWatchers f (σ.watchlist f) qs σ with
        | conflict σ3 =>
            rw [hp] at h
            simp only [Option.some.injEq, Prod.mk.injEq] at h
            obtain ⟨h1, h2⟩ := h
            subst h2
            obtain ⟨hT3, hTE3, hSC3, hW3, hUN3⟩ := hspec.1 σ3 hp
            exact ⟨hT3, hTE3, hSC3, hW3,
              fun hc => absurd (h1.trans hc) (by simp),
              fun _ => hUN3⟩
        | ok σ3 q3 =>
            rw [hp] at h
            obtain ⟨hT3, hTE3, hSC3, hW3, hQ3, hEX3⟩ := hspec.2 σ3 q3 hp
            have hwf3 : ∀ c ∈ σ3.clauses, ∀ l ∈ c, l ≠ 0 := by
              rw [hSC3.1]
              exact hwf
            obtain ⟨hT2, hTE2, hSC2, hW2, hEXr, hUNr⟩ :=
              DP.propagateAux_spec fuel q3 σ3 hwf3 hT3 hW3 hQ3 ok σ2 h
            refine ⟨hT2, DP.TrailExt_trans hTE3 hTE2,
              DP.sameCore_trans hSC3 hSC2, hW2, ?_, ?_⟩
            · intro hok τ hext hsat
              refine hEXr hok τ (hEX3 τ hext hsat) ?_
              rw [hSC3.1]
              exact hsat
            · intro hc τ hext hsat
              refine hUNr hc τ (hEX3 τ hext hsat) ?_
              rw [hSC3.1]
              exact hsat

/-- Specification of `propagate()`. -/
theorem DP.propagate_spec (fuel : Nat) (σ : DP.St)
    (hwf : ∀ c ∈ σ.clauses, ∀ l ∈ c, l ≠ 0)
    (hT : DP.TInv σ) (hW : DP.WL0 σ) :
    ∀ ok σ2, DP.propagate fuel σ = some (ok, σ2) →
      DP.TInv σ2 ∧ DP.TrailExt σ σ2 ∧ DP.sameCore σ σ2 ∧ DP.WL0 σ2 ∧
      (ok = true → ∀ τ, extendsA τ σ.assignment → formulaSat τ σ.clauses →
        extendsA τ σ2.assignment) ∧
      (ok = false → ∀ τ, extendsA τ σ.assignment → ¬ formulaSat τ σ.clauses) := by
  intro ok σ2 h
  unfold DP.propagate at h
  have hQ : DP.QF0 (DP.buildQueue σ)
      ({ σ with lastPropagated := σ.trail.length } : DP.St).assignment :=
    DP.buildQueue_QF0 σ hT
  obtain ⟨hT2, hTE2, hSC2, hW2, hEX, hUN⟩ :=
    DP.propagateAux_spec fuel (DP.buildQueue σ)
      { σ with lastPropagated := σ.trail.length } hwf hT hW hQ ok σ2 h
  exact ⟨hT2, DP.TrailExt_trans (DP.TrailExt_of_eq rfl rfl) hTE2,
    DP.sameCore_trans ⟨rfl, rfl⟩ hSC2, hW2, hEX, hUN⟩

end PropagateSpec

section BranchSpec

theorem DP.assignLiteral_watchlist (σ : DP.St) (l : Int) :
    (DP.assignLiteral σ l).2.watchlist = σ.watchlist := by
  unfold DP.assignLiteral
  cases hv : σ.assignment l.natAbs <;> simp [hv]

/-- Specification of one `_solve_rec` branch (with the recursive call
abstracted): a branch answering this-subtree-UNSAT refutes every extension
of the entry assignment that satisfies the branch literal. -/
theorem DP.branchWith_spec
    (rec : DP.St → Option (Option (List (Nat × Bool)) × DP.St)) (fuel : Nat)
    (hrec : ∀ σ', (∀ c ∈ σ'.clauses, ∀ l ∈ c, l ≠ 0) → DP.TInv σ' →
      DP.WL0 σ' →
      ∀ res σ2, rec σ' = some (res, σ2) → res = none →
        DP.TInv σ2 ∧ σ2.trail = σ'.trail ∧ σ2.assignment = σ'.assignment ∧
        DP.sameCore σ' σ2 ∧ DP.WL0 σ2 ∧
        (∀ τ, extendsA τ σ'.assignment → ¬ formulaSat τ σ'.clauses))
    (σ : DP.St) (lit : Int)
    (hwf : ∀ c ∈ σ.clauses, ∀ l ∈ c, l ≠ 0) (hT : DP.TInv σ) (hW : DP.WL0 σ) :
    ∀ σ2, DP.branchWith rec fuel σ lit = some (none, σ2) →
      DP.TInv σ2 ∧ DP.TrailExt σ σ2 ∧ DP.sameCore σ σ2 ∧ DP.WL0 σ2 ∧
      (∀ τ, extendsA τ σ.assignment → litSat τ lit →
        ¬ formulaSat τ σ.clauses) := by
  intro σ2 h
  unfold DP.branchWith at h
  dsimp only at h
  split at h
  · next hcond =>
      obtain ⟨hTA, hTEA, hmonoA⟩ := DP.assignLiteral_ok_spec σ lit hT hcond
      have hcoreA := DP.assignLiteral_core σ lit
      have hWA : DP.WL0 (DP.assignLiteral σ lit).2 := by
        show (DP.assignLiteral σ lit).2.watchlist 0 = []
        rw [DP.assignLiteral_watchlist]
        exact hW
      have hextA : ∀ τ, extendsA τ σ.assignment → litSat τ lit →
          extendsA τ (DP.assignLiteral σ lit).2.assignment := by
        intro τ hext hls
        rcases DP.assignLiteral_cases σ lit with ⟨hnone, heq⟩ |
          ⟨cur, hsome, heq⟩
        · have hupd := DP.litSat_extends_update τ σ.assignment lit hext hls
          rw [heq]
          exact hupd
        · rw [heq]
          exact hext
      have hwfA : ∀ c ∈ (DP.assignLiteral σ lit).2.clauses, ∀ l ∈ c, l ≠ 0 := by
        rw [hcoreA.1]
        exact hwf
      split at h
      · exact absurd h (by simp)
      · next σp hprop =>
          simp only [Option.some.injEq, Prod.mk.injEq] at h
          obtain ⟨h1, h2⟩ := h
          subst h2
          obtain ⟨hTP, hTEP, hSCP, hWP, _, hUNP⟩ :=
            DP.propagate_spec fuel (DP.assignLiteral σ lit).2 hwfA hTA hWA
              false σp hprop
          refine ⟨hTP, DP.TrailExt_trans hTEA hTEP,
            DP.sameCore_trans hcoreA hSCP, hWP, ?_⟩
          intro τ hext hls hsat
          refine hUNP rfl τ (hextA τ hext hls) ?_
          rw [hcoreA.1]
          exact hsat
      · next σp hprop =>
          obtain ⟨hTP, hTEP, hSCP, hWP, hEXP, _⟩ :=
            DP.propagate_spec fuel (DP.assignLiteral σ lit).2 hwfA hTA hWA
              true σp hprop
          have hwfP : ∀ c ∈ σp.clauses, ∀ l ∈ c, l ≠ 0 := by
            rw [hSCP.1, hcoreA.1]
            exact hwf
          obtain ⟨hTR, hrt, hra, hSCR, hWR, hUNR⟩ :=
            hrec σp hwfP hTP hWP none σ2 h rfl
          refine ⟨hTR, ?_, DP.sameCore_trans hcoreA
            (DP.sameCore_trans hSCP hSCR), hWR, ?_⟩
          · exact DP.TrailExt_trans hTEA
              (DP.TrailExt_trans hTEP (DP.TrailExt_of_eq hrt hra))
          · intro τ hext hls hsat
            have hextP : extendsA τ σp.assignment := by
              refine hEXP rfl τ (hextA τ hext hls) ?_
              rw [hcoreA.1]
              exact hsat
            refine hUNR τ hextP ?_
            rw [hSCP.1, hcoreA.1]
            exact hsat
  · next hcond =>
      have hfail : (DP.assignLiteral σ lit).1 = false := by
        simpa using hcond
      obtain ⟨hsame, hcontra⟩ := DP.assignLiteral_fail_spec σ lit hfail
      rw [hsame] at h
      simp only [Option.some.injEq, Prod.mk.injEq] at h
      obtain ⟨h1, h2⟩ := h
      subst h2
      refine ⟨hT, DP.TrailExt_refl σ, DP.sameCore_refl σ, hW, ?_⟩
      intro τ hext hls hsat
      have hτ := hext lit.natAbs _ hcontra
      rcases hls with ⟨hp, ht⟩ | ⟨hn, ht⟩
      · have hd : decide (0 < lit) = true := decide_eq_true hp
        rw [hd, ht] at hτ
        simp at hτ
      · have hd : decide (0 < lit) = false := decide_eq_false (by omega)
        rw [hd, ht] at hτ
        simp at hτ

end BranchSpec

section SolveRecSpec

/-- Specification of `_solve_rec`: whenever the recursion answers
this-subtree-UNSAT, the state is restored to the entry trail and assignment
and no extension of the entry assignment satisfies the formula. -/
theorem DP.solveRec_spec :
    ∀ (fuel : Nat) (σ : DP.St),
      (∀ c ∈ σ.clauses, ∀ l ∈ c, l ≠ 0) → DP.TInv σ → DP.WL0 σ →
      ∀ res σ2, DP.solveRec fuel σ = some (res, σ2) → res = none →
        DP.TInv σ2 ∧ σ2.trail = σ.trail ∧ σ2.assignment = σ.assignment ∧
        DP.sameCore σ σ2 ∧ DP.WL0 σ2 ∧
        (∀ τ, extendsA τ σ.assignment → ¬ formulaSat τ σ.clauses)
  | 0, σ, _, _, _, res, σ2, h, _ => by
      rw [DP.solveRec] at h
      exact absurd h (by simp)
  | fuel + 1, σ, hwf, hT, hW, res, σ2, h, hres => by
      subst hres
      have hrec : ∀ σ', (∀ c ∈ σ'.clauses, ∀ l ∈ c, l ≠ 0) → DP.TInv σ' →
          DP.WL0 σ' →
          ∀ r σ3, DP.solveRec fuel σ' = some (r, σ3) → r = none →
            DP.TInv σ3 ∧ σ3.trail = σ'.trail ∧ σ3.assignment = σ'.assignment ∧
            DP.sameCore σ' σ3 ∧ DP.WL0 σ3 ∧
            (∀ τ, extendsA τ σ'.assignment → ¬ formulaSat τ σ'.clauses) :=
        fun σ' h1 h2 h3 => DP.solveRec_spec fuel σ' h1 h2 h3
      rw [DP.solveRec] at h
      split at h
      · next hcs => simp at h
      · next hcs =>
          simp only [Option.some.injEq, Prod.mk.injEq, true_and] at h
          subst h
          exact ⟨hT, rfl, rfl, DP.sameCore_refl σ, hW,
            DP.checkStatus_false_unsat σ hwf hcs⟩
      · next hcs =>
          split at h
          · next hch => simp at h
          · next bl hch =>
              have hblnz : bl ≠ 0 := DP.choose_nonzero σ hwf bl hch
              dsimp only at h
              have hb1 := DP.branchWith_spec (DP.solveRec fuel) fuel hrec
                { σ with splitCount := σ.splitCount + 1 } bl hwf hT hW
              split at h
              · exact absurd h (by simp)
              · next m σb hbw => simp at h
              · next σb hbw =>
                  obtain ⟨hTb, hTEb, hSCb, hWb, hUNb⟩ := hb1 σb hbw
                  obtain ⟨hrt, hra⟩ := DP.undoTo_restore
                    { σ with splitCount := σ.splitCount + 1 } σb hTEb
                  have hT3 : DP.TInv (DP.undoTo σb
                      ({ σ with splitCount := σ.splitCount + 1 } : DP.St).trail.length) := by
                    intro p hp
                    rw [hra]
                    rw [hrt] at hp
                    exact hT p hp
                  have hW3 : DP.WL0 (DP.undoTo σb
                      ({ σ with splitCount := σ.splitCount + 1 } : DP.St).trail.length) := by
                    show _ = ([] : List Nat)
                    rw [DP.undoTo_watchlist]
                    exact hWb
                  have hSC3 : DP.sameCore
                      ({ σ with splitCount := σ.splitCount + 1 } : DP.St)
                      (DP.undoTo σb
                        ({ σ with splitCount := σ.splitCount + 1 } : DP.St).trail.length) :=
                    DP.sameCore_trans hSCb (DP.undoTo_core σb _)
                  have hwf3 : ∀ c ∈ (DP.undoTo σb
                      ({ σ with splitCount := σ.splitCount + 1 } : DP.St).trail.length).clauses,
                      ∀ l ∈ c, l ≠ 0 := by
                    rw [hSC3.1]
                    exact hwf
                  have hb2 := DP.branchWith_spec (DP.solveRec fuel) fuel hrec
                    (DP.undoTo σb
                      ({ σ with splitCount := σ.splitCount + 1 } : DP.St).trail.length)
                    (-bl) hwf3 hT3 hW3
                  split at h
                  · exact absurd h (by simp)
                  · next m σc hbw2 => simp at h
                  · next σc hbw2 =>
                      obtain ⟨hTc, hTEc, hSCc, hWc, hUNc⟩ := hb2 σc hbw2
                      obtain ⟨hrt2, hra2⟩ := DP.undoTo_restore _ σc hTEc
                      simp only [Option.some.injEq, Prod.mk.injEq, true_and] at h
                      subst h
                      refine ⟨?_, ?_, ?_, ?_, ?_, ?_⟩
                      · intro p hp
                        rw [hra2]
                        rw [hrt2] at hp
                        exact hT3 p hp
                      · exact hrt2.trans hrt
                      · exact hra2.trans hra
                      · exact DP.sameCore_trans (DP.sameCore_trans
                          (⟨rfl, rfl⟩ : DP.sameCore σ
                            { σ with splitCount := σ.splitCount + 1 })
                          (DP.sameCore_trans hSC3 hSCc))
                          (DP.undoTo_core σc _)
                      · show _ = ([] : List Nat)
                        rw [DP.undoTo_watchlist]
                        exact hWc
                      · intro τ hext hsat
                        rcases DP.litSat_or_neg τ bl hblnz with hpos | hneg
                        · exact hUNb τ hext hpos hsat
                        · refine hUNc τ ?_ hneg ?_
                          · rw [hra]
                            exact hext
                          · rw [hSC3.1]
                            exact hsat

end SolveRecSpec

section ClaimC2

/-- Watch initialization registers only clause literals, so the watcher list
of the pseudo-literal `0` stays empty on zero-free input. -/
theorem DP.initWatches_wl0 :
    ∀ (ci : Nat) (cs : List (List Int)) (wp : List (Nat × Nat))
      (wl : Int → List Nat),
      (∀ c ∈ cs, ∀ l ∈ c, l ≠ 0) → wl 0 = [] →
      (DP.initWatches ci cs wp wl).2 0 = []
  | _, [], _, _, _, h0 => h0
  | ci, c :: rest, wp, wl, hz, h0 => by
      have hrest : ∀ c2 ∈ rest, ∀ l ∈ c2, l ≠ 0 :=
        fun c2 hc2 => hz c2 (List.mem_cons_of_mem c hc2)
      cases c with
      | nil =>
          rw [DP.initWatches]
          exact DP.initWatches_wl0 (ci + 1) rest (wp ++ [(0, 0)]) wl hrest h0
      | cons l1 tail =>
          have hl1 : l1 ≠ 0 :=
            hz (l1 :: tail) (List.mem_cons_self _ _) l1 (List.mem_cons_self _ _)
          cases tail with
          | nil =>
              rw [DP.initWatches]
              refine DP.initWatches_wl0 (ci + 1) rest (wp ++ [(0, 0)]) _ hrest ?_
              rw [if_neg (Ne.symm hl1)]
              exact h0
          | cons l2 t2 =>
              have hl2 : l2 ≠ 0 :=
                hz (l1 :: l2 :: t2) (List.mem_cons_self _ _) l2
                  (List.mem_cons_of_mem l1 (List.mem_cons_self _ _))
              rw [DP.initWatches]
              dsimp only
              refine DP.initWatches_wl0 (ci + 1) rest (wp ++ [(0, 1)]) _ hrest ?_
              rw [if_neg (Ne.symm hl2), if_neg (Ne.symm hl1)]
              exact h0

theorem DP.mkSt_WL0 (clauses : List (List Int)) (numVars : Nat)
    (hz : ∀ c ∈ clauses, ∀ l ∈ c, l ≠ 0) :
    DP.WL0 (DP.mkSt clauses numVars) := by
  show (DP.initWatches 0 clauses [] (fun _ => [])).2 0 = []
  exact DP.initWatches_wl0 0 clauses [] _ hz rfl

/-- C2: on well-formed input, whenever `solve` answers UNSAT, no total
assignment of the variables satisfies all clauses. -/
theorem claimC2 (clauses : List (List Int)) (numVars fuel : Nat)
    (hwf : wfFormula clauses numVars)
    (h : DP.solve clauses numVars fuel = some none) : noTotalSat clauses := by
  have hz : ∀ c ∈ clauses, ∀ l ∈ c, l ≠ 0 := fun c hc l hl => (hwf c hc l hl).1
  unfold DP.solve at h
  dsimp only at h
  have hT0 : DP.TInv (DP.mkSt clauses numVars) := by
    intro p hp
    rw [show (DP.mkSt clauses numVars).trail = [] from rfl] at hp
    exact absurd hp (List.not_mem_nil p)
  have hW0 : DP.WL0 (DP.mkSt clauses numVars) := DP.mkSt_WL0 clauses numVars hz
  have hwf0 : ∀ c ∈ (DP.mkSt clauses numVars).clauses, ∀ l ∈ c, l ≠ 0 := hz
  split at h
  · exact absurd h (by simp)
  · next hprop =>
      obtain ⟨_, _, _, _, _, hUN⟩ := DP.propagate_spec fuel
        (DP.mkSt clauses numVars) hwf0 hT0 hW0 false _ hprop
      intro τ hsat
      refine hUN rfl τ ?_ ?_
      · intro v b hb
        exact Option.noConfusion hb
      · exact hsat
  · next σ1 hprop =>
      obtain ⟨hT1, _, hSC1, hW1, hEX1, _⟩ := DP.propagate_spec fuel
        (DP.mkSt clauses numVars) hwf0 hT0 hW0 true σ1 hprop
      have hwf1 : ∀ c ∈ σ1.clauses, ∀ l ∈ c, l ≠ 0 := by
        rw [hSC1.1]
        exact hz
      split at h
      · exact absurd h (by simp)
      · next r σr hsr =>
          simp only [Option.some.injEq] at h
          subst h
          obtain ⟨_, _, _, _, _, hUN⟩ := DP.solveRec_spec fuel σ1 hwf1 hT1 hW1
            none σr hsr rfl
          intro τ hsat
          refine hUN τ ?_ ?_
          · refine hEX1 rfl τ ?_ ?_
            · intro v b hb
              exact Option.noConfusion hb
            · exact hsat
          · rw [hSC1.1]
            exact hsat

theorem claimC2_witness :
    wfFormula [[1], [-1]] 1 ∧ ¬ formulaSat (fun _ => true) [[1], [-1]] :=
  ⟨by decide,
   claimC2 [[1], [-1]] 1 20 (by decide) (by with_unfolding_all rfl)
     (fun _ => true)⟩

end ClaimC2

section C5Tables

/-- Closed form of `flatten_clauses` on a block of unit clauses. -/
theorem Gen.flatten_units_go : ∀ (k a : Nat) (pre : List Int) (offs : List Nat),
    ((List.range' a k).map (fun v : Nat => [(v : Int)])).foldl Gen.flatStep (pre, offs)
      = (pre ++ (List.range' a k).map (fun v : Nat => (v : Int)),
         offs ++ List.range' (pre.length + 1) k)
  | 0, a, pre, offs => by simp
  | k + 1, a, pre, offs => by
      rw [List.range'_succ]
      simp only [List.map_cons, List.foldl_cons]
      have hstep : Gen.flatStep (pre, offs) [(a : Int)]
          = (pre ++ [(a : Int)], offs ++ [pre.length + 1]) := by
        unfold Gen.flatStep
        simp
      rw [hstep,
        Gen.flatten_units_go k (a + 1) (pre ++ [(a : Int)]) (offs ++ [pre.length + 1])]
      rw [List.range'_succ (pre.length + 1) k]
      simp [List.append_assoc]

theorem Gen.flatten_units (n : Nat) :
    Gen.flattenClauses (unitClauses n)
      = ((List.range' 1 n).map (fun v : Nat => (v : Int)), List.range' 0 (n + 1)) := by
  unfold Gen.flattenClauses unitClauses
  rw [Gen.flatten_units_go n 1 [] [0]]
  rw [List.range'_succ 0 n]
  simp

/-- `lit_count[l] += 1` on a table without key `l` appends `(l, 1)`. -/
theorem DF.bumpCount_notmem : ∀ (acc : List (Int × Nat)) (l : Int),
    (∀ p ∈ acc, p.1 ≠ l) → DF.bumpCount acc l = acc ++ [(l, 1)]
  | [], _, _ => rfl
  | p :: rest, l, h => by
      rw [DF.bumpCount, if_neg (h p (List.mem_cons_self p rest)),
        DF.bumpCount_notmem rest l (fun q hq => h q (List.mem_cons_of_mem p hq))]
      simp

/-- Building the count table over duplicate-free literals yields one entry
per literal. -/
theorem DF.buildLitCount_go : ∀ (xs : List Int) (acc : List (Int × Nat)),
    xs.Nodup → (∀ p ∈ acc, p.1 ∉ xs) →
    xs.foldl DF.bumpCount acc = acc ++ xs.map (fun l => (l, 1))
  | [], acc, _, _ => by simp
  | l :: rest, acc, hnd, hdis => by
      simp only [List.foldl_cons]
      rw [DF.bumpCount_notmem acc l
        (fun p hp he => hdis p hp (he ▸ List.mem_cons_self l rest))]
      rw [DF.buildLitCount_go rest (acc ++ [(l, 1)]) (List.Nodup.of_cons hnd) ?_]
      · simp
      · intro p hp
        rcases List.mem_append.mp hp with h1 | h2
        · exact fun hm => hdis p h1 (List.mem_cons_of_mem l hm)
        · simp only [List.mem_singleton] at h2
          subst h2
          exact (List.nodup_cons.mp hnd).1

theorem DF.buildLitCount_units (n : Nat) :
    DF.buildLitCount ((List.range' 1 n).map (fun v : Nat => (v : Int)))
      = (List.range' 1 n).map (fun v : Nat => ((v : Int), 1)) := by
  unfold DF.buildLitCount
  rw [DF.buildLitCount_go _ []
    (List.Nodup.map (fun a b h => by exact_mod_cast h) (List.nodup_range' _ _))
    (by simp)]
  simp [List.map_map]

/-- Lookup in the one-per-variable count table. -/
theorem DF.lookup_units : ∀ (k s v : Nat) (b : Nat), s ≤ v → v < s + k →
    ((List.range' s k).map (fun u : Nat => ((u : Int), b))).lookup ((v : Nat) : Int)
      = some b
  | 0, s, v, b, h1, h2 => by omega
  | k + 1, s, v, b, h1, h2 => by
      rw [List.range'_succ]
      simp only [List.map_cons, List.lookup_cons]
      by_cases hv : v = s
      · subst hv
        simp
      · have hbe : ((v : Int) == (s : Int)) = false := by
          simp only [beq_eq_false_iff_ne, ne_eq]
          exact_mod_cast hv
        rw [hbe]
        exact DF.lookup_units k (s + 1) v b (by omega) (by omega)

end C5Tables

section C5Construct

/-- Registering a positive literal only writes `head` above index
`num_vars`. -/
theorem DF.addWatchNode_head (n : Nat) (lit : Int) (ci : Nat) (w w2 : DF.WSt)
    (hpos : 1 ≤ lit) (hlen : w.head.length = 2 * n + 1)
    (h : DF.addWatchNode n lit ci w = some w2) :
    w2.head.length = 2 * n + 1 ∧
    ∀ i, i ≤ n → w2.head.getD i (-1) = w.head.getD i (-1) := by
  unfold DF.addWatchNode at h
  dsimp only at h
  cases hg : DF.pyGet w.head (lit + (n : Int)) with
  | none => rw [hg] at h; exact absurd h (by simp)
  | some prev =>
      rw [hg] at h
      cases hs : DF.pySet w.head (lit + (n : Int))
          (Int.ofNat w.nodeClause.length) with
      | none => rw [hs] at h; exact absurd h (by simp)
      | some head2 =>
          rw [hs] at h
          simp only [Option.some.injEq] at h
          subst h
          unfold DF.pySet at hs
          by_cases hin : 0 ≤ lit + (n : Int) ∧ lit + (n : Int) < (w.head.length : Int)
          · rw [if_pos hin] at hs
            simp only [Option.some.injEq] at hs
            subst hs
            constructor
            · simp only []
              rw [List.length_set, hlen]
            · intro i hi
              simp only []
              rw [List.getD_eq_getElem?_getD, List.getD_eq_getElem?_getD,
                List.getElem?_set_ne]
              omega
          · rw [if_neg hin, if_neg (by omega)] at hs
            exact absurd hs (by simp)

/-- `_init_watches` on all-positive literal buffers leaves the heads of
non-positive literals untouched. -/
theorem DF.initGo_head (n : Nat) (lits : List Int) (offsets : List Nat)
    (hpos : ∀ l ∈ lits, 1 ≤ l)
    (hoff : ∀ i, offsets.getD i 0 ≤ lits.length) :
    ∀ (rem ci : Nat) (w w2 : DF.WSt), w.head.length = 2 * n + 1 →
      DF.initWatchesGo n lits offsets ci rem w = some w2 →
      w2.head.length = 2 * n + 1 ∧
      ∀ i, i ≤ n → w2.head.getD i (-1) = w.head.getD i (-1)
  | 0, ci, w, w2, hw, h => by
      rw [DF.initWatchesGo] at h
      simp only [Option.some.injEq] at h
      subst h
      exact ⟨hw, fun i _ => rfl⟩
  | rem + 1, ci, w, w2, hw, h => by
      rw [DF.initWatchesGo] at h
      dsimp only at h
      by_cases hse : offsets.getD (ci + 1) 0 ≤ offsets.getD ci 0
      · rw [if_pos hse] at h
        exact DF.initGo_head n lits offsets hpos hoff rem (ci + 1)
          { w with w1 := w.w1.set ci (offsets.getD ci 0),
                   w2 := w.w2.set ci (offsets.getD ci 0) } w2 hw h
      · rw [if_neg hse] at h
        have hslt : offsets.getD ci 0 < lits.length := by
          have := hoff (ci + 1)
          omega
        have hmem : lits.getD (offsets.getD ci 0) 0 ∈ lits := by
          rw [List.getD_eq_get lits 0 hslt]
          exact List.get_mem lits _ hslt
        by_cases hu : offsets.getD (ci + 1) 0 = offsets.getD ci 0 + 1
        · rw [if_pos hu] at h
          cases hA : DF.addWatchNode n (lits.getD (offsets.getD ci 0) 0) ci
              { w with w1 := w.w1.set ci (offsets.getD ci 0),
                       w2 := w.w2.set ci (offsets.getD ci 0) } with
          | none => rw [hA] at h; exact absurd h (by simp)
          | some wA =>
              rw [hA] at h
              dsimp only at h
              obtain ⟨hAl, hAh⟩ := DF.addWatchNode_head n
                (lits.getD (offsets.getD ci 0) 0) ci
                { w with w1 := w.w1.set ci (offsets.getD ci 0),
                         w2 := w.w2.set ci (offsets.getD ci 0) } wA
                (hpos _ hmem) hw hA
              cases hB : DF.addWatchNode n (lits.getD (offsets.getD ci 0) 0) ci
                  wA with
              | none => rw [hB] at h; exact absurd h (by simp)
              | some wB =>
                  rw [hB] at h
                  dsimp only at h
                  obtain ⟨hBl, hBh⟩ := DF.addWatchNode_head n _ ci wA wB
                    (hpos _ hmem) hAl hB
                  obtain ⟨hCl, hCh⟩ := DF.initGo_head n lits offsets hpos hoff
                    rem (ci + 1) wB w2 hBl h
                  exact ⟨hCl, fun i hi =>
                    ((hCh i hi).trans (hBh i hi)).trans (hAh i hi)⟩
        · rw [if_neg hu] at h
          have hslt2 : offsets.getD ci 0 + 1 < lits.length := by
            have := hoff (ci + 1)
            omega
          have hmem2 : lits.getD (offsets.getD ci 0 + 1) 0 ∈ lits := by
            rw [List.getD_eq_get lits 0 hslt2]
            exact List.get_mem lits _ hslt2
          cases hA : DF.addWatchNode n (lits.getD (offsets.getD ci 0) 0) ci
              { w with w1 := w.w1.set ci (offsets.getD ci 0),
                       w2 := w.w2.set ci (offsets.getD ci 0 + 1) } with
          | none => rw [hA] at h; exact absurd h (by simp)
          | some wA =>
              rw [hA] at h
              dsimp only at h
              obtain ⟨hAl, hAh⟩ := DF.addWatchNode_head n
                (lits.getD (offsets.getD ci 0) 0) ci
                { w with w1 := w.w1.set ci (offsets.getD ci 0),
                         w2 := w.w2.set ci (offsets.getD ci 0 + 1) } wA
                (hpos _ hmem) hw hA
              cases hB : DF.addWatchNode n (lits.getD (offsets.getD ci 0 + 1) 0)
                  ci wA with
              | none => rw [hB] at h; exact absurd h (by simp)
              | some wB =>
                  rw [hB] at h
                  dsimp only at h
                  obtain ⟨hBl, hBh⟩ := DF.addWatchNode_head n _ ci wA wB
                    (hpos _ hmem2) hAl hB
                  obtain ⟨hCl, hCh⟩ := DF.initGo_head n lits offsets hpos hoff
                    rem (ci + 1) wB w2 hBl h
                  exact ⟨hCl, fun i hi =>
                    ((hCh i hi).trans (hBh i hi)).trans (hAh i hi)⟩

end C5Construct

section C5ConstructUnits

/-- Construction on `n` positive unit clauses succeeds, with known static
tables and untouched non-positive watcher heads. -/
theorem DF.construct_units (n : Nat) :
    ∃ σc, DF.construct (unitClauses n) n = some σc ∧
      σc.numVars = n ∧
      σc.allLits = (List.range' 1 n).map (fun v : Nat => (v : Int)) ∧
      σc.litCount = (List.range' 1 n).map (fun v : Nat => ((v : Int), 1)) ∧
      (∀ i, i ≤ n → σc.head.getD i (-1) = -1) := by
  unfold DF.construct
  rw [Gen.flatten_units n]
  unfold DF.mkSt
  dsimp only
  have hpos : ∀ l ∈ (List.range' 1 n).map (fun v : Nat => (v : Int)), 1 ≤ l := by
    intro l hl
    obtain ⟨v, hv, rfl⟩ := List.mem_map.mp hl
    have := List.mem_range'_1.mp hv
    omega
  have hsafe : ∀ l ∈ (List.range' 1 n).map (fun v : Nat => (v : Int)),
      DF.headSafe n l := by
    intro l hl
    obtain ⟨v, hv, rfl⟩ := List.mem_map.mp hl
    have := List.mem_range'_1.mp hv
    constructor
    · have hvn : v ≤ n := by omega
      exact_mod_cast hvn
    · have hv0 : (0 : Int) ≤ (v : Int) := by positivity
      omega
  have hoff : ∀ i, (List.range' 0 (n + 1)).getD i 0
      ≤ ((List.range' 1 n).map (fun v : Nat => (v : Int))).length := by
    intro i
    rw [List.length_map, List.length_range']
    by_cases hi : i < (List.range' 0 (n + 1)).length
    · have hmem : (List.range' 0 (n + 1)).getD i 0 ∈ List.range' 0 (n + 1) := by
        rw [List.getD_eq_get _ 0 hi]
        exact List.get_mem _ i hi
      have := List.mem_range'_1.mp hmem
      omega
    · rw [List.getD_eq_getElem?_getD, List.getElem?_eq_none (by omega)]
      exact Nat.zero_le _
  obtain ⟨w2, hw2⟩ := DF.initGo_ok n
    ((List.range' 1 n).map (fun v : Nat => (v : Int)))
    (List.range' 0 (n + 1)) hsafe hoff
    ((List.range' 0 (n + 1)).length - 1) 0
    { w1 := List.replicate ((List.range' 0 (n + 1)).length - 1) 0,
      w2 := List.replicate ((List.range' 0 (n + 1)).length - 1) 0,
      head := List.replicate (2 * n + 1) (-1),
      nodeClause := [], nodeNext := [], nodeLit := [] } (by simp)
  obtain ⟨hlen2, hhd2⟩ := DF.initGo_head n
    ((List.range' 1 n).map (fun v : Nat => (v : Int)))
    (List.range' 0 (n + 1)) hpos hoff
    ((List.range' 0 (n + 1)).length - 1) 0 _ w2 (by simp) hw2
  rw [hw2]
  refine ⟨_, rfl, rfl, ?_, ?_, ?_⟩
  · rw [DF.buildLitCount_units n]
    simp [List.map_map]
  · rw [DF.buildLitCount_units n]
  · intro i hi
    rw [hhd2 i hi]
    rw [List.getD_eq_getElem?_getD]
    rw [List.getElem?_replicate]
    rw [if_pos (by omega)]
    rfl

end C5ConstructUnits

section C5Choose

/-- The static-choice fold skips every literal that is assigned or cannot
beat the accumulator. -/
theorem DF.chooseFold_const (σ : DF.St) : ∀ (ls : List Int) (acc : Int × Option Int),
    (∀ l ∈ ls, σ.assign l.natAbs ≠ 0 ∨
      (((σ.litCount.lookup l).getD 0 : Nat) : Int) ≤ acc.1) →
    ls.foldl (fun acc lit =>
      let v := lit.natAbs
      if σ.assign v ≠ 0 then acc
      else
        let c : Int := ((σ.litCount.lookup lit).getD 0 : Nat)
        if acc.1 < c then (c, some lit) else acc) acc = acc
  | [], _, _ => rfl
  | l :: ls, acc, h => by
      simp only [List.foldl_cons]
      rcases h l (List.mem_cons_self l ls) with ha | hc
      · rw [if_pos ha]
        exact DF.chooseFold_const σ ls acc
          (fun l2 hl2 => h l2 (List.mem_cons_of_mem l hl2))
      · by_cases ha : σ.assign l.natAbs ≠ 0
        · rw [if_pos ha]
          exact DF.chooseFold_const σ ls acc
            (fun l2 hl2 => h l2 (List.mem_cons_of_mem l hl2))
        · rw [if_neg ha, if_neg (by omega)]
          exact DF.chooseFold_const σ ls acc
            (fun l2 hl2 => h l2 (List.mem_cons_of_mem l hl2))

/-- Under the unit-run invariant, the static heuristic picks the smallest
unassigned variable. -/
theorem DF.chooseStatic_inv (n j : Nat) (σ : DF.St) (hjn : j < n)
    (has : σ.assign = (fun v => if 1 ≤ v ∧ v ≤ j then 1 else 0))
    (hal : σ.allLits = (List.range' 1 n).map (fun v : Nat => (v : Int)))
    (hlc : σ.litCount = (List.range' 1 n).map (fun v : Nat => ((v : Int), 1))) :
    DF.chooseStatic σ = some ((j + 1 : Nat) : Int) := by
  unfold DF.chooseStatic
  rw [hal]
  have hsplit : List.range' 1 n
      = List.range' 1 j ++ (1 + j) :: List.range' (1 + j + 1) (n - j - 1) := by
    have h2 : n - j = n - j - 1 + 1 := by omega
    have h3 : n - j + j = n := by omega
    have happ := List.range'_append 1 j (n - j) 1
    simp only [one_mul] at happ
    rw [h3] at happ
    rw [← happ, h2, List.range'_succ]
    simp
  rw [hsplit]
  simp only [List.map_append, List.map_cons, List.foldl_append, List.foldl_cons]
  rw [DF.chooseFold_const σ _ ((-1 : Int), (none : Option Int)) ?_]
  · have hacc : (if σ.assign ((1 + j : Nat) : Int).natAbs ≠ 0
          then ((-1 : Int), (none : Option Int))
        else
          if (-1 : Int) < (((σ.litCount.lookup ((1 + j : Nat) : Int)).getD 0 : Nat) : Int)
          then ((((σ.litCount.lookup ((1 + j : Nat) : Int)).getD 0 : Nat) : Int),
                some ((1 + j : Nat) : Int))
          else ((-1 : Int), (none : Option Int)))
        = ((1 : Int), some ((1 + j : Nat) : Int)) := by
      rw [Int.natAbs_ofNat]
      simp only [has]
      rw [if_neg (by omega : ¬(1 ≤ 1 + j ∧ 1 + j ≤ j))]
      rw [hlc, DF.lookup_units n 1 (1 + j) 1 (by omega) (by omega)]
      norm_num
    rw [hacc]
    rw [DF.chooseFold_const σ _ ((1 : Int), some ((1 + j : Nat) : Int)) ?_]
    · have hcast : ((1 + j : Nat) : Int) = ((j + 1 : Nat) : Int) := by
        push_cast
        ring
      rw [hcast]
    · intro l hl
      obtain ⟨v, hv, rfl⟩ := List.mem_map.mp hl
      have hvr := List.mem_range'_1.mp hv
      right
      rw [hlc, DF.lookup_units n 1 v 1 (by omega) (by omega)]
      norm_num
  · intro l hl
    obtain ⟨v, hv, rfl⟩ := List.mem_map.mp hl
    have hvr := List.mem_range'_1.mp hv
    left
    rw [Int.natAbs_ofNat]
    simp only [has]
    rw [if_pos (by omega : 1 ≤ v ∧ v ≤ j)]
    norm_num

end C5Choose

section C5Step

/-- One decision iteration of the `unitClauses` run: before the first limit
check, the loop assigns the next variable and recurses with one more step
on the counter. -/
theorem DF.c5_step (n j fuel steps0 rng : Nat) (t : Rat)
    (elapsed : Nat → Rat) (stack : List (Int × Nat × Bool)) (σ : DF.St)
    (hInv : DF.c5Inv n j σ) (hjn : j < n) (hsteps : steps0 + 1 < 1024)
    (hfuel : 2 ≤ fuel) :
    DF.c5Inv n (j + 1)
      (DF.assignLit { σ with trailStart := σ.trail.length,
                             splitCount := σ.splitCount + 1 }
        ((j + 1 : Nat) : Int)).2 ∧
    DF.solveLoop (some t) DF.staticStr elapsed (fuel + 1) steps0 1024 stack σ rng
      = DF.solveLoop (some t) DF.staticStr elapsed fuel (steps0 + 1) 1024
          ((((j + 1 : Nat) : Int), σ.trail.length, false) :: stack)
          (DF.assignLit { σ with trailStart := σ.trail.length,
                                 splitCount := σ.splitCount + 1 }
            ((j + 1 : Nat) : Int)).2 rng := by
  obtain ⟨hnv, has, htr, hts, hal, hlc, hhd⟩ := hInv
  have hq : (σ.trail.drop σ.trailStart).map
      (fun v => if σ.assign v = 1 then -(v : Int) else (v : Int))
      = if j = 0 then [] else [-(j : Int)] := by
    rw [htr, hts]
    by_cases hj0 : j = 0
    · subst hj0
      simp
    · rw [if_neg hj0]
      have hdec : List.range' 1 j = List.range' 1 (j - 1) ++ [j] := by
        have h2 : 1 + (j - 1) = j := by omega
        have happ := List.range'_append 1 (j - 1) 1 1
        simp only [one_mul] at happ
        rw [h2] at happ
        rw [← happ, List.range'_one]
      rw [hdec]
      have hlen : j - 1 = (List.range' 1 (j - 1)).length := by
        rw [List.length_range']
      nth_rewrite 1 [hlen]
      rw [List.drop_left]
      simp only [List.map_cons, List.map_nil]
      simp only [has]
      rw [if_pos (show 1 ≤ j ∧ j ≤ j by omega)]
      rw [if_pos rfl]
  have hprop : DF.propagateW fuel σ = some (true, σ.trail.length, σ) := by
    obtain ⟨f3, rfl⟩ : ∃ f3, fuel = f3 + 1 + 1 := ⟨fuel - 2, by omega⟩
    unfold DF.propagateW
    dsimp only
    rw [hq]
    by_cases hj0 : j = 0
    · rw [if_pos hj0]
      rfl
    · rw [if_neg hj0]
      have hwat : DF.watchersOf σ (-(j : Int)) = [] := by
        unfold DF.watchersOf
        have hidx : DF.headIdx σ (-(j : Int)) = n - j := by
          unfold DF.headIdx
          rw [hnv]
          omega
        rw [hidx, hhd (n - j) (by omega)]
        rw [DF.snapshotChain]
        rw [if_pos (by norm_num)]
      rw [DF.propagateWAux]
      rw [hwat]
      rw [DF.procWatchersF]
      rfl
  have hcb : DF.chooseBranchLit { σ with trailStart := σ.trail.length }
      DF.staticStr rng = (some ((j + 1 : Nat) : Int), rng) := by
    rw [DF.chooseBranchLit]
    rw [if_neg (by decide), if_neg (by decide)]
    rw [DF.chooseStatic_inv n j { σ with trailStart := σ.trail.length }
      hjn has hal hlc]
  refine ⟨?hi, ?he⟩
  case he =>
    rw [DF.solveLoop]
    dsimp only
    rw [if_neg (show ¬(1024 ≤ steps0 + 1) by omega)]
    dsimp only
    rw [hprop]
    dsimp only
    simp only [Bool.not_true, Bool.false_eq_true, if_false]
    split
    · next hallt =>
        exfalso
        rw [List.all_eq_true] at hallt
        have h2 := hallt n ?_
        · simp only [has, decide_eq_true_eq] at h2
          rw [if_neg (by omega)] at h2
          exact h2 rfl
        · rw [hnv]
          exact List.mem_range'_1.mpr ⟨by omega, by omega⟩
    · rw [hcb]
  case hi =>
    dsimp only
    unfold DF.assignLit
    dsimp only
    rw [Int.natAbs_ofNat]
    simp only [has]
    rw [if_neg (by omega : ¬(1 ≤ j + 1 ∧ j + 1 ≤ j))]
    rw [if_neg (by norm_num : ¬((0 : Int) ≠ 0))]
    rw [if_pos (show (0 : Int) < ((j + 1 : Nat) : Int) by exact_mod_cast Nat.succ_pos j)]
    dsimp only
    refine ⟨?_, ?_, ?_, ?_, ?_, ?_, ?_⟩
    · exact hnv
    · funext w
      dsimp only
      by_cases hw : w = j + 1
      · rw [if_pos hw, if_pos (by omega)]
      · rw [if_neg hw]
        by_cases hwj : 1 ≤ w ∧ w ≤ j
        · rw [if_pos hwj, if_pos (by omega)]
        · rw [if_neg hwj, if_neg (by omega)]
    · dsimp only
      rw [htr]
      have hrc : List.range' 1 (j + 1) = List.range' 1 j ++ [1 + j] := by
        have happ := List.range'_append 1 j 1 1
        simp only [one_mul] at happ
        rw [List.range'_one] at happ
        rw [show j + 1 = 1 + j from by omega, ← happ]
      rw [hrc]
      simp [Nat.add_comm]
    · dsimp only
      rw [htr, List.length_range']
      omega
    · exact hal
    · exact hlc
    · intro i hi2
      dsimp only
      exact hhd i hi2

end C5Step

section C5Claims

/-- Once the step counter reaches the check threshold and the clock exceeds
the limit, the loop returns the timeout answer. -/
theorem DF.c5_fire (t : Rat) (elapsed : Nat → Rat) (mode : String)
    (fuel steps0 nc rng : Nat) (stack : List (Int × Nat × Bool)) (σ : DF.St)
    (hnc : nc ≤ steps0 + 1) (ht : t < elapsed (steps0 + 1)) :
    DF.solveLoop (some t) mode elapsed (fuel + 1) steps0 nc stack σ rng
      = DF.Res.timeout := by
  rw [DF.solveLoop]
  dsimp only
  rw [if_pos hnc, if_pos ht]

/-- Iterating the step lemma from `j` decisions up to the first limit check
yields the timeout answer. -/
theorem DF.c5_iter (n : Nat) (t : Rat) (ht : t < 0) (elapsed : Nat → Rat)
    (hel : ∀ s, 0 ≤ elapsed s) (rng : Nat) :
    ∀ (k j fuel : Nat) (stack : List (Int × Nat × Bool)) (σ : DF.St),
      DF.c5Inv n j σ → j + k = 1023 → 1024 ≤ n → k + 2 ≤ fuel →
      DF.solveLoop (some t) DF.staticStr elapsed fuel j 1024 stack σ rng
        = DF.Res.timeout
  | 0, j, fuel, stack, σ, hInv, hjk, hn, hfuel => by
      obtain ⟨f2, rfl⟩ : ∃ f2, fuel = f2 + 1 := ⟨fuel - 1, by omega⟩
      exact DF.c5_fire t elapsed DF.staticStr f2 j 1024 rng stack σ (by omega)
        (lt_of_lt_of_le ht (hel (j + 1)))
  | k + 1, j, fuel, stack, σ, hInv, hjk, hn, hfuel => by
      obtain ⟨f2, rfl⟩ : ∃ f2, fuel = f2 + 1 := ⟨fuel - 1, by omega⟩
      obtain ⟨hInv2, heq⟩ := DF.c5_step n j f2 j rng t elapsed stack σ hInv
        (by omega) (by omega) (by omega)
      rw [heq]
      exact DF.c5_iter n t ht elapsed hel rng k (j + 1) f2 _ _ hInv2 (by omega)
        hn (by omega)

/-- The loop never reports a timeout when `time_limit` is `None`. -/
theorem DF.solveLoop_none_no_timeout :
    ∀ (fuel : Nat) (mode : String) (elapsed : Nat → Rat) (steps nc rng : Nat)
      (stack : List (Int × Nat × Bool)) (σ : DF.St),
      DF.solveLoop none mode elapsed fuel steps nc stack σ rng ≠ DF.Res.timeout
  | 0, mode, elapsed, steps, nc, rng, stack, σ => by
      rw [DF.solveLoop]
      simp
  | fuel + 1, mode, elapsed, steps, nc, rng, stack, σ => by
      rw [DF.solveLoop]
      dsimp only
      split
      · simp
      · next ok newTs σp hp =>
          split
          · split
            · simp
            · next σ2 stack2 hb =>
                exact DF.solveLoop_none_no_timeout fuel mode elapsed _ _ rng
                  stack2 σ2
          · split
            · simp
            · split
              · simp
              · next bl rng2 hc =>
                  exact DF.solveLoop_none_no_timeout fuel mode elapsed _ _ rng2
                    _ _

set_option maxRecDepth 4000 in
/-- C5 (counterexample): a non-positive `time_limit` does not disable the
limit — with `time_limit = -1` (non-positive) on 1024 unit clauses, the
first limit check (at 1024 loop iterations) fires, since the elapsed time
exceeds every negative bound, and `solve` returns Timeout instead of the
SAT answer the search would reach. -/
theorem claimC5_cex :
    (-1 : Rat) ≤ 0 ∧
    DF.solveFromClauses (unitClauses 1024) 1024 (some (-1)) DF.staticStr 0
      (fun _ => 0) 1025 = some DF.Res.timeout := by
  refine ⟨by norm_num, ?_⟩
  obtain ⟨σc, hσc, hnv, hal, hlc, hhd⟩ := DF.construct_units 1024
  unfold DF.solveFromClauses
  rw [hσc]
  simp only [Option.map_some']
  unfold DF.solveSt
  dsimp only
  simp only [Option.some.injEq]
  refine DF.c5_iter 1024 (-1) (by norm_num) (fun _ => 0) (fun s => le_refl 0) 0
    1023 0 1025 [] _ ?_ (by omega) (by omega) (by omega)
  refine ⟨hnv, ?_, rfl, rfl, hal, hlc, hhd⟩
  funext v
  rw [if_neg (by omega : ¬(1 ≤ v ∧ v ≤ 0))]

set_option maxRecDepth 4000 in
/-- C5 (amended): `time_limit=None` (absent) disables the limit — the main
loop and `solve` never return Timeout — but a non-positive numeric
`time_limit` does not: on 1024 unit clauses with `time_limit = -1` the first
limit check returns Timeout. -/
theorem claimC5_amended :
    (∀ (fuel : Nat) (mode : String) (elapsed : Nat → Rat)
        (steps nc rng : Nat) (stack : List (Int × Nat × Bool)) (σ : DF.St),
        DF.solveLoop none mode elapsed fuel steps nc stack σ rng
          ≠ DF.Res.timeout) ∧
    (∀ (σc : DF.St) (mode : String) (seed : Nat) (elapsed : Nat → Rat)
        (fuel : Nat),
        DF.solveSt σc none mode seed elapsed fuel ≠ DF.Res.timeout) ∧
    DF.solveFromClauses (unitClauses 1024) 1024 (some (-1)) DF.staticStr 0
      (fun _ => 0) 1025 = some DF.Res.timeout := by
  refine ⟨DF.solveLoop_none_no_timeout, ?_, ?_⟩
  · intro σc mode seed elapsed fuel
    unfold DF.solveSt
    exact DF.solveLoop_none_no_timeout fuel mode elapsed 0 1024 seed [] _
  · obtain ⟨σc, hσc, hnv, hal, hlc, hhd⟩ := DF.construct_units 1024
    unfold DF.solveFromClauses
    rw [hσc]
    simp only [Option.map_some']
    unfold DF.solveSt
    dsimp only
    simp only [Option.some.injEq]
    refine DF.c5_iter 1024 (-1) (by norm_num) (fun _ => 0) (fun s => le_refl 0)
      0 1023 0 1025 [] _ ?_ (by omega) (by omega) (by omega)
    refine ⟨hnv, ?_, rfl, rfl, hal, hlc, hhd⟩
    funext v
    rw [if_neg (by omega : ¬(1 ≤ v ∧ v ≤ 0))]

theorem claimC5_amended_witness :
    DF.solveSt DF.trivSt none DF.staticStr 0 (fun _ => 0) 3 ≠ DF.Res.timeout :=
  claimC5_amended.2.1 DF.trivSt DF.staticStr 0 (fun _ => 0) 3

end C5Claims
